import Mathlib

/-!
# hog-actions: the semver engine and the issue commands

A shallow embedding of `src/internal/semveractions/semveractions.go` and of the functions of
`get-latest-semver-tag`, `get-next-semver`, `create-issue`, `find-issue` and `close-issue`
that the properties below are about.

Conventions of the embedding.

* A Go `string` is a Lean `String`, read as its list of characters (`String.data`).
* Go's `uint` is a natural number below `2 ^ 64`; `++` on a `uint` is addition modulo `2 ^ 64`.
  Go's `int` is an `Int`, and the conversion `int(x)` of a `uint` is `goInt`, which reads the
  same 64 bits as a signed number.
* A Go result `(value, error)` is an `Except String value`, the string being the error text;
  a bare `error` is an `Option String` (`none` is `nil`).
* What a function learns from outside (the git tags, the answers of the GitHub API, the JSON
  decoding of a body) is an argument of its embedding; the requests that `run` of close-issue
  issues are returned with its result.
* `versionkit.ParseSemanticVersion`, `SemanticVersion.Compare` and `SemanticVersion.String`
  belong to the imported module `github.com/half-ogre/go-kit/versionkit`, whose code is not
  part of the repository.  They are modelled from sections 4.1, 4.2 and 6 of the
  specification.
* `sort.Slice` is Go's standard library.  It is modelled by its contract (`SortSliceContract`):
  the result is a rearrangement of the input and, for a comparison that is a strict weak
  order, no element is smaller than one before it.  Which of several equal elements comes
  last is left open, as `sort.Slice` is not stable.
-/

namespace HogActions

/-! ## Go strings -/

/-- Go `strings.HasPrefix(s, pfx)`. -/
def HasPrefix (s pfx : String) : Bool :=
  decide (pfx.data.length ≤ s.data.length) && decide (s.data.take pfx.data.length = pfx.data)

/-- Go `strings.TrimPrefix(s, pfx)`: `s[len(pfx):]` when `s` starts with `pfx`, else `s`. -/
def TrimPrefix (s pfx : String) : String :=
  if HasPrefix s pfx then String.mk (s.data.drop pfx.data.length) else s

/-- Go `fmt.Sprintf("%d", n)` for an unsigned integer. -/
def fmtD (n : Nat) : String := Nat.repr n

/-! ## versionkit -/

/-- Number of values of Go's `uint` on a 64-bit platform. -/
def uintSize : Nat := 2 ^ 64

/-- The type `versionkit.SemanticVersion`: three `uint` fields and two strings. -/
structure SemanticVersion where
  MajorVersion : Nat
  MinorVersion : Nat
  PatchVersion : Nat
  PreReleaseVersion : String
  BuildMetadata : String
  deriving DecidableEq, Repr

/-- The numeric fields of a version fit Go's `uint`. -/
def SemanticVersion.InRange (v : SemanticVersion) : Prop :=
  v.MajorVersion < uintSize ∧ v.MinorVersion < uintSize ∧ v.PatchVersion < uintSize

instance (v : SemanticVersion) : Decidable v.InRange := by
  unfold SemanticVersion.InRange; infer_instance

/-- Cut a string at the first occurrence of `sep`: the part before it and, when `sep` occurs,
the part after it. -/
def cutAt (sep : Char) : List Char → List Char × Option (List Char)
  | [] => ([], none)
  | c :: cs =>
    if c = sep then ([], some cs)
    else ((c :: (cutAt sep cs).1), (cutAt sep cs).2)

/-- The dot-separated pieces of a string (Go `strings.Split(s, ".")`); never the empty list. -/
def splitDots : List Char → List (List Char)
  | [] => [[]]
  | c :: cs =>
    if c = '.' then [] :: splitDots cs
    else
      match splitDots cs with
      | [] => [[c]]
      | piece :: more => (c :: piece) :: more

/-- Value of a string of decimal digits, most significant digit first. -/
def digitsValue (cs : List Char) : Nat :=
  cs.foldl (fun n c => 10 * n + (c.toNat - '0'.toNat)) 0

/-- One or more ASCII digits. -/
def isNumericIdent (cs : List Char) : Bool :=
  !cs.isEmpty && cs.all Char.isDigit

/-- A leading zero followed by another character. -/
def hasLeadingZero : List Char → Bool
  | '0' :: _ :: _ => true
  | _ => false

/-- A character of the class `[0-9A-Za-z-]`. -/
def isIdentChar (c : Char) : Bool :=
  c.isDigit || c.isAlpha || c == '-'

/-- Modelled from the spec: a `major`, `minor` or `patch` component of section 4.1, absent from
the source with the rest of versionkit: one or more ASCII digits, `"0"` valid, no leading zero
before another digit, and a value that the `uint` field of the version can hold. -/
def parseNumber (cs : List Char) : Option Nat :=
  if isNumericIdent cs && !hasLeadingZero cs && decide (digitsValue cs < uintSize) then
    some (digitsValue cs)
  else none

/-- Modelled from the spec: a prerelease identifier of section 4.1: it matches `[0-9A-Za-z-]+`,
and when it is all digits it has no leading zero unless it is exactly `"0"`. -/
def validPrereleaseIdent (cs : List Char) : Bool :=
  !cs.isEmpty && cs.all isIdentChar && !(isNumericIdent cs && hasLeadingZero cs)

/-- Modelled from the spec: a build identifier of section 4.1: it matches `[0-9A-Za-z-]+`; the
leading-zero restriction does not apply. -/
def validBuildIdent (cs : List Char) : Bool :=
  !cs.isEmpty && cs.all isIdentChar

/-- Modelled from the spec: the parser of section 4.1 on the characters of the input, for
`versionkit.ParseSemanticVersion`, which is absent from the source.  Grammar
`major "." minor "." patch ["-" prerelease] ["+" build]`: the build section starts at the first
`+`, the prerelease section at the first `-` before it, and what is left is the triplet. -/
def parseChars (cs : List Char) : Option SemanticVersion :=
  let withoutBuild := (cutAt '+' cs).1
  let build := (cutAt '+' cs).2
  let core := (cutAt '-' withoutBuild).1
  let pre := (cutAt '-' withoutBuild).2
  match splitDots core with
  | [a, b, c] =>
    match parseNumber a, parseNumber b, parseNumber c with
    | some major, some minor, some patch =>
      if (match pre with
          | none => true
          | some p => (splitDots p).all validPrereleaseIdent) &&
         (match build with
          | none => true
          | some m => (splitDots m).all validBuildIdent) then
        some { MajorVersion := major, MinorVersion := minor, PatchVersion := patch,
               PreReleaseVersion := String.mk (pre.getD []),
               BuildMetadata := String.mk (build.getD []) }
      else none
    | _, _, _ => none
  | _ => none

/-- Modelled from the spec: the text of versionkit's parse error, absent from the source; the
spec only asks for a descriptive error that echoes the offending input. -/
def parseErrorText (s : String) : String :=
  "invalid semantic version: " ++ s

/-- Modelled from the spec: `versionkit.ParseSemanticVersion`, absent from the source, as the
parser of section 4.1: a version, or a parse error. -/
def ParseSemanticVersion (s : String) : Except String SemanticVersion :=
  match parseChars s.data with
  | some v => .ok v
  | none => .error (parseErrorText s)

/-- Lexicographic comparison of two sequences under `cmp`: the first difference decides, and
when one sequence is a proper initial part of the other, the shorter one is smaller. -/
def lexCompare {α : Type} (cmp : α → α → Ordering) : List α → List α → Ordering
  | [], [] => .eq
  | [], _ :: _ => .lt
  | _ :: _, [] => .gt
  | a :: as, b :: bs => (cmp a b).then (lexCompare cmp as bs)

/-- Comparison of two characters by code point. -/
def compareChar (a b : Char) : Ordering := compare a.toNat b.toNat

/-- Modelled from the spec: comparison of two prerelease identifiers (section 4.2, step 3),
absent from the source with the rest of versionkit: a numeric identifier is below an
alphanumeric one, two numeric identifiers compare by integer value, two alphanumeric ones
lexically by code point. -/
def compareIdent (a b : List Char) : Ordering :=
  match isNumericIdent a, isNumericIdent b with
  | true, true => compare (digitsValue a) (digitsValue b)
  | true, false => .lt
  | false, true => .gt
  | false, false => lexCompare compareChar a b

/-- Modelled from the spec: comparison of two prerelease strings (section 4.2, steps 2 and 3):
a version without prerelease is greater than one with it; two prereleases compare identifier by
identifier. -/
def comparePrerelease (a b : String) : Ordering :=
  if a = "" then (if b = "" then .eq else .gt)
  else if b = "" then .lt
  else lexCompare compareIdent (splitDots a.data) (splitDots b.data)

/-- Modelled from the spec: the precedence of section 4.2 as an `Ordering`: major, then minor,
then patch, then the prerelease; build metadata is never inspected. -/
def comparePrecedence (a b : SemanticVersion) : Ordering :=
  (compare a.MajorVersion b.MajorVersion).then
    ((compare a.MinorVersion b.MinorVersion).then
      ((compare a.PatchVersion b.PatchVersion).then
        (comparePrerelease a.PreReleaseVersion b.PreReleaseVersion)))

/-- Modelled from the spec: `SemanticVersion.Compare`, absent from the source, as the comparator
of section 4.2: negative for LESS, zero for EQUAL, positive for GREATER. -/
def SemanticVersion.Compare (a b : SemanticVersion) : Int :=
  match comparePrecedence a b with
  | .lt => -1
  | .eq => 0
  | .gt => 1

/-! ## sort.Slice -/

/-- A comparison `less` is a strict weak order: it is asymmetric, and "not less" is
transitive. -/
def StrictWeakOrder {α : Type} (less : α → α → Bool) : Prop :=
  (∀ a b, less a b = true → less b a = false) ∧
  (∀ a b c, less b a = false → less c b = false → less c a = false)

/-- No element of the list is `less` than one before it. -/
def SortedBy {α : Type} (less : α → α → Bool) (xs : List α) : Prop :=
  xs.Pairwise (fun a b => less b a = false)

/-- The contract of Go's `sort.Slice`, for a function from the comparison and the slice to the
slice after the call: the slice is rearranged, and when the comparison is a strict weak order it
ends up sorted.  Nothing is said about the order of equal elements. -/
def SortSliceContract {α : Type} (sortSlice : (α → α → Bool) → List α → List α) : Prop :=
  (∀ less xs, (sortSlice less xs).Perm xs) ∧
  (∀ less, StrictWeakOrder less → ∀ xs, SortedBy less (sortSlice less xs))

/-- Inner loop of Go's `insertionSortLessFunc`: the new element `x` moves left past every
element it is less than.  `done` is the sorted part, last element first. -/
def sinkLeft {α : Type} (less : α → α → Bool) (x : α) : List α → List α
  | [] => [x]
  | y :: ys => if less x y then y :: sinkLeft less x ys else x :: y :: ys

/-- Go's `insertionSortLessFunc`, the sort `sort.Slice` runs on a slice of at most 12 elements. -/
def insertionSortLessFunc {α : Type} (less : α → α → Bool) (xs : List α) : List α :=
  (xs.foldl (fun done x => sinkLeft less x done) []).reverse

/-! ## semveractions.go -/

/-- `ParseVersionWithPrefix`: strip the prefix when present, then parse.  On failure Go returns
`(nil, "", err)`, on success `(semver, versionWithoutPrefix, nil)`. -/
def ParseVersionWithPrefix (versionStr pfx : String) : Except String (SemanticVersion × String) :=
  let versionWithoutPrefix := TrimPrefix versionStr pfx
  match ParseSemanticVersion versionWithoutPrefix with
  | .error err => .error ("error parsing version " ++ versionStr ++ ": " ++ err)
  | .ok semver => .ok (semver, versionWithoutPrefix)

/-- `FormatVersionWithPrefix`. -/
def FormatVersionWithPrefix (version : SemanticVersion) (pfx : String) : String :=
  let versionStr :=
    fmtD version.MajorVersion ++ "." ++ fmtD version.MinorVersion ++ "." ++
      fmtD version.PatchVersion
  let versionStr :=
    if version.PreReleaseVersion ≠ "" then versionStr ++ ("-" ++ version.PreReleaseVersion)
    else versionStr
  let versionStr :=
    if version.BuildMetadata ≠ "" then versionStr ++ ("+" ++ version.BuildMetadata)
    else versionStr
  pfx ++ versionStr

/-- The error text shared by `IncrementVersion` and `ValidateIncrementFlags`. -/
def bothFlagsMessage : String :=
  "cannot increment both major and minor versions simultaneously"

/-- `IncrementVersion`.  On failure Go returns `(nil, "", err)`, on success
`(&newVersion, incrementType, nil)`; `++` on a `uint` wraps at `uintSize`. -/
def IncrementVersion (current : SemanticVersion) (incrementMajor incrementMinor : Bool) :
    Except String (SemanticVersion × String) :=
  if incrementMajor && incrementMinor then
    .error bothFlagsMessage
  else
    let newVersion : SemanticVersion :=
      { MajorVersion := current.MajorVersion
        MinorVersion := current.MinorVersion
        PatchVersion := current.PatchVersion
        PreReleaseVersion := ""
        BuildMetadata := "" }
    if incrementMajor then
      .ok ({ newVersion with
              MajorVersion := (newVersion.MajorVersion + 1) % uintSize
              MinorVersion := 0
              PatchVersion := 0 }, "major")
    else if incrementMinor then
      .ok ({ newVersion with
              MinorVersion := (newVersion.MinorVersion + 1) % uintSize
              PatchVersion := 0 }, "minor")
    else
      .ok ({ newVersion with PatchVersion := (newVersion.PatchVersion + 1) % uintSize }, "patch")

/-- `ValidateIncrementFlags`. -/
def ValidateIncrementFlags (incrementMajor incrementMinor : Bool) : Option String :=
  if incrementMajor && incrementMinor then some bothFlagsMessage else none

/-- `TagWithVersion` pairs a git tag with its parsed semantic version. -/
structure TagWithVersion where
  Tag : String
  Version : SemanticVersion
  deriving DecidableEq, Repr

/-- The comparison `FindLatestSemverTag` hands to `sort.Slice`. -/
def tagLess (x y : TagWithVersion) : Bool :=
  decide (x.Version.Compare y.Version < 0)

/-- The loop of `FindLatestSemverTag`: the tags that start with the prefix and parse once it is
stripped, each with its version, in input order. -/
def collectValidVersions (tags : List String) (pfx : String) : List TagWithVersion :=
  tags.foldl
    (fun validVersions tag =>
      if !HasPrefix tag pfx then validVersions
      else
        match ParseSemanticVersion (TrimPrefix tag pfx) with
        | .error _ => validVersions
        | .ok semver => validVersions ++ [{ Tag := tag, Version := semver }])
    []

/-- `FindLatestSemverTag`, returning `(tag, found, err)`.  `sortSlice` stands for `sort.Slice`.
The slice keeps its length under `sort.Slice`, so the index `len(validVersions)-1` is in range;
the last branch is not reached for a `sortSlice` that rearranges. -/
def FindLatestSemverTag (sortSlice : (TagWithVersion → TagWithVersion → Bool) →
      List TagWithVersion → List TagWithVersion)
    (tags : List String) (pfx : String) : String × Bool × Option String :=
  let validVersions := collectValidVersions tags pfx
  if validVersions.length = 0 then ("", false, none)
  else
    match (sortSlice tagLess validVersions).get? (validVersions.length - 1) with
    | some last => (last.Tag, true, none)
    | none => ("", false, none)

/-- A tag survives the filter of `FindLatestSemverTag`: it starts with the prefix and the rest
parses. -/
def survives (pfx tag : String) : Bool :=
  HasPrefix tag pfx &&
    (match ParseSemanticVersion (TrimPrefix tag pfx) with
     | .ok _ => true
     | .error _ => false)

/-- What one pass of the loop of `FindLatestSemverTag` appends for a tag, if anything. -/
def validVersionOf (pfx tag : String) : Option TagWithVersion :=
  if !HasPrefix tag pfx then none
  else
    match ParseSemanticVersion (TrimPrefix tag pfx) with
    | .error _ => none
    | .ok semver => some { Tag := tag, Version := semver }

/-! ## The grammar of section 4.1, as the specification words it -/

/-- A numeric component: one or more ASCII digits, without a leading zero before another
digit. -/
def SpecNumber (cs : List Char) : Prop :=
  isNumericIdent cs = true ∧ hasLeadingZero cs = false

/-- A section introduced by `mark`: absent, or `mark` and the identifiers joined by dots. -/
def specSection (mark : Char) : Option (List (List Char)) → List Char
  | none => []
  | some ids => mark :: [ '.' ].intercalate ids

/-- The string `s` is `major "." minor "." patch ["-" prerelease] ["+" build]` for these
components: three numeric components, an optional prerelease of one or more dot-separated
prerelease identifiers, an optional build section of one or more dot-separated build
identifiers. -/
def IsVersionString (s : String) (major minor patch : List Char)
    (pre build : Option (List (List Char))) : Prop :=
  SpecNumber major ∧ SpecNumber minor ∧ SpecNumber patch ∧
  (∀ ids, pre = some ids → ids ≠ [] ∧ ∀ i ∈ ids, validPrereleaseIdent i = true) ∧
  (∀ ids, build = some ids → ids ≠ [] ∧ ∀ i ∈ ids, validBuildIdent i = true) ∧
  s.data = major ++ '.' :: minor ++ '.' :: patch ++ specSection '-' pre ++ specSection '+' build

/-- The string `s` is syntactically valid: it has the shape of the grammar for some
components. -/
def ValidVersionString (s : String) : Prop :=
  ∃ major minor patch pre build, IsVersionString s major minor patch pre build



/-! ## semveractions.go: further functions -/

/-- `ParseVersionWithPrefix` with Go's three return values spelled out:
`(semver, versionWithoutPrefix, err)`, a `nil` pointer and a `nil` error being `none`. -/
def ParseVersionWithPrefixReturns (versionStr pfx : String) :
    Option SemanticVersion × String × Option String :=
  let versionWithoutPrefix := TrimPrefix versionStr pfx
  match ParseSemanticVersion versionWithoutPrefix with
  | .error err => (none, "", some ("error parsing version " ++ versionStr ++ ": " ++ err))
  | .ok semver => (some semver, versionWithoutPrefix, none)

/-- `FilterTagsByPrefix`. -/
def FilterTagsByPrefix (tags : List String) (pfx : String) : List String :=
  tags.foldl
    (fun filteredTags tag => if HasPrefix tag pfx then filteredTags ++ [tag] else filteredTags)
    []

/-- The string `t` starts with the string `p`: `t` is `p` followed by something. -/
def StartsWith (t p : String) : Prop := ∃ rest : String, t = p ++ rest

/-- Go's conversion `int(x)` of a `uint` on a 64-bit platform: the same 64 bits read as a
signed integer. -/
def goInt (x : Nat) : Int :=
  if x % 2 ^ 64 < 2 ^ 63 then ((x % 2 ^ 64 : Nat) : Int) else ((x % 2 ^ 64 : Nat) : Int) - 2 ^ 64

/-- Modelled from the spec: `SemanticVersion.String`, absent from the source with the rest of
versionkit, as the format of section 6:
`major "." minor "." patch ["-" prerelease] ["+" build]`. -/
def SemanticVersion.String (v : SemanticVersion) : String :=
  fmtD v.MajorVersion ++ "." ++ fmtD v.MinorVersion ++ "." ++ fmtD v.PatchVersion ++
    (if v.PreReleaseVersion ≠ "" then "-" ++ v.PreReleaseVersion else "") ++
    (if v.BuildMetadata ≠ "" then "+" ++ v.BuildMetadata else "")

/-! ## get-latest-semver-tag/main.go -/

namespace GetLatestSemverTag

/-- `Config` of get-latest-semver-tag. -/
structure Config where
  Prefix : String
  DefaultVersion : String
  deriving DecidableEq, Repr

/-- `Result` of get-latest-semver-tag; `Error` is `none` for a `nil` error. -/
structure Result where
  Tag : String
  Version : String
  Major : Int
  Minor : Int
  Patch : Int
  Prerelease : String
  Build : String
  Found : Bool
  Success : Bool
  Error : Option String
  deriving DecidableEq, Repr

/-- `findLatestSemverTag` of get-latest-semver-tag: the tag, or `""` when no tag survives.
`sortSlice` stands for `sort.Slice`; the slice keeps its length under it, so the last branch is
not reached for a `sortSlice` that rearranges. -/
def findLatestSemverTag (sortSlice : (TagWithVersion → TagWithVersion → Bool) →
      List TagWithVersion → List TagWithVersion)
    (tags : List String) (pfx : String) : String :=
  let validVersions :=
    tags.foldl
      (fun validVersions tag =>
        if !HasPrefix tag pfx then validVersions
        else
          match ParseSemanticVersion (TrimPrefix tag pfx) with
          | .error _ => validVersions
          | .ok semver => validVersions ++ [{ Tag := tag, Version := semver }])
      []
  if validVersions.length = 0 then ""
  else
    match (sortSlice tagLess validVersions).get? (validVersions.length - 1) with
    | some last => last.Tag
    | none => ""

/-- The part of `run` after the tag list has been obtained (the body that `runWithMockTags` of
the tests shares, up to the error text). -/
def runWithTags (sortSlice : (TagWithVersion → TagWithVersion → Bool) →
      List TagWithVersion → List TagWithVersion)
    (config : Config) (tags : List String) : Result :=
  let result : Result :=
    { Tag := "", Version := "", Major := 0, Minor := 0, Patch := 0, Prerelease := "",
      Build := "", Found := false, Success := false, Error := none }
  let latestTag := findLatestSemverTag sortSlice tags config.Prefix
  let result : Result :=
    if latestTag = "" then { result with Found := false, Tag := config.DefaultVersion }
    else { result with Found := true, Tag := latestTag }
  let versionWithoutPrefix := TrimPrefix result.Tag config.Prefix
  match ParseSemanticVersion versionWithoutPrefix with
  | .error err =>
    { result with Error := some ("error parsing version " ++ result.Tag ++ ": " ++ err) }
  | .ok semver =>
    { result with
        Version := versionWithoutPrefix
        Major := goInt semver.MajorVersion
        Minor := goInt semver.MinorVersion
        Patch := goInt semver.PatchVersion
        Prerelease := semver.PreReleaseVersion
        Build := semver.BuildMetadata
        Success := true }

/-- `run` of get-latest-semver-tag.  `getTags` is what the call of `getTags()` returned: the
tags of the repository, or the error of the git command. -/
def run (sortSlice : (TagWithVersion → TagWithVersion → Bool) →
      List TagWithVersion → List TagWithVersion)
    (getTags : Except String (List String)) (config : Config) : Result :=
  match getTags with
  | .error err =>
    { Tag := "", Version := "", Major := 0, Minor := 0, Patch := 0, Prerelease := "",
      Build := "", Found := false, Success := false,
      Error := some ("error getting tags: " ++ err) }
  | .ok tags => runWithTags sortSlice config tags

end GetLatestSemverTag

/-! ## get-next-semver/main.go -/

namespace GetNextSemver

/-- `Config` of get-next-semver. -/
structure Config where
  CurrentVersion : String
  IncrementMajor : Bool
  IncrementMinor : Bool
  Prefix : String
  deriving DecidableEq, Repr

/-- `Result` of get-next-semver; `Error` is `none` for a `nil` error. -/
structure Result where
  Version : String
  VersionCore : String
  Major : Int
  Minor : Int
  Patch : Int
  IncrementType : String
  Success : Bool
  Error : Option String
  deriving DecidableEq, Repr

/-- `run` of get-next-semver; `++` on a `uint` wraps at `uintSize`. -/
def run (config : Config) : Result :=
  let result : Result :=
    { Version := "", VersionCore := "", Major := 0, Minor := 0, Patch := 0,
      IncrementType := "", Success := false, Error := none }
  let versionWithoutPrefix := TrimPrefix config.CurrentVersion config.Prefix
  match ParseSemanticVersion versionWithoutPrefix with
  | .error err =>
    { result with
        Error := some ("error parsing current version " ++ config.CurrentVersion ++ ": " ++ err) }
  | .ok currentSemver =>
    let next : Nat × Nat × Nat × String :=
      if config.IncrementMajor then
        ((currentSemver.MajorVersion + 1) % uintSize, 0, 0, "major")
      else if config.IncrementMinor then
        (currentSemver.MajorVersion, (currentSemver.MinorVersion + 1) % uintSize, 0, "minor")
      else
        (currentSemver.MajorVersion, currentSemver.MinorVersion,
          (currentSemver.PatchVersion + 1) % uintSize, "patch")
    let nextVersion : SemanticVersion :=
      { MajorVersion := next.1
        MinorVersion := next.2.1
        PatchVersion := next.2.2.1
        PreReleaseVersion := ""
        BuildMetadata := "" }
    let nextVersionCore := nextVersion.String
    let nextVersionWithPrefix := config.Prefix ++ nextVersionCore
    { result with
        Version := nextVersionWithPrefix
        VersionCore := nextVersionCore
        Major := goInt next.1
        Minor := goInt next.2.1
        Patch := goInt next.2.2.1
        IncrementType := next.2.2.2
        Success := true }

end GetNextSemver

/-! ## semveractions.go: CreateSemverResult -/

/-- `SemverResult`; `Error` is `none` for a `nil` error. -/
structure SemverResult where
  Tag : String
  Version : String
  Major : Int
  Minor : Int
  Patch : Int
  Prerelease : String
  Build : String
  Found : Bool
  Success : Bool
  Error : Option String
  deriving DecidableEq, Repr

/-- `CreateSemverResult`. -/
def CreateSemverResult (tag versionWithoutPrefix : String) (semver : SemanticVersion)
    (found : Bool) : SemverResult :=
  { Tag := tag
    Version := versionWithoutPrefix
    Major := goInt semver.MajorVersion
    Minor := goInt semver.MinorVersion
    Patch := goInt semver.PatchVersion
    Prerelease := semver.PreReleaseVersion
    Build := semver.BuildMetadata
    Found := found
    Success := true
    Error := none }

/-- Go `fmt.Sprintf("%d", n)` for a signed integer. -/
def fmtInt (n : Int) : String :=
  match n with
  | Int.ofNat m => Nat.repr m
  | Int.negSucc m => "-" ++ Nat.repr (m + 1)

/-! ## More Go strings -/

/-- The pieces of a string between the occurrences of `sep` (Go `strings.Split(s, sep)` for a
separator of one character); never the empty list. -/
def splitOnChar (sep : Char) : List Char → List (List Char)
  | [] => [[]]
  | c :: cs =>
    if c = sep then [] :: splitOnChar sep cs
    else
      match splitOnChar sep cs with
      | [] => [[c]]
      | piece :: more => (c :: piece) :: more

/-- Go `strings.Split(s, ",")`. -/
def SplitComma (s : String) : List String :=
  (splitOnChar ',' s.data).map String.mk

/-- Go `unicode.IsSpace`: the white space characters of Unicode. -/
def isSpace (c : Char) : Bool :=
  let n := c.toNat
  n = 0x09 || n = 0x0A || n = 0x0B || n = 0x0C || n = 0x0D || n = 0x20 || n = 0x85 ||
    n = 0xA0 || n = 0x1680 || (0x2000 ≤ n && n ≤ 0x200A) || n = 0x2028 || n = 0x2029 ||
    n = 0x202F || n = 0x205F || n = 0x3000

/-- Go `strings.TrimSpace`: the string without its leading and trailing white space. -/
def TrimSpace (s : String) : String :=
  String.mk ((s.data.dropWhile isSpace).reverse.dropWhile isSpace).reverse

/-- Go `strings.EqualFold` on one pair of characters.  Equal characters match; two ASCII
characters match when they are the upper and the lower case of one letter; for a pair with a
character outside ASCII, `unicodeFold lo hi` says whether `hi` is reached from `lo` by
`unicode.SimpleFold`.  `unicodeFold` stands for the case-folding table of Go's `unicode`
package, which is taken as a parameter. -/
def equalFoldRune (unicodeFold : Char → Char → Bool) (sr tr : Char) : Bool :=
  if tr = sr then true
  else
    let lo := if tr.toNat < sr.toNat then tr else sr
    let hi := if tr.toNat < sr.toNat then sr else tr
    if hi.toNat < 128 then
      decide ('A'.toNat ≤ lo.toNat) && decide (lo.toNat ≤ 'Z'.toNat) &&
        decide (hi.toNat = lo.toNat + 'a'.toNat - 'A'.toNat)
    else unicodeFold lo hi

/-- Go `strings.EqualFold` on the characters of two strings: the same length, and character by
character equal under case folding. -/
def equalFoldChars (unicodeFold : Char → Char → Bool) : List Char → List Char → Bool
  | [], [] => true
  | sr :: s, tr :: t => equalFoldRune unicodeFold sr tr && equalFoldChars unicodeFold s t
  | _, _ => false

/-- Go `strings.EqualFold`. -/
def EqualFold (unicodeFold : Char → Char → Bool) (s t : String) : Bool :=
  equalFoldChars unicodeFold s.data t.data

/-- The code point of a character, with the ASCII upper case letters mapped to lower case. -/
def asciiLower (c : Char) : Nat :=
  if 'A'.toNat ≤ c.toNat ∧ c.toNat ≤ 'Z'.toNat then c.toNat + 32 else c.toNat

/-! ## create-issue/main.go -/

namespace CreateIssue

/-- `buildLabels`. -/
def buildLabels (primaryLabel additionalLabels : String) : List String :=
  let labels : List String := [] ++ [primaryLabel]
  if additionalLabels ≠ "" then
    (SplitComma additionalLabels).foldl
      (fun labels label =>
        let trimmed := TrimSpace label
        if trimmed ≠ "" then labels ++ [trimmed] else labels)
      labels
  else labels

end CreateIssue

/-! ## find-issue/main.go -/

namespace FindIssue

/-- `Issue` of find-issue. -/
structure Issue where
  Number : Int
  State : String
  Title : String
  deriving DecidableEq, Repr

/-- What the API answered: the status code and the body. -/
structure HttpResponse where
  StatusCode : Nat
  Body : String
  deriving DecidableEq, Repr

/-- `findIssues`.  `httpGet` is the outcome of building and sending the request (an error, or
the response of the API), `decodeIssues` is the JSON decoding of the body into `[]Issue`. -/
def findIssues (unicodeFold : Char → Char → Bool) (httpGet : Except String HttpResponse)
    (decodeIssues : String → Except String (List Issue)) (title : String) :
    Except String (List Issue) :=
  match httpGet with
  | .error err => .error err
  | .ok resp =>
    if resp.StatusCode ≠ 200 then
      .error ("API request failed with status " ++ fmtD resp.StatusCode ++ ": " ++ resp.Body)
    else
      match decodeIssues resp.Body with
      | .error err => .error err
      | .ok issues =>
        .ok (issues.foldl
          (fun filtered issue =>
            if EqualFold unicodeFold issue.State "open" &&
                EqualFold unicodeFold issue.Title title then filtered ++ [issue]
            else filtered)
          [])

end FindIssue

/-! ## close-issue/main.go -/

namespace CloseIssue

/-- `Config` of close-issue. -/
structure Config where
  Repository : String
  IssueNumber : String
  CommentBody : String
  StateReason : String
  Token : String
  deriving DecidableEq, Repr

/-- `Result` of close-issue; `Error` is `none` for a `nil` error. -/
structure Result where
  CommentID : Int
  Success : Bool
  Error : Option String
  deriving DecidableEq, Repr

/-- A request that `run` issued to the API, with its arguments. -/
inductive ApiCall where
  | addComment (repository issueNumber body token : String)
  | closeIssue (repository issueNumber stateReason token : String)
  deriving DecidableEq, Repr

/-- The second half of `run` of close-issue: the close request and the final result. `result`
and `calls` are the result and the requests so far. -/
def closeStep (closeIssue : String → String → String → String → Option String)
    (config : Config) (result : Result) (calls : List ApiCall) : Result × List ApiCall :=
  let calls := calls ++
    [ApiCall.closeIssue config.Repository config.IssueNumber config.StateReason config.Token]
  match closeIssue config.Repository config.IssueNumber config.StateReason config.Token with
  | some err => ({ result with Error := some ("error closing issue: " ++ err) }, calls)
  | none => ({ result with Success := true }, calls)

/-- `run` of close-issue, with the requests it issued, in order.  `addComment` and `closeIssue`
give the outcome of the two API functions for their arguments. -/
def run (addComment : String → String → String → String → Except String Int)
    (closeIssue : String → String → String → String → Option String) (config : Config) :
    Result × List ApiCall :=
  let result : Result := { CommentID := 0, Success := false, Error := none }
  if config.CommentBody ≠ "" then
    let calls :=
      [ApiCall.addComment config.Repository config.IssueNumber config.CommentBody config.Token]
    match addComment config.Repository config.IssueNumber config.CommentBody config.Token with
    | .error err => ({ result with Error := some ("error adding comment: " ++ err) }, calls)
    | .ok commentID => closeStep closeIssue config { result with CommentID := commentID } calls
  else closeStep closeIssue config result []

end CloseIssue

/-! ## ASCII order -/

/-- The string `x` comes before `y` in ASCII order: at the first place where they differ `x` has
the smaller code point, or `x` stops first. -/
def AsciiLess (x y : List Char) : Prop :=
  (∃ (w : List Char) (c d : Char) (u v : List Char),
      x = w ++ c :: u ∧ y = w ++ d :: v ∧ c.toNat < d.toNat) ∨
    (∃ u : List Char, u ≠ [] ∧ y = x ++ u)

/-! ## The comparator is a total preorder -/

open Batteries in
theorem lexCompare_swap {α : Type} (cmp : α → α → Ordering) [OrientedCmp cmp] :
    ∀ xs ys : List α, (lexCompare cmp xs ys).swap = lexCompare cmp ys xs
  | [], [] => rfl
  | [], _ :: _ => rfl
  | _ :: _, [] => rfl
  | a :: as, b :: bs => by
    simp only [lexCompare, Ordering.swap_then]
    rw [OrientedCmp.symm, lexCompare_swap cmp as bs]

open Batteries in
theorem lexCompare_le_trans {α : Type} (cmp : α → α → Ordering) [TransCmp cmp] :
    ∀ xs ys zs : List α, lexCompare cmp xs ys ≠ .gt → lexCompare cmp ys zs ≠ .gt →
      lexCompare cmp xs zs ≠ .gt
  | [], _, [] => fun _ _ => by simp [lexCompare]
  | [], _, _ :: _ => fun _ _ => by simp [lexCompare]
  | _ :: _, [], _ => fun h _ => absurd rfl h
  | _ :: _, _ :: _, [] => fun _ h => absurd rfl h
  | a :: as, b :: bs, c :: cs => by
    intro hab hbc
    simp only [lexCompare, ne_eq, Ordering.then_eq_gt, not_or, not_and] at hab hbc ⊢
    refine ⟨TransCmp.le_trans hab.1 hbc.1, fun hac => ?_⟩
    cases e : cmp a b with
    | gt => exact absurd e hab.1
    | lt =>
      have : cmp a c = .lt := TransCmp.lt_le_trans e hbc.1
      rw [hac] at this
      cases this
    | eq =>
      have hbc' : cmp b c = .eq := by rw [← TransCmp.cmp_congr_left e]; exact hac
      exact lexCompare_le_trans cmp as bs cs (hab.2 e) (hbc.2 hbc')

open Batteries in
theorem lexCompare_transCmp {α : Type} (cmp : α → α → Ordering) [TransCmp cmp] :
    TransCmp (lexCompare cmp) :=
  { symm := lexCompare_swap cmp
    le_trans := fun {x y z} => lexCompare_le_trans cmp x y z }

open Batteries in
theorem compareChar_transCmp : TransCmp compareChar :=
  inferInstanceAs (TransCmp (compareOn Char.toNat))

open Batteries in
theorem compareIdent_transCmp : TransCmp compareIdent := by
  have hc : TransCmp (lexCompare compareChar) :=
    @lexCompare_transCmp _ compareChar compareChar_transCmp
  have hn : TransCmp (compareOn digitsValue) := inferInstance
  refine @TransCmp.mk _ _ ⟨fun x y => ?_⟩ (fun {x y z} => ?_)
  · unfold compareIdent
    cases isNumericIdent x <;> cases isNumericIdent y
    · exact hc.symm x y
    · rfl
    · rfl
    · exact hn.symm x y
  · unfold compareIdent
    cases isNumericIdent x <;> cases isNumericIdent y <;> cases isNumericIdent z <;>
      simp only [ne_eq, not_true_eq_false, not_false_eq_true, reduceCtorEq, imp_self,
        false_implies, implies_true]
    · exact hc.le_trans
    · exact hn.le_trans

open Batteries in
theorem comparePrerelease_transCmp : TransCmp comparePrerelease := by
  have hl : TransCmp (lexCompare compareIdent) :=
    @lexCompare_transCmp _ compareIdent compareIdent_transCmp
  refine @TransCmp.mk _ _ ⟨fun x y => ?_⟩ (fun {x y z} => ?_)
  · unfold comparePrerelease
    by_cases hx : x = "" <;> by_cases hy : y = "" <;> simp only [hx, hy, if_true, if_false]
    · rfl
    · rfl
    · rfl
    · exact hl.symm _ _
  · unfold comparePrerelease
    by_cases hx : x = "" <;> by_cases hy : y = "" <;> by_cases hz : z = "" <;>
      simp only [hx, hy, hz, if_true, if_false, ne_eq, not_true_eq_false, not_false_eq_true,
        reduceCtorEq, imp_self, false_implies, implies_true]
    exact hl.le_trans

open Batteries in
theorem comparePrecedence_transCmp : TransCmp comparePrecedence := by
  have hp : TransCmp comparePrerelease := comparePrerelease_transCmp
  have hk : TransCmp (fun a b : SemanticVersion =>
      comparePrerelease a.PreReleaseVersion b.PreReleaseVersion) :=
    @TransCmp.mk _ _ ⟨fun x y => hp.symm _ _⟩ (fun {x y z} => hp.le_trans)
  exact inferInstanceAs (TransCmp
    (compareLex (compareOn SemanticVersion.MajorVersion)
      (compareLex (compareOn SemanticVersion.MinorVersion)
        (compareLex (compareOn SemanticVersion.PatchVersion)
          (fun a b => comparePrerelease a.PreReleaseVersion b.PreReleaseVersion)))))

theorem Compare_neg_iff (a b : SemanticVersion) :
    a.Compare b < 0 ↔ comparePrecedence a b = .lt := by
  unfold SemanticVersion.Compare
  cases comparePrecedence a b <;> simp

theorem Compare_nonneg_iff (a b : SemanticVersion) :
    0 ≤ a.Compare b ↔ comparePrecedence a b ≠ .lt := by
  unfold SemanticVersion.Compare
  cases comparePrecedence a b <;> simp

open Batteries in
theorem tagLess_strictWeakOrder : StrictWeakOrder tagLess := by
  have hT : TransCmp comparePrecedence := comparePrecedence_transCmp
  have key : ∀ x y : TagWithVersion,
      tagLess x y = false ↔ comparePrecedence y.Version x.Version ≠ .gt := by
    intro x y
    unfold tagLess
    rw [decide_eq_false_iff_not, Compare_neg_iff, ne_eq, OrientedCmp.cmp_eq_gt]
  constructor
  · intro a b hab
    rw [key]
    unfold tagLess at hab
    rw [decide_eq_true_iff, Compare_neg_iff] at hab
    rw [hab]
    simp
  · intro a b c h1 h2
    rw [key] at h1 h2 ⊢
    exact hT.le_trans h1 h2

/-! ## Decimal digits -/

theorem toDigitsCore_fuel (n : Nat) : ∀ (fuel : Nat) (ds : List Char), n < fuel →
    Nat.toDigitsCore 10 fuel n ds = Nat.toDigitsCore 10 (n + 1) n [] ++ ds := by
  induction n using Nat.strong_induction_on with
  | _ n ih =>
    intro fuel ds h
    obtain ⟨f, rfl⟩ : ∃ f, fuel = f + 1 := ⟨fuel - 1, by omega⟩
    rw [Nat.toDigitsCore, Nat.toDigitsCore]
    by_cases hq : n / 10 = 0
    · simp [hq]
    · simp only [hq, if_false]
      have hlt : n / 10 < n := by omega
      rw [ih (n / 10) hlt f _ (by omega), ih (n / 10) hlt n [Nat.digitChar (n % 10)] hlt]
      simp

theorem toDigits_step (n : Nat) :
    Nat.toDigits 10 n =
      (if n < 10 then [] else Nat.toDigits 10 (n / 10)) ++ [Nat.digitChar (n % 10)] := by
  unfold Nat.toDigits
  rw [Nat.toDigitsCore]
  by_cases hq : n / 10 = 0
  · have : n < 10 := by omega
    simp [hq, this]
  · have h10 : ¬ n < 10 := by omega
    have hlt : n / 10 < n := by omega
    simp only [hq, if_false, h10]
    exact toDigitsCore_fuel (n / 10) n _ hlt

theorem digitsValue_append (cs : List Char) (c : Char) :
    digitsValue (cs ++ [c]) = 10 * digitsValue cs + (c.toNat - '0'.toNat) := by
  unfold digitsValue
  rw [List.foldl_append]
  rfl

theorem isDigit_bounds (c : Char) (h : c.isDigit = true) : 48 ≤ c.toNat ∧ c.toNat ≤ 57 := by
  unfold Char.isDigit at h
  simp only [Bool.and_eq_true, decide_eq_true_eq] at h
  have h1 : (48 : UInt32) ≤ c.val := h.1
  have h2 : c.val ≤ (57 : UInt32) := h.2
  rw [UInt32.le_def] at h1 h2
  exact ⟨h1, h2⟩

theorem digitChar_of_isDigit (c : Char) (h : c.isDigit = true) :
    Nat.digitChar (c.toNat - '0'.toNat) = c := by
  obtain ⟨h1, h2⟩ := isDigit_bounds c h
  have hc : c = Char.ofNat c.toNat := (Char.ofNat_toNat c).symm
  have h0 : '0'.toNat = 48 := rfl
  rw [h0]
  have : c.toNat = 48 ∨ c.toNat = 49 ∨ c.toNat = 50 ∨ c.toNat = 51 ∨ c.toNat = 52 ∨
      c.toNat = 53 ∨ c.toNat = 54 ∨ c.toNat = 55 ∨ c.toNat = 56 ∨ c.toNat = 57 := by omega
  rcases this with e | e | e | e | e | e | e | e | e | e <;>
    (rw [e]; rw [hc, e]; rfl)

theorem digit_value_lt (c : Char) (h : c.isDigit = true) : c.toNat - '0'.toNat < 10 := by
  obtain ⟨h1, h2⟩ := isDigit_bounds c h
  have h0 : '0'.toNat = 48 := rfl
  omega

theorem digitChar_isDigit (d : Nat) (h : d < 10) :
    (Nat.digitChar d).isDigit = true ∧ (Nat.digitChar d).toNat - '0'.toNat = d := by
  have : d = 0 ∨ d = 1 ∨ d = 2 ∨ d = 3 ∨ d = 4 ∨ d = 5 ∨ d = 6 ∨ d = 7 ∨ d = 8 ∨ d = 9 := by
    omega
  rcases this with e | e | e | e | e | e | e | e | e | e <;> (subst e; exact ⟨rfl, rfl⟩)

theorem toDigits_digitsValue_of_head (cs : List Char) :
    cs ≠ [] → (∀ c ∈ cs, c.isDigit = true) → cs.head? ≠ some '0' →
      Nat.toDigits 10 (digitsValue cs) = cs ∧ 0 < digitsValue cs := by
  induction cs using List.reverseRecOn with
  | nil => intro h; exact absurd rfl h
  | append_singleton init c ih =>
    intro _ hdig hhead
    have hc : c.isDigit = true := hdig c (by simp)
    have hlt := digit_value_lt c hc
    rw [digitsValue_append, toDigits_step]
    cases init with
    | nil =>
      have hne : c ≠ '0' := by simpa using hhead
      have hpos : 0 < c.toNat - '0'.toNat := by
        rcases Nat.eq_zero_or_pos (c.toNat - '0'.toNat) with h0 | h0
        · have := digitChar_of_isDigit c hc
          rw [h0] at this
          exact absurd this.symm hne
        · exact h0
      have hv : digitsValue [] = 0 := rfl
      rw [hv]
      simp only [Nat.mul_zero, Nat.zero_add, hlt, if_true, List.nil_append,
        Nat.mod_eq_of_lt hlt, digitChar_of_isDigit c hc]
      exact ⟨trivial, hpos⟩
    | cons a rest =>
      obtain ⟨ih1, ih2⟩ := ih (by simp) (fun x hx => hdig x (by simp [List.mem_append] at hx ⊢; tauto))
        (by simpa using hhead)
      have h10 : ¬ (10 * digitsValue (a :: rest) + (c.toNat - '0'.toNat) < 10) := by omega
      have hdiv : (10 * digitsValue (a :: rest) + (c.toNat - '0'.toNat)) / 10 =
          digitsValue (a :: rest) := by omega
      have hmod : (10 * digitsValue (a :: rest) + (c.toNat - '0'.toNat)) % 10 =
          c.toNat - '0'.toNat := by omega
      rw [if_neg h10, hdiv, hmod, ih1, digitChar_of_isDigit c hc]
      exact ⟨rfl, by omega⟩

theorem specNumber_cases (cs : List Char) (h : SpecNumber cs) :
    (∀ c ∈ cs, c.isDigit = true) ∧ cs ≠ [] ∧ (cs = ['0'] ∨ cs.head? ≠ some '0') := by
  obtain ⟨h1, h2⟩ := h
  unfold isNumericIdent at h1
  simp only [Bool.and_eq_true, Bool.not_eq_true', List.isEmpty_eq_false, List.all_eq_true] at h1
  refine ⟨h1.2, ?_, ?_⟩
  · intro h; simp [h] at h1
  · match cs, h2 with
    | [], _ => right; simp
    | [c], _ =>
      by_cases hc : c = '0'
      · left; rw [hc]
      · right; simpa using hc
    | c :: d :: rest, h2 =>
      right
      intro hc
      have : c = '0' := by simpa using hc
      subst this
      simp [hasLeadingZero] at h2

theorem repr_digitsValue (cs : List Char) (h : SpecNumber cs) :
    Nat.repr (digitsValue cs) = String.mk cs := by
  obtain ⟨hdig, hne, h0 | hhead⟩ := specNumber_cases cs h
  · subst h0; rfl
  · unfold Nat.repr
    rw [(toDigits_digitsValue_of_head cs hne hdig hhead).1]
    rfl

theorem digitsValue_toDigits (n : Nat) :
    digitsValue (Nat.toDigits 10 n) = n ∧ ∀ c ∈ Nat.toDigits 10 n, c.isDigit = true := by
  induction n using Nat.strong_induction_on with
  | _ n ih =>
    rw [toDigits_step]
    have hm : n % 10 < 10 := Nat.mod_lt _ (by decide)
    obtain ⟨hd1, hd2⟩ := digitChar_isDigit (n % 10) hm
    by_cases h10 : n < 10
    · rw [if_pos h10, List.nil_append]
      constructor
      · show 10 * 0 + ((Nat.digitChar (n % 10)).toNat - '0'.toNat) = n
        rw [hd2]; omega
      · intro c hc
        rw [List.mem_singleton] at hc
        rw [hc]; exact hd1
    · rw [if_neg h10]
      obtain ⟨ih1, ih2⟩ := ih (n / 10) (by omega)
      constructor
      · rw [digitsValue_append, ih1, hd2]; omega
      · intro c hc
        rcases List.mem_append.1 hc with hc | hc
        · exact ih2 c hc
        · rw [List.mem_singleton] at hc
          rw [hc]; exact hd1

/-! ## Go strings: lemmas -/

theorem HasPrefix_iff (s p : String) : HasPrefix s p = true ↔ ∃ t : String, s = p ++ t := by
  unfold HasPrefix
  constructor
  · intro h
    simp only [Bool.and_eq_true, decide_eq_true_eq] at h
    refine ⟨String.mk (s.data.drop p.data.length), ?_⟩
    apply String.ext
    simp only [String.data_append]
    conv_lhs => rw [← List.take_append_drop p.data.length s.data]
    rw [h.2]
  · rintro ⟨t, rfl⟩
    simp

theorem TrimPrefix_append (p t : String) : TrimPrefix (p ++ t) p = t := by
  unfold TrimPrefix
  rw [if_pos ((HasPrefix_iff _ _).2 ⟨t, rfl⟩)]
  apply String.ext
  simp

theorem TrimPrefix_of_not (s p : String) (h : HasPrefix s p = false) : TrimPrefix s p = s := by
  unfold TrimPrefix
  simp [h]

theorem ParseVersionWithPrefix_ok_iff (s p : String) (v : SemanticVersion) (core : String) :
    ParseVersionWithPrefix s p = .ok (v, core) ↔
      ParseSemanticVersion (TrimPrefix s p) = .ok v ∧ core = TrimPrefix s p := by
  simp only [ParseVersionWithPrefix]
  cases h : ParseSemanticVersion (TrimPrefix s p) with
  | error e => simp
  | ok w =>
    simp only [Except.ok.injEq, Prod.mk.injEq]
    constructor
    · rintro ⟨h1, h2⟩; exact ⟨h1, h2.symm⟩
    · rintro ⟨h1, h2⟩; exact ⟨h1, h2.symm⟩

/-- C1 (as stated, refuted): at the largest `uint` major the major increment returns major 0,
not major + 1. -/
theorem IncrementVersion_major_plus_one_counterexample :
    IncrementVersion
        { MajorVersion := 18446744073709551615, MinorVersion := 4, PatchVersion := 7,
          PreReleaseVersion := "", BuildMetadata := "" } true false ≠
      .ok ({ MajorVersion := 18446744073709551615 + 1, MinorVersion := 0, PatchVersion := 0,
             PreReleaseVersion := "", BuildMetadata := "" }, "major") := by
  intro h
  simp [IncrementVersion, uintSize] at h

/-- C1 (amended): with the two flags not both true, `IncrementVersion` returns
(major + 1 modulo 2^64, 0, 0) and "major" when `incrementMajor` is set, (major, minor + 1 modulo
2^64, 0) and "minor" when `incrementMinor` is set, (major, minor, patch + 1 modulo 2^64) and
"patch" when neither is set; prerelease and build metadata are empty. -/
theorem IncrementVersion_components (v : SemanticVersion) :
    IncrementVersion v true false =
        .ok ({ MajorVersion := (v.MajorVersion + 1) % 2 ^ 64, MinorVersion := 0, PatchVersion := 0,
               PreReleaseVersion := "", BuildMetadata := "" }, "major") ∧
      IncrementVersion v false true =
        .ok ({ MajorVersion := v.MajorVersion, MinorVersion := (v.MinorVersion + 1) % 2 ^ 64,
               PatchVersion := 0, PreReleaseVersion := "", BuildMetadata := "" }, "minor") ∧
      IncrementVersion v false false =
        .ok ({ MajorVersion := v.MajorVersion, MinorVersion := v.MinorVersion,
               PatchVersion := (v.PatchVersion + 1) % 2 ^ 64,
               PreReleaseVersion := "", BuildMetadata := "" }, "patch") :=
  ⟨rfl, rfl, rfl⟩

/-- C2: whenever `IncrementVersion` succeeds, the version it returns has an empty prerelease and
empty build metadata, whatever the input carried. -/
theorem IncrementVersion_clears_prerelease_and_build (v w : SemanticVersion)
    (incrementMajor incrementMinor : Bool) (incrementType : String)
    (h : IncrementVersion v incrementMajor incrementMinor = .ok (w, incrementType)) :
    w.PreReleaseVersion = "" ∧ w.BuildMetadata = "" := by
  unfold IncrementVersion at h
  cases incrementMajor <;> cases incrementMinor <;>
    simp only [Bool.and_self, Bool.and_false, Bool.and_true, Bool.false_eq_true, if_false,
      if_true, Except.ok.injEq, Prod.mk.injEq, reduceCtorEq] at h
  all_goals (obtain ⟨rfl, -⟩ := h; exact ⟨rfl, rfl⟩)

theorem IncrementVersion_clears_prerelease_and_build_witness :
    IncrementVersion
        { MajorVersion := 1, MinorVersion := 2, PatchVersion := 3,
          PreReleaseVersion := "alpha", BuildMetadata := "b" } false false =
      .ok ({ MajorVersion := 1, MinorVersion := 2, PatchVersion := 4,
             PreReleaseVersion := "", BuildMetadata := "" }, "patch") ∧
    ("" : String) = "" ∧ ("" : String) = "" :=
  ⟨rfl, IncrementVersion_clears_prerelease_and_build
    { MajorVersion := 1, MinorVersion := 2, PatchVersion := 3,
      PreReleaseVersion := "alpha", BuildMetadata := "b" }
    { MajorVersion := 1, MinorVersion := 2, PatchVersion := 4,
      PreReleaseVersion := "", BuildMetadata := "" } false false "patch" rfl⟩

/-- C3: `IncrementVersion` returns an error exactly when both flags are true, and otherwise
yields a version; `ValidateIncrementFlags` returns an error under the same condition, and the
two error texts are the same. -/
theorem IncrementVersion_error_iff_both_flags (v : SemanticVersion)
    (incrementMajor incrementMinor : Bool) :
    ((∃ err, IncrementVersion v incrementMajor incrementMinor = .error err) ↔
        (incrementMajor = true ∧ incrementMinor = true)) ∧
      ((∃ w t, IncrementVersion v incrementMajor incrementMinor = .ok (w, t)) ↔
        ¬ (incrementMajor = true ∧ incrementMinor = true)) ∧
      ((∃ err, ValidateIncrementFlags incrementMajor incrementMinor = some err) ↔
        (incrementMajor = true ∧ incrementMinor = true)) ∧
      (∀ err, IncrementVersion v incrementMajor incrementMinor = .error err ↔
        ValidateIncrementFlags incrementMajor incrementMinor = some err) := by
  cases incrementMajor <;> cases incrementMinor <;>
    simp [IncrementVersion, ValidateIncrementFlags, eq_comm]

/-- C8: `FormatVersionWithPrefix v p` is `p`, the decimal major, ".", the decimal minor, ".", the
decimal patch, then "-" and the prerelease exactly when the prerelease is non-empty, then "+"
and the build metadata exactly when the build metadata is non-empty. -/
theorem FormatVersionWithPrefix_eq (v : SemanticVersion) (p : String) :
    FormatVersionWithPrefix v p =
      p ++ Nat.repr v.MajorVersion ++ "." ++ Nat.repr v.MinorVersion ++ "." ++
        Nat.repr v.PatchVersion ++
        (if v.PreReleaseVersion = "" then "" else "-" ++ v.PreReleaseVersion) ++
        (if v.BuildMetadata = "" then "" else "+" ++ v.BuildMetadata) := by
  unfold FormatVersionWithPrefix fmtD
  by_cases h1 : v.PreReleaseVersion = "" <;> by_cases h2 : v.BuildMetadata = "" <;>
    simp [h1, h2, String.append_assoc]

/-- C10: `ParseVersionWithPrefix` removes the prefix only if it is present.  When `s` is `p`
followed by `t`, it succeeds exactly when `t` parses, with the parse of `t` and the core string
`t`; when `s` does not start with `p`, it succeeds exactly when `s` parses, with the parse of
`s` and the core string `s`. -/
theorem ParseVersionWithPrefix_strips_only_when_present (s p : String) :
    (∀ t : String, s = p ++ t → ∀ v core,
        (ParseVersionWithPrefix s p = .ok (v, core) ↔ ParseSemanticVersion t = .ok v ∧ core = t)) ∧
      ((¬ ∃ t : String, s = p ++ t) → ∀ v core,
        (ParseVersionWithPrefix s p = .ok (v, core) ↔ ParseSemanticVersion s = .ok v ∧ core = s)) := by
  constructor
  · rintro t rfl v core
    rw [ParseVersionWithPrefix_ok_iff, TrimPrefix_append]
  · intro hno v core
    have h : HasPrefix s p = false := by
      cases hp : HasPrefix s p with
      | false => rfl
      | true => exact absurd ((HasPrefix_iff s p).1 hp) hno
    rw [ParseVersionWithPrefix_ok_iff, TrimPrefix_of_not s p h]

theorem ParseVersionWithPrefix_strips_only_when_present_witness :
    ParseVersionWithPrefix "v1.2.3" "v" =
        .ok ({ MajorVersion := 1, MinorVersion := 2, PatchVersion := 3,
               PreReleaseVersion := "", BuildMetadata := "" }, "1.2.3") ∧
      ParseVersionWithPrefix "1.2.3" "v" =
        .ok ({ MajorVersion := 1, MinorVersion := 2, PatchVersion := 3,
               PreReleaseVersion := "", BuildMetadata := "" }, "1.2.3") :=
  ⟨((ParseVersionWithPrefix_strips_only_when_present "v1.2.3" "v").1 "1.2.3" rfl _ _).2 ⟨rfl, rfl⟩,
   ((ParseVersionWithPrefix_strips_only_when_present "1.2.3" "v").2
      (by rintro ⟨t, h⟩; have := congrArg String.data h; simp at this) _ _).2 ⟨rfl, rfl⟩⟩



/-! ## sort.Slice: insertion sort meets the contract -/

theorem sinkLeft_perm {α : Type} (less : α → α → Bool) (x : α) :
    ∀ done : List α, (sinkLeft less x done).Perm (x :: done)
  | [] => List.Perm.refl _
  | y :: ys => by
    unfold sinkLeft
    split
    · exact ((sinkLeft_perm less x ys).cons y).trans (List.Perm.swap x y ys)
    · exact List.Perm.refl _

theorem sinkLeft_descending {α : Type} (less : α → α → Bool) (hless : StrictWeakOrder less)
    (x : α) : ∀ done : List α, done.Pairwise (fun a b => less a b = false) →
      (sinkLeft less x done).Pairwise (fun a b => less a b = false)
  | [], _ => List.pairwise_singleton _ _
  | y :: ys, h => by
    unfold sinkLeft
    rw [List.pairwise_cons] at h
    split
    · rename_i hxy
      rw [List.pairwise_cons]
      refine ⟨fun z hz => ?_, sinkLeft_descending less hless x ys h.2⟩
      rcases List.mem_cons.1 ((sinkLeft_perm less x ys).subset hz) with rfl | hz
      · exact hless.1 _ _ hxy
      · exact h.1 z hz
    · rename_i hxy
      have hxy' : less x y = false := by simpa using hxy
      rw [List.pairwise_cons]
      refine ⟨fun z hz => ?_, List.pairwise_cons.2 h⟩
      rcases List.mem_cons.1 hz with rfl | hz
      · exact hxy'
      · exact hless.2 z y x (h.1 z hz) hxy'

theorem insertionLoop_perm {α : Type} (less : α → α → Bool) :
    ∀ (xs done : List α),
      (xs.foldl (fun done x => sinkLeft less x done) done).Perm (xs.reverse ++ done)
  | [], done => by simp
  | x :: xs, done => by
    rw [List.foldl_cons]
    refine (insertionLoop_perm less xs (sinkLeft less x done)).trans ?_
    rw [List.reverse_cons, List.append_assoc]
    exact List.Perm.append_left _ (sinkLeft_perm less x done)

theorem insertionLoop_descending {α : Type} (less : α → α → Bool)
    (hless : StrictWeakOrder less) :
    ∀ (xs done : List α), done.Pairwise (fun a b => less a b = false) →
      (xs.foldl (fun done x => sinkLeft less x done) done).Pairwise (fun a b => less a b = false)
  | [], _, h => h
  | x :: xs, done, h => by
    rw [List.foldl_cons]
    exact insertionLoop_descending less hless xs _ (sinkLeft_descending less hless x done h)

theorem insertionSortLessFunc_contract {α : Type} :
    SortSliceContract (insertionSortLessFunc : (α → α → Bool) → List α → List α) := by
  constructor
  · intro less xs
    unfold insertionSortLessFunc
    refine (List.reverse_perm _).trans ((insertionLoop_perm less xs []).trans ?_)
    rw [List.append_nil]
    exact List.reverse_perm xs
  · intro less hless xs
    unfold insertionSortLessFunc SortedBy
    rw [List.pairwise_reverse]
    exact insertionLoop_descending less hless xs [] List.Pairwise.nil

/-! ## FindLatestSemverTag: the loop and the selection -/

theorem collectValidVersions_loop (pfx : String) :
    ∀ (tags : List String) (acc : List TagWithVersion),
      tags.foldl
          (fun validVersions tag =>
            if !HasPrefix tag pfx then validVersions
            else
              match ParseSemanticVersion (TrimPrefix tag pfx) with
              | .error _ => validVersions
              | .ok semver => validVersions ++ [{ Tag := tag, Version := semver }])
          acc =
        acc ++ tags.filterMap (validVersionOf pfx)
  | [], acc => by simp
  | tag :: tags, acc => by
    rw [List.foldl_cons, collectValidVersions_loop pfx tags, List.filterMap_cons]
    unfold validVersionOf
    cases HasPrefix tag pfx with
    | false => simp
    | true =>
      cases ParseSemanticVersion (TrimPrefix tag pfx) with
      | error e => simp
      | ok v => simp

theorem collectValidVersions_eq (tags : List String) (pfx : String) :
    collectValidVersions tags pfx = tags.filterMap (validVersionOf pfx) := by
  unfold collectValidVersions
  rw [collectValidVersions_loop pfx tags []]
  rfl

theorem validVersionOf_eq_some (pfx tag : String) (tv : TagWithVersion) :
    validVersionOf pfx tag = some tv ↔
      tv.Tag = tag ∧ HasPrefix tag pfx = true ∧
        ParseSemanticVersion (TrimPrefix tag pfx) = .ok tv.Version := by
  unfold validVersionOf
  cases HasPrefix tag pfx with
  | false => simp
  | true =>
    cases ParseSemanticVersion (TrimPrefix tag pfx) with
    | error e => simp
    | ok v =>
      cases tv with
      | mk t w =>
        simp only [Bool.not_true, Bool.false_eq_true, if_false, Option.some.injEq,
          TagWithVersion.mk.injEq, Except.ok.injEq, true_and]
        constructor
        · rintro ⟨h1, h2⟩; exact ⟨h1.symm, h2⟩
        · rintro ⟨h1, h2⟩; exact ⟨h1.symm, h2⟩

theorem mem_collectValidVersions (tags : List String) (pfx : String) (tv : TagWithVersion) :
    tv ∈ collectValidVersions tags pfx ↔
      tv.Tag ∈ tags ∧ HasPrefix tv.Tag pfx = true ∧
        ParseSemanticVersion (TrimPrefix tv.Tag pfx) = .ok tv.Version := by
  rw [collectValidVersions_eq, List.mem_filterMap]
  constructor
  · rintro ⟨tag, hmem, h⟩
    obtain ⟨h1, h2, h3⟩ := (validVersionOf_eq_some pfx tag tv).1 h
    subst h1
    exact ⟨hmem, h2, h3⟩
  · rintro ⟨hmem, h2, h3⟩
    exact ⟨tv.Tag, hmem, (validVersionOf_eq_some pfx tv.Tag tv).2 ⟨rfl, h2, h3⟩⟩

theorem survives_iff (pfx tag : String) :
    survives pfx tag = true ↔
      HasPrefix tag pfx = true ∧ ∃ v, ParseSemanticVersion (TrimPrefix tag pfx) = .ok v := by
  unfold survives
  cases HasPrefix tag pfx with
  | false => simp
  | true =>
    cases ParseSemanticVersion (TrimPrefix tag pfx) with
    | error e => simp
    | ok v => simp

theorem validVersionOf_eq_none (pfx tag : String) (h : survives pfx tag = false) :
    validVersionOf pfx tag = none := by
  unfold survives at h
  unfold validVersionOf
  cases hp : HasPrefix tag pfx with
  | false => simp
  | true =>
    rw [hp] at h
    cases hq : ParseSemanticVersion (TrimPrefix tag pfx) with
    | error e => simp
    | ok v => rw [hq] at h; simp at h

theorem collectValidVersions_filter (tags : List String) (pfx : String) :
    collectValidVersions (tags.filter (survives pfx)) pfx = collectValidVersions tags pfx := by
  rw [collectValidVersions_eq, collectValidVersions_eq]
  induction tags with
  | nil => rfl
  | cons tag tags ih =>
    rw [List.filter_cons]
    cases h : survives pfx tag with
    | true => simp only [if_true, List.filterMap_cons, ih]
    | false =>
      simp only [Bool.false_eq_true, if_false, List.filterMap_cons,
        validVersionOf_eq_none pfx tag h, ih]

theorem collectValidVersions_eq_nil_iff (tags : List String) (pfx : String) :
    collectValidVersions tags pfx = [] ↔ ∀ tag ∈ tags, survives pfx tag = false := by
  constructor
  · intro h tag hmem
    cases hs : survives pfx tag with
    | false => rfl
    | true =>
      obtain ⟨hp, v, hv⟩ := (survives_iff pfx tag).1 hs
      have : (⟨tag, v⟩ : TagWithVersion) ∈ collectValidVersions tags pfx :=
        (mem_collectValidVersions tags pfx ⟨tag, v⟩).2 ⟨hmem, hp, hv⟩
      rw [h] at this
      cases this
  · intro h
    rw [List.eq_nil_iff_forall_not_mem]
    intro tv htv
    obtain ⟨hmem, hp, hv⟩ := (mem_collectValidVersions tags pfx tv).1 htv
    have := h tv.Tag hmem
    rw [(survives_iff pfx tv.Tag).2 ⟨hp, tv.Version, hv⟩] at this
    cases this

theorem last_of_sorted {α : Type} (less : α → α → Bool) (hless : StrictWeakOrder less)
    (sorted : List α) (hs : SortedBy less sorted) (n : Nat) (hn : sorted.length = n + 1) :
    ∃ last, sorted.get? n = some last ∧ last ∈ sorted ∧ ∀ x ∈ sorted, less last x = false := by
  have hne : sorted ≠ [] := by
    intro h; rw [h] at hn; simp at hn
  refine ⟨sorted.getLast hne, ?_, List.getLast_mem hne, ?_⟩
  · rw [List.getLast_eq_getElem, List.get?_eq_getElem?]
    have : sorted.length - 1 = n := by omega
    simp only [this]
    exact List.getElem?_eq_getElem _
  · intro x hx
    have hsplit := List.dropLast_append_getLast hne
    unfold SortedBy at hs
    rw [← hsplit, List.pairwise_append] at hs
    rw [← hsplit, List.mem_append, List.mem_singleton] at hx
    rcases hx with hx | rfl
    · exact hs.2.2 x hx _ (List.mem_singleton_self _)
    · cases h : less (sorted.getLast hne) (sorted.getLast hne) with
      | false => rfl
      | true => have := hless.1 _ _ h; rw [h] at this; cases this

theorem FindLatestSemverTag_of_none (sortSlice : (TagWithVersion → TagWithVersion → Bool) →
      List TagWithVersion → List TagWithVersion) (tags : List String) (pfx : String)
    (h : collectValidVersions tags pfx = []) :
    FindLatestSemverTag sortSlice tags pfx = ("", false, none) := by
  simp [FindLatestSemverTag, h]

theorem FindLatestSemverTag_of_some (sortSlice : (TagWithVersion → TagWithVersion → Bool) →
      List TagWithVersion → List TagWithVersion) (hsort : SortSliceContract sortSlice)
    (tags : List String) (pfx : String) (h : collectValidVersions tags pfx ≠ []) :
    ∃ last, last ∈ collectValidVersions tags pfx ∧
      FindLatestSemverTag sortSlice tags pfx = (last.Tag, true, none) ∧
      ∀ tv ∈ collectValidVersions tags pfx, tagLess last tv = false := by
  have hperm := hsort.1 tagLess (collectValidVersions tags pfx)
  have hlen : (collectValidVersions tags pfx).length ≠ 0 := by
    intro h0; exact h (List.length_eq_zero.1 h0)
  obtain ⟨last, hget, hmem, hmax⟩ :=
    last_of_sorted tagLess tagLess_strictWeakOrder _
      (hsort.2 tagLess tagLess_strictWeakOrder (collectValidVersions tags pfx))
      ((collectValidVersions tags pfx).length - 1) (by rw [hperm.length_eq]; omega)
  refine ⟨last, hperm.subset hmem, ?_, fun tv htv => hmax tv (hperm.symm.subset htv)⟩
  simp only [FindLatestSemverTag, hlen, if_false, hget]

/-! ## FindLatestSemverTag: selection properties -/

/-- C4: when `FindLatestSemverTag` reports found = true with tag `t`, the rest of `t` after the
prefix parses to a version that is greater than or equal, under the semver comparison, to the
version of every tag of the list that starts with the prefix and parses once it is stripped. -/
theorem FindLatestSemverTag_is_maximum (sortSlice : (TagWithVersion → TagWithVersion → Bool) →
      List TagWithVersion → List TagWithVersion) (hsort : SortSliceContract sortSlice)
    (tags : List String) (pfx t : String) (err : Option String)
    (h : FindLatestSemverTag sortSlice tags pfx = (t, true, err)) :
    ∃ vt, ParseSemanticVersion (TrimPrefix t pfx) = .ok vt ∧
      ∀ tag ∈ tags, HasPrefix tag pfx = true →
        ∀ v, ParseSemanticVersion (TrimPrefix tag pfx) = .ok v → 0 ≤ vt.Compare v := by
  by_cases hnil : collectValidVersions tags pfx = []
  · rw [FindLatestSemverTag_of_none sortSlice tags pfx hnil] at h
    simp at h
  · obtain ⟨last, hmem, heq, hmax⟩ := FindLatestSemverTag_of_some sortSlice hsort tags pfx hnil
    rw [heq] at h
    have ht : last.Tag = t := congrArg Prod.fst h
    obtain ⟨-, -, hparse⟩ := (mem_collectValidVersions tags pfx last).1 hmem
    refine ⟨last.Version, ht ▸ hparse, fun tag htag hp v hv => ?_⟩
    have hin : (⟨tag, v⟩ : TagWithVersion) ∈ collectValidVersions tags pfx :=
      (mem_collectValidVersions tags pfx ⟨tag, v⟩).2 ⟨htag, hp, hv⟩
    have hle := hmax _ hin
    unfold tagLess at hle
    rw [decide_eq_false_iff_not] at hle
    exact Int.not_lt.1 hle

theorem FindLatestSemverTag_is_maximum_witness :
    FindLatestSemverTag insertionSortLessFunc
        ["v1.0.0", "v1.1.0", "v1.0.1", "release-9.9.9"] "v" = ("v1.1.0", true, none) ∧
      ∃ vt, ParseSemanticVersion (TrimPrefix "v1.1.0" "v") = .ok vt ∧
        ∀ tag ∈ ["v1.0.0", "v1.1.0", "v1.0.1", "release-9.9.9"], HasPrefix tag "v" = true →
          ∀ v, ParseSemanticVersion (TrimPrefix tag "v") = .ok v → 0 ≤ vt.Compare v :=
  ⟨by decide,
   FindLatestSemverTag_is_maximum insertionSortLessFunc insertionSortLessFunc_contract
     ["v1.0.0", "v1.1.0", "v1.0.1", "release-9.9.9"] "v" "v1.1.0" none (by decide)⟩

/-- C5: a tag that `FindLatestSemverTag` returns with found = true is an element of the input
list, is the prefix followed by a remainder (so it starts with the prefix, at position 0 and
character for character), and that remainder parses as a semantic version; so a tag that does
not start with the prefix is never returned. -/
theorem FindLatestSemverTag_returns_surviving_tag
    (sortSlice : (TagWithVersion → TagWithVersion → Bool) →
      List TagWithVersion → List TagWithVersion) (hsort : SortSliceContract sortSlice)
    (tags : List String) (pfx t : String) (err : Option String)
    (h : FindLatestSemverTag sortSlice tags pfx = (t, true, err)) :
    t ∈ tags ∧ ∃ rest : String, t = pfx ++ rest ∧ ∃ v, ParseSemanticVersion rest = .ok v := by
  by_cases hnil : collectValidVersions tags pfx = []
  · rw [FindLatestSemverTag_of_none sortSlice tags pfx hnil] at h
    simp at h
  · obtain ⟨last, hmem, heq, -⟩ := FindLatestSemverTag_of_some sortSlice hsort tags pfx hnil
    rw [heq] at h
    have ht : last.Tag = t := congrArg Prod.fst h
    obtain ⟨hin, hp, hparse⟩ := (mem_collectValidVersions tags pfx last).1 hmem
    rw [ht] at hin hp hparse
    obtain ⟨rest, hrest⟩ := (HasPrefix_iff t pfx).1 hp
    refine ⟨hin, rest, hrest, last.Version, ?_⟩
    rw [hrest, TrimPrefix_append] at hparse
    exact hparse

theorem FindLatestSemverTag_returns_surviving_tag_witness :
    FindLatestSemverTag insertionSortLessFunc
        ["V9.0.0", "v1.0.0", "not-a-version", "v2.0.0-alpha.1"] "v" =
        ("v2.0.0-alpha.1", true, none) ∧
      "v2.0.0-alpha.1" ∈ ["V9.0.0", "v1.0.0", "not-a-version", "v2.0.0-alpha.1"] ∧
      ∃ rest : String, "v2.0.0-alpha.1" = "v" ++ rest ∧ ∃ v, ParseSemanticVersion rest = .ok v :=
  ⟨by decide,
   FindLatestSemverTag_returns_surviving_tag insertionSortLessFunc
     insertionSortLessFunc_contract ["V9.0.0", "v1.0.0", "not-a-version", "v2.0.0-alpha.1"] "v"
     "v2.0.0-alpha.1" none (by decide)⟩

/-- C6: `FindLatestSemverTag` returns found = false exactly when no tag of the list both starts
with the prefix and parses as a semantic version once the prefix is stripped; it then returns
the empty tag; on the empty list it returns the empty tag and found = false. -/
theorem FindLatestSemverTag_not_found_iff (sortSlice : (TagWithVersion → TagWithVersion → Bool) →
      List TagWithVersion → List TagWithVersion) (hsort : SortSliceContract sortSlice)
    (tags : List String) (pfx : String) :
    ((FindLatestSemverTag sortSlice tags pfx).2.1 = false ↔
        ∀ tag ∈ tags, ¬ (HasPrefix tag pfx = true ∧
          ∃ v, ParseSemanticVersion (TrimPrefix tag pfx) = .ok v)) ∧
      ((FindLatestSemverTag sortSlice tags pfx).2.1 = false →
        (FindLatestSemverTag sortSlice tags pfx).1 = "") ∧
      FindLatestSemverTag sortSlice [] pfx = ("", false, none) := by
  have hiff : (∀ tag ∈ tags, ¬ (HasPrefix tag pfx = true ∧
        ∃ v, ParseSemanticVersion (TrimPrefix tag pfx) = .ok v)) ↔
      collectValidVersions tags pfx = [] := by
    rw [collectValidVersions_eq_nil_iff]
    refine forall₂_congr (fun tag _ => ?_)
    rw [← survives_iff, Bool.not_eq_true]
  refine ⟨?_, ?_, FindLatestSemverTag_of_none sortSlice [] pfx rfl⟩
  · rw [hiff]
    by_cases hnil : collectValidVersions tags pfx = []
    · simp [FindLatestSemverTag_of_none sortSlice tags pfx hnil, hnil]
    · obtain ⟨last, -, heq, -⟩ := FindLatestSemverTag_of_some sortSlice hsort tags pfx hnil
      simp [heq, hnil]
  · by_cases hnil : collectValidVersions tags pfx = []
    · simp [FindLatestSemverTag_of_none sortSlice tags pfx hnil]
    · obtain ⟨last, -, heq, -⟩ := FindLatestSemverTag_of_some sortSlice hsort tags pfx hnil
      simp [heq]

theorem FindLatestSemverTag_not_found_iff_witness :
    FindLatestSemverTag insertionSortLessFunc ["release-9.9.9", "vnext", "1.0.0"] "v" =
        ("", false, none) ∧
      ((FindLatestSemverTag insertionSortLessFunc ["release-9.9.9", "vnext", "1.0.0"] "v").2.1
          = false ↔
        ∀ tag ∈ ["release-9.9.9", "vnext", "1.0.0"], ¬ (HasPrefix tag "v" = true ∧
          ∃ v, ParseSemanticVersion (TrimPrefix tag "v") = .ok v)) :=
  ⟨by decide,
   (FindLatestSemverTag_not_found_iff insertionSortLessFunc insertionSortLessFunc_contract
     ["release-9.9.9", "vnext", "1.0.0"] "v").1⟩

/-- C7: `FindLatestSemverTag` never returns an error, and the tags that do not start with the
prefix or fail to parse are skipped silently: the result on a list is the result on the same
list with those tags removed. -/
theorem FindLatestSemverTag_no_error_and_skips
    (sortSlice : (TagWithVersion → TagWithVersion → Bool) →
      List TagWithVersion → List TagWithVersion) (tags : List String) (pfx : String) :
    (FindLatestSemverTag sortSlice tags pfx).2.2 = none ∧
      FindLatestSemverTag sortSlice tags pfx =
        FindLatestSemverTag sortSlice (tags.filter (survives pfx)) pfx := by
  constructor
  · unfold FindLatestSemverTag
    simp only
    split
    · rfl
    · split <;> rfl
  · unfold FindLatestSemverTag
    rw [collectValidVersions_filter]



/-! ## Cutting and splitting -/

theorem cutAt_of_not_mem (sep : Char) : ∀ a : List Char, sep ∉ a → cutAt sep a = (a, none)
  | [], _ => rfl
  | c :: cs, h => by
    have hc : c ≠ sep := fun e => h (by simp [e])
    have ih := cutAt_of_not_mem sep cs (fun hm => h (List.mem_cons_of_mem _ hm))
    simp [cutAt, hc, ih]

theorem cutAt_append (sep : Char) (b : List Char) :
    ∀ a : List Char, sep ∉ a → cutAt sep (a ++ sep :: b) = (a, some b)
  | [], _ => by simp [cutAt]
  | c :: cs, h => by
    have hc : c ≠ sep := fun e => h (by simp [e])
    have ih := cutAt_append sep b cs (fun hm => h (List.mem_cons_of_mem _ hm))
    simp [cutAt, hc, ih]

theorem splitDots_of_not_mem : ∀ a : List Char, '.' ∉ a → splitDots a = [a]
  | [], _ => rfl
  | c :: cs, h => by
    have hc : c ≠ '.' := fun e => h (by simp [e])
    have ih := splitDots_of_not_mem cs (fun hm => h (List.mem_cons_of_mem _ hm))
    simp [splitDots, hc, ih]

theorem splitDots_append (b : List Char) :
    ∀ a : List Char, '.' ∉ a → splitDots (a ++ '.' :: b) = a :: splitDots b
  | [], _ => by simp [splitDots]
  | c :: cs, h => by
    have hc : c ≠ '.' := fun e => h (by simp [e])
    have ih := splitDots_append b cs (fun hm => h (List.mem_cons_of_mem _ hm))
    simp [splitDots, hc, ih]

theorem intercalate_cons_cons (a b : List Char) (rest : List (List Char)) :
    [ '.' ].intercalate (a :: b :: rest) = a ++ '.' :: [ '.' ].intercalate (b :: rest) := by
  simp [List.intercalate, List.intersperse]

theorem intercalate_singleton (a : List Char) : [ '.' ].intercalate [a] = a := by
  simp [List.intercalate, List.intersperse]

theorem splitDots_intercalate : ∀ ids : List (List Char), ids ≠ [] →
    (∀ i ∈ ids, '.' ∉ i) → splitDots ([ '.' ].intercalate ids) = ids
  | [], h, _ => absurd rfl h
  | [a], _, h => by
    rw [intercalate_singleton]
    exact splitDots_of_not_mem a (h a (by simp))
  | a :: b :: rest, _, h => by
    rw [intercalate_cons_cons, splitDots_append _ a (h a (by simp)),
      splitDots_intercalate (b :: rest) (by simp) (fun i hi => h i (List.mem_cons_of_mem _ hi))]

theorem mem_intercalate (c : Char) : ∀ ids : List (List Char),
    c ∈ [ '.' ].intercalate ids → c = '.' ∨ ∃ i ∈ ids, c ∈ i
  | [], h => by simp [List.intercalate, List.intersperse] at h
  | [a], h => by
    rw [intercalate_singleton] at h
    exact Or.inr ⟨a, by simp, h⟩
  | a :: b :: rest, h => by
    rw [intercalate_cons_cons, List.mem_append, List.mem_cons] at h
    rcases h with h | h | h
    · exact Or.inr ⟨a, by simp, h⟩
    · exact Or.inl h
    · rcases mem_intercalate c (b :: rest) h with h | ⟨i, hi, hc⟩
      · exact Or.inl h
      · exact Or.inr ⟨i, List.mem_cons_of_mem _ hi, hc⟩

theorem intercalate_ne_nil : ∀ ids : List (List Char), ids ≠ [] → (∀ i ∈ ids, i ≠ []) →
    [ '.' ].intercalate ids ≠ []
  | [], h, _ => absurd rfl h
  | [a], _, h => by
    rw [intercalate_singleton]
    exact h a (by simp)
  | a :: b :: rest, _, _ => by
    rw [intercalate_cons_cons]
    simp

/-! ## Character classes -/

theorem isIdentChar_bounds (c : Char) (h : isIdentChar c = true) :
    c.toNat = 45 ∨ (48 ≤ c.toNat ∧ c.toNat ≤ 57) ∨ 65 ≤ c.toNat := by
  unfold isIdentChar at h
  simp only [Bool.or_eq_true, beq_iff_eq] at h
  rcases h with (h | h) | h
  · exact Or.inr (Or.inl (isDigit_bounds c h))
  · right; right
    unfold Char.isAlpha Char.isUpper Char.isLower at h
    simp only [Bool.or_eq_true, Bool.and_eq_true, decide_eq_true_eq] at h
    rcases h with h | h
    · have h1 : (65 : UInt32) ≤ c.val := h.1
      rw [UInt32.le_def] at h1
      exact h1
    · have h1 : (97 : UInt32) ≤ c.val := h.1
      rw [UInt32.le_def] at h1
      have h1' : 97 ≤ c.toNat := h1
      omega
  · left; rw [h]; rfl

theorem isDigit_ne (c : Char) (h : c.isDigit = true) : c ≠ '.' ∧ c ≠ '-' ∧ c ≠ '+' := by
  obtain ⟨h1, h2⟩ := isDigit_bounds c h
  refine ⟨?_, ?_, ?_⟩ <;> (intro e; rw [e] at h1; revert h1; decide)

theorem isIdentChar_ne (c : Char) (h : isIdentChar c = true) : c ≠ '.' ∧ c ≠ '+' := by
  have hb := isIdentChar_bounds c h
  constructor <;> (intro e; rw [e] at hb; revert hb; decide)

/-! ## The modelled parser accepts the grammar -/

theorem validBuildIdent_facts (i : List Char) (h : validBuildIdent i = true) :
    i ≠ [] ∧ ∀ c ∈ i, isIdentChar c = true := by
  unfold validBuildIdent at h
  simp only [Bool.and_eq_true, Bool.not_eq_true', List.isEmpty_eq_false, List.all_eq_true] at h
  refine ⟨?_, h.2⟩
  intro e; simp [e] at h

theorem validPrereleaseIdent_facts (i : List Char) (h : validPrereleaseIdent i = true) :
    i ≠ [] ∧ ∀ c ∈ i, isIdentChar c = true := by
  unfold validPrereleaseIdent at h
  rw [Bool.and_eq_true] at h
  exact validBuildIdent_facts i h.1

theorem cutAt_section (mark : Char) (front : List Char) (hfront : mark ∉ front) :
    ∀ sec : Option (List (List Char)),
      cutAt mark (front ++ specSection mark sec) = (front, sec.map ([ '.' ].intercalate))
  | none => by
    simp only [specSection, List.append_nil, Option.map_none']
    exact cutAt_of_not_mem mark front hfront
  | some ids => by
    simp only [specSection, Option.map_some']
    exact cutAt_append mark _ front hfront

theorem parseNumber_of_spec (cs : List Char) (h : SpecNumber cs)
    (hfit : digitsValue cs < uintSize) : parseNumber cs = some (digitsValue cs) := by
  unfold parseNumber
  simp [h.1, h.2, hfit]

theorem section_idents_ok (valid : List Char → Bool)
    (hvalid : ∀ i, valid i = true → i ≠ [] ∧ ∀ c ∈ i, isIdentChar c = true) :
    ∀ sec : Option (List (List Char)),
      (∀ ids, sec = some ids → ids ≠ [] ∧ ∀ i ∈ ids, valid i = true) →
      (match sec.map ([ '.' ].intercalate) with
        | none => true
        | some body => (splitDots body).all valid) = true
  | none, _ => rfl
  | some ids, h => by
    obtain ⟨hne, hall⟩ := h ids rfl
    simp only [Option.map_some']
    rw [splitDots_intercalate ids hne
      (fun i hi hdot => (isIdentChar_ne _ ((hvalid i (hall i hi)).2 _ hdot)).1 rfl)]
    exact List.all_eq_true.2 hall

theorem parseChars_of_isVersionString (s : String) (major minor patch : List Char)
    (pre build : Option (List (List Char)))
    (h : IsVersionString s major minor patch pre build)
    (hmajor : digitsValue major < uintSize) (hminor : digitsValue minor < uintSize)
    (hpatch : digitsValue patch < uintSize) :
    parseChars s.data =
      some { MajorVersion := digitsValue major
             MinorVersion := digitsValue minor
             PatchVersion := digitsValue patch
             PreReleaseVersion := String.mk ((pre.map ([ '.' ].intercalate)).getD [])
             BuildMetadata := String.mk ((build.map ([ '.' ].intercalate)).getD []) } := by
  obtain ⟨hM, hm, hp, hpre, hbuild, hs⟩ := h
  have dM := (specNumber_cases major hM).1
  have dm := (specNumber_cases minor hm).1
  have dp := (specNumber_cases patch hp).1
  have hcore : ∀ c ∈ major ++ '.' :: (minor ++ '.' :: patch), c = '.' ∨ c.isDigit = true := by
    intro c hc
    simp only [List.mem_append, List.mem_cons] at hc
    rcases hc with hc | hc | hc | hc | hc
    · exact Or.inr (dM c hc)
    · exact Or.inl hc
    · exact Or.inr (dm c hc)
    · exact Or.inl hc
    · exact Or.inr (dp c hc)
  have hcore_minus : '-' ∉ major ++ '.' :: (minor ++ '.' :: patch) := by
    intro hc
    rcases hcore _ hc with e | e
    · revert e; decide
    · exact (isDigit_ne _ e).2.1 rfl
  have hcore_plus : '+' ∉ major ++ '.' :: (minor ++ '.' :: patch) := by
    intro hc
    rcases hcore _ hc with e | e
    · revert e; decide
    · exact (isDigit_ne _ e).2.2 rfl
  have hpre_plus : '+' ∉ specSection '-' pre := by
    cases pre with
    | none => simp [specSection]
    | some ids =>
      obtain ⟨-, hall⟩ := hpre ids rfl
      simp only [specSection, List.mem_cons, not_or]
      refine ⟨by decide, fun hc => ?_⟩
      rcases mem_intercalate _ ids hc with e | ⟨i, hi, hci⟩
      · revert e; decide
      · exact (isIdentChar_ne _ ((validPrereleaseIdent_facts i (hall i hi)).2 _ hci)).2 rfl
  have hs' : s.data =
      ((major ++ '.' :: (minor ++ '.' :: patch)) ++ specSection '-' pre) ++
        specSection '+' build := by
    rw [hs]; simp [List.append_assoc]
  have hcut1 := cutAt_section '+' _ (by
    intro hc
    rcases List.mem_append.1 hc with hc | hc
    · exact hcore_plus hc
    · exact hpre_plus hc) build
  have hcut2 := cutAt_section '-' _ hcore_minus pre
  have hsplit : splitDots (major ++ '.' :: (minor ++ '.' :: patch)) = [major, minor, patch] := by
    rw [splitDots_append _ major (fun hc => (isDigit_ne _ (dM _ hc)).1 rfl),
      splitDots_append _ minor (fun hc => (isDigit_ne _ (dm _ hc)).1 rfl),
      splitDots_of_not_mem patch (fun hc => (isDigit_ne _ (dp _ hc)).1 rfl)]
  have hpre_ok := section_idents_ok validPrereleaseIdent validPrereleaseIdent_facts pre hpre
  have hbuild_ok := section_idents_ok validBuildIdent validBuildIdent_facts build hbuild
  unfold parseChars
  simp only [hs', hcut1, hcut2, hsplit, parseNumber_of_spec major hM hmajor,
    parseNumber_of_spec minor hm hminor, parseNumber_of_spec patch hp hpatch, hpre_ok,
    hbuild_ok, Bool.and_self, if_true]

/-! ## Formatting -/

theorem FormatVersionWithPrefix_data (v : SemanticVersion) (p : String) :
    (FormatVersionWithPrefix v p).data =
      p.data ++ (Nat.toDigits 10 v.MajorVersion ++ '.' :: (Nat.toDigits 10 v.MinorVersion ++
        '.' :: (Nat.toDigits 10 v.PatchVersion ++
          ((if v.PreReleaseVersion.data = [] then [] else '-' :: v.PreReleaseVersion.data) ++
            (if v.BuildMetadata.data = [] then [] else '+' :: v.BuildMetadata.data))))) := by
  have hempty : ∀ t : String, t = "" ↔ t.data = [] := fun t =>
    ⟨fun e => by rw [e], fun e => String.ext e⟩
  have hdot : (".": String).data = ['.'] := rfl
  have hminus : ("-": String).data = ['-'] := rfl
  have hplus : ("+": String).data = ['+'] := rfl
  have hrepr : ∀ n, (Nat.repr n).data = Nat.toDigits 10 n := fun _ => rfl
  simp only [FormatVersionWithPrefix, fmtD, ne_eq, hempty, ite_not]
  split_ifs <;>
    simp only [String.data_append, hdot, hminus, hplus, hrepr, List.append_assoc,
      List.singleton_append, List.cons_append, List.nil_append, List.append_nil]

theorem section_of_body (mark : Char) (valid : List Char → Bool)
    (hvalid : ∀ i, valid i = true → i ≠ [] ∧ ∀ c ∈ i, isIdentChar c = true) :
    ∀ sec : Option (List (List Char)),
      (∀ ids, sec = some ids → ids ≠ [] ∧ ∀ i ∈ ids, valid i = true) →
      (if (sec.map ([ '.' ].intercalate)).getD [] = [] then []
        else mark :: (sec.map ([ '.' ].intercalate)).getD []) = specSection mark sec
  | none, _ => rfl
  | some ids, h => by
    obtain ⟨hne, hall⟩ := h ids rfl
    have : [ '.' ].intercalate ids ≠ [] :=
      intercalate_ne_nil ids hne (fun i hi => (hvalid i (hall i hi)).1)
    simp only [Option.map_some', Option.getD_some, this, if_false, specSection]

theorem format_of_isVersionString (s p : String) (major minor patch : List Char)
    (pre build : Option (List (List Char)))
    (h : IsVersionString s major minor patch pre build) :
    FormatVersionWithPrefix
        { MajorVersion := digitsValue major
          MinorVersion := digitsValue minor
          PatchVersion := digitsValue patch
          PreReleaseVersion := String.mk ((pre.map ([ '.' ].intercalate)).getD [])
          BuildMetadata := String.mk ((build.map ([ '.' ].intercalate)).getD []) } p =
      p ++ s := by
  obtain ⟨hM, hm, hp, hpre, hbuild, hs⟩ := h
  have rM : Nat.toDigits 10 (digitsValue major) = major :=
    congrArg String.data (repr_digitsValue major hM)
  have rm : Nat.toDigits 10 (digitsValue minor) = minor :=
    congrArg String.data (repr_digitsValue minor hm)
  have rp : Nat.toDigits 10 (digitsValue patch) = patch :=
    congrArg String.data (repr_digitsValue patch hp)
  apply String.ext
  rw [FormatVersionWithPrefix_data, String.data_append, hs]
  simp only [rM, rm, rp,
    section_of_body '-' validPrereleaseIdent validPrereleaseIdent_facts pre hpre,
    section_of_body '+' validBuildIdent validBuildIdent_facts build hbuild,
    List.append_assoc, List.cons_append]

theorem toDigits_no_dot (n : Nat) : '.' ∉ Nat.toDigits 10 n := fun h =>
  (isDigit_ne _ ((digitsValue_toDigits n).2 _ h)).1 rfl

/-! ## Round trip -/

/-- C9 (as stated, refuted): "18446744073709551616.0.0" is syntactically valid and has no
leading zero, yet parsing it fails; and no version with `uint` fields formats back to it, under
any prefix. -/
theorem round_trip_counterexample :
    ValidVersionString "18446744073709551616.0.0" ∧
      (¬ ∃ v core, ParseVersionWithPrefix ("" ++ "18446744073709551616.0.0") "" = .ok (v, core)) ∧
      ∀ (v : SemanticVersion) (p : String), v.InRange →
        FormatVersionWithPrefix v p ≠ p ++ "18446744073709551616.0.0" := by
  refine ⟨⟨"18446744073709551616".data, ['0'], ['0'], none, none, ?_⟩, ?_, ?_⟩
  · exact ⟨⟨rfl, rfl⟩, ⟨rfl, rfl⟩, ⟨rfl, rfl⟩, (fun _ e => by cases e), (fun _ e => by cases e), rfl⟩
  · rintro ⟨v, core, h⟩
    have hfail : ParseVersionWithPrefix ("" ++ "18446744073709551616.0.0") "" =
        .error ("error parsing version 18446744073709551616.0.0: " ++
          "invalid semantic version: 18446744073709551616.0.0") := by rfl
    rw [hfail] at h
    cases h
  · intro v p hv h
    have hdata := congrArg String.data h
    rw [FormatVersionWithPrefix_data, String.data_append] at hdata
    have hcut := congrArg (cutAt '.') (List.append_cancel_left hdata)
    rw [cutAt_append '.' _ _ (toDigits_no_dot v.MajorVersion)] at hcut
    have hmajor : Nat.toDigits 10 v.MajorVersion = "18446744073709551616".data :=
      congrArg Prod.fst hcut
    have hval := (digitsValue_toDigits v.MajorVersion).1
    rw [hmajor] at hval
    have h64 : digitsValue "18446744073709551616".data = 2 ^ 64 := by decide
    have := hv.1
    unfold uintSize at this
    omega

/-- C9 (amended): for every syntactically valid version string `s` without leading-zero
violations whose major, minor and patch are each below 2^64, and every prefix `p`, parsing
`p ++ s` with `ParseVersionWithPrefix (p ++ s) p` succeeds with some version `v` and the core
string `s`, and `FormatVersionWithPrefix v p` is `p ++ s`; with the empty prefix, formatting the
parse of `s` gives back `s`. -/
theorem parse_then_format_round_trip (s p : String) (major minor patch : List Char)
    (pre build : Option (List (List Char)))
    (h : IsVersionString s major minor patch pre build)
    (hmajor : digitsValue major < 2 ^ 64) (hminor : digitsValue minor < 2 ^ 64)
    (hpatch : digitsValue patch < 2 ^ 64) :
    (∃ v, ParseVersionWithPrefix (p ++ s) p = .ok (v, s) ∧
        FormatVersionWithPrefix v p = p ++ s) ∧
      (∃ v, ParseVersionWithPrefix s "" = .ok (v, s) ∧ FormatVersionWithPrefix v "" = s) := by
  have hparse := parseChars_of_isVersionString s major minor patch pre build h hmajor hminor hpatch
  have hok : ParseSemanticVersion s =
      .ok { MajorVersion := digitsValue major
            MinorVersion := digitsValue minor
            PatchVersion := digitsValue patch
            PreReleaseVersion := String.mk ((pre.map ([ '.' ].intercalate)).getD [])
            BuildMetadata := String.mk ((build.map ([ '.' ].intercalate)).getD []) } := by
    unfold ParseSemanticVersion
    rw [hparse]
  have hempty : ("" : String) ++ s = s := String.ext (by simp)
  constructor
  · refine ⟨_, ?_, format_of_isVersionString s p major minor patch pre build h⟩
    rw [ParseVersionWithPrefix_ok_iff, TrimPrefix_append]
    exact ⟨hok, rfl⟩
  · refine ⟨_, ?_, (format_of_isVersionString s "" major minor patch pre build h).trans hempty⟩
    rw [ParseVersionWithPrefix_ok_iff]
    have ht : TrimPrefix s "" = s := by
      conv_lhs => rw [← hempty]
      exact TrimPrefix_append "" s
    rw [ht]
    exact ⟨hok, rfl⟩

theorem parse_then_format_round_trip_witness :
    IsVersionString "1.2.3-alpha.1+b.07" ['1'] ['2'] ['3']
        (some ["alpha".data, ['1']]) (some [['b'], ['0', '7']]) ∧
      (∃ v, ParseVersionWithPrefix ("v" ++ "1.2.3-alpha.1+b.07") "v" =
            .ok (v, "1.2.3-alpha.1+b.07") ∧
          FormatVersionWithPrefix v "v" = "v" ++ "1.2.3-alpha.1+b.07") ∧
      (∃ v, ParseVersionWithPrefix "1.2.3-alpha.1+b.07" "" = .ok (v, "1.2.3-alpha.1+b.07") ∧
          FormatVersionWithPrefix v "" = "1.2.3-alpha.1+b.07") :=
  have hvalid : IsVersionString "1.2.3-alpha.1+b.07" ['1'] ['2'] ['3']
      (some ["alpha".data, ['1']]) (some [['b'], ['0', '7']]) :=
    ⟨⟨rfl, rfl⟩, ⟨rfl, rfl⟩, ⟨rfl, rfl⟩,
      fun ids e => by cases e; exact ⟨by simp, by decide⟩,
      fun ids e => by cases e; exact ⟨by simp, by decide⟩, rfl⟩
  ⟨hvalid,
   parse_then_format_round_trip "1.2.3-alpha.1+b.07" "v" ['1'] ['2'] ['3']
     (some ["alpha".data, ['1']]) (some [['b'], ['0', '7']]) hvalid
     (by decide) (by decide) (by decide)⟩

/-! ## ParseVersionWithPrefix: failure -/

theorem ParseVersionWithPrefixReturns_eq (s p : String) :
    ParseVersionWithPrefixReturns s p =
      match ParseVersionWithPrefix s p with
      | .error e => (none, "", some e)
      | .ok (v, core) => (some v, core, none) := by
  simp only [ParseVersionWithPrefixReturns, ParseVersionWithPrefix]
  cases ParseSemanticVersion (TrimPrefix s p) <;> rfl

theorem ParseVersionWithPrefix_error_iff (s p e : String) :
    ParseVersionWithPrefix s p = .error e ↔
      ∃ err, ParseSemanticVersion (TrimPrefix s p) = .error err ∧
        e = "error parsing version " ++ s ++ ": " ++ err := by
  simp only [ParseVersionWithPrefix]
  cases ParseSemanticVersion (TrimPrefix s p) with
  | error err => simp [eq_comm]
  | ok v => simp

/-- C11: `ParseVersionWithPrefix s p` fails exactly when the underlying parser rejects `s` with
the prefix stripped; on failure Go's three return values are no version, the empty core string
and an error whose text contains the original input `s`, prefix included, verbatim. -/
theorem ParseVersionWithPrefix_fails_iff_parser_rejects (s p : String) :
    ((∃ e, ParseVersionWithPrefix s p = .error e) ↔
        ∃ err, ParseSemanticVersion (TrimPrefix s p) = .error err) ∧
      ((ParseVersionWithPrefixReturns s p).2.2 ≠ none ↔
        ∃ err, ParseSemanticVersion (TrimPrefix s p) = .error err) ∧
      (∀ e, ParseVersionWithPrefix s p = .error e →
        ParseVersionWithPrefixReturns s p = (none, "", some e) ∧
          ∃ before after : String, e = before ++ s ++ after) := by
  refine ⟨?_, ?_, ?_⟩
  · constructor
    · rintro ⟨e, he⟩
      obtain ⟨err, herr, -⟩ := (ParseVersionWithPrefix_error_iff s p e).1 he
      exact ⟨err, herr⟩
    · rintro ⟨err, herr⟩
      exact ⟨_, (ParseVersionWithPrefix_error_iff s p _).2 ⟨err, herr, rfl⟩⟩
  · simp only [ParseVersionWithPrefixReturns]
    cases ParseSemanticVersion (TrimPrefix s p) with
    | error err => simp
    | ok v => simp
  · intro e he
    obtain ⟨err, -, hmsg⟩ := (ParseVersionWithPrefix_error_iff s p e).1 he
    refine ⟨?_, "error parsing version ", ": " ++ err, ?_⟩
    · rw [ParseVersionWithPrefixReturns_eq, he]
    · rw [hmsg, String.append_assoc]

theorem ParseVersionWithPrefix_fails_iff_parser_rejects_witness :
    ParseVersionWithPrefix "vinvalid" "v" =
        .error "error parsing version vinvalid: invalid semantic version: invalid" ∧
      ParseVersionWithPrefixReturns "vinvalid" "v" =
        (none, "", some "error parsing version vinvalid: invalid semantic version: invalid") ∧
      ∃ before after : String,
        "error parsing version vinvalid: invalid semantic version: invalid" =
          before ++ "vinvalid" ++ after :=
  ⟨rfl, (ParseVersionWithPrefix_fails_iff_parser_rejects "vinvalid" "v").2.2 _ rfl⟩

/-! ## FilterTagsByPrefix -/

theorem FilterTagsByPrefix_loop (pfx : String) :
    ∀ (tags acc : List String),
      tags.foldl
          (fun filteredTags tag =>
            if HasPrefix tag pfx then filteredTags ++ [tag] else filteredTags) acc =
        acc ++ tags.filter (fun tag => HasPrefix tag pfx)
  | [], acc => by simp
  | tag :: tags, acc => by
    rw [List.foldl_cons, FilterTagsByPrefix_loop pfx tags, List.filter_cons]
    cases HasPrefix tag pfx <;> simp

theorem FilterTagsByPrefix_eq_filter (tags : List String) (pfx : String) :
    FilterTagsByPrefix tags pfx = tags.filter (fun tag => HasPrefix tag pfx) := by
  unfold FilterTagsByPrefix
  rw [FilterTagsByPrefix_loop pfx tags []]
  rfl

/-- C12: `FilterTagsByPrefix` returns exactly the tags of the input that start with the prefix:
every returned tag starts with it, a tag that starts with it is returned as often as it occurs
in the input, a tag that does not is not returned, the returned tags keep their relative order
(they are the input with some tags left out), and the result is empty when no tag matches. -/
theorem FilterTagsByPrefix_exact (tags : List String) (pfx : String) :
    (∀ t ∈ FilterTagsByPrefix tags pfx, StartsWith t pfx) ∧
      (∀ t, StartsWith t pfx →
        (FilterTagsByPrefix tags pfx).count t = tags.count t) ∧
      (∀ t, ¬ StartsWith t pfx → (FilterTagsByPrefix tags pfx).count t = 0) ∧
      (FilterTagsByPrefix tags pfx).Sublist tags ∧
      FilterTagsByPrefix tags pfx = tags.filter (fun t => HasPrefix t pfx) ∧
      ((∀ t ∈ tags, ¬ StartsWith t pfx) → FilterTagsByPrefix tags pfx = []) := by
  have hs : ∀ t, HasPrefix t pfx = true ↔ StartsWith t pfx := fun t => HasPrefix_iff t pfx
  rw [FilterTagsByPrefix_eq_filter]
  refine ⟨?_, ?_, ?_, List.filter_sublist _, ?_, ?_⟩
  · intro t ht
    exact (hs t).1 (List.mem_filter.1 ht).2
  · intro t ht
    have hp : (fun tag => HasPrefix tag pfx) t = true := (hs t).2 ht
    exact List.count_filter hp
  · intro t ht
    rw [List.count_eq_zero]
    intro hmem
    exact ht ((hs t).1 (List.mem_filter.1 hmem).2)
  · rfl
  · intro hnone
    rw [List.filter_eq_nil_iff]
    intro t ht hp
    exact hnone t ht ((hs t).1 hp)

theorem FilterTagsByPrefix_exact_witness :
    FilterTagsByPrefix ["v1.0.0", "release-1.0.0", "v2.0.0", "v1.0.0"] "v" =
        ["v1.0.0", "v2.0.0", "v1.0.0"] ∧
      (FilterTagsByPrefix ["v1.0.0", "release-1.0.0", "v2.0.0", "v1.0.0"] "v").count "v1.0.0" =
        ["v1.0.0", "release-1.0.0", "v2.0.0", "v1.0.0"].count "v1.0.0" :=
  ⟨by decide,
   (FilterTagsByPrefix_exact ["v1.0.0", "release-1.0.0", "v2.0.0", "v1.0.0"] "v").2.1 "v1.0.0"
     ⟨"1.0.0", rfl⟩⟩

/-! ## The comparison is a total order -/

theorem Compare_pos_iff (a b : SemanticVersion) :
    0 < a.Compare b ↔ comparePrecedence a b = .gt := by
  unfold SemanticVersion.Compare
  cases comparePrecedence a b <;> simp

theorem Compare_zero_iff (a b : SemanticVersion) :
    a.Compare b = 0 ↔ comparePrecedence a b = .eq := by
  unfold SemanticVersion.Compare
  cases comparePrecedence a b <;> simp

/-- C13: the comparison used to sort tags is a total order on versions: exactly one of a < b,
a = b (precedence-equal) and a > b holds, where a > b is b < a, and a < b and b < c imply
a < c. -/
theorem Compare_total_order (a b c : SemanticVersion) :
    ((a.Compare b < 0 ∧ a.Compare b ≠ 0 ∧ ¬ b.Compare a < 0) ∨
        (¬ a.Compare b < 0 ∧ a.Compare b = 0 ∧ ¬ b.Compare a < 0) ∨
        (¬ a.Compare b < 0 ∧ a.Compare b ≠ 0 ∧ b.Compare a < 0)) ∧
      (0 < a.Compare b ↔ b.Compare a < 0) ∧
      (a.Compare b = 0 ↔ b.Compare a = 0) ∧
      (a.Compare b < 0 → b.Compare c < 0 → a.Compare c < 0) := by
  have hT := comparePrecedence_transCmp
  have hswap : comparePrecedence b a = (comparePrecedence a b).swap := (hT.symm a b).symm
  refine ⟨?_, ?_, ?_, ?_⟩
  · simp only [ne_eq, Compare_neg_iff, Compare_zero_iff, hswap]
    cases comparePrecedence a b <;> simp [Ordering.swap]
  · simp only [Compare_pos_iff, Compare_neg_iff, hswap]
    cases comparePrecedence a b <;> simp [Ordering.swap]
  · simp only [Compare_zero_iff, hswap]
    cases comparePrecedence a b <;> simp [Ordering.swap]
  · rw [Compare_neg_iff, Compare_neg_iff, Compare_neg_iff]
    exact fun h1 h2 => hT.lt_trans h1 h2

theorem Compare_total_order_witness :
    (⟨1, 0, 0, "alpha.1", ""⟩ : SemanticVersion).Compare ⟨1, 0, 0, "alpha.2", ""⟩ < 0 ∧
      (⟨1, 0, 0, "alpha.2", ""⟩ : SemanticVersion).Compare ⟨1, 0, 0, "", "b"⟩ < 0 ∧
      (⟨1, 0, 0, "alpha.1", ""⟩ : SemanticVersion).Compare ⟨1, 0, 0, "", "b"⟩ < 0 :=
  ⟨by decide, by decide,
   (Compare_total_order ⟨1, 0, 0, "alpha.1", ""⟩ ⟨1, 0, 0, "alpha.2", ""⟩ ⟨1, 0, 0, "", "b"⟩).2.2.2
     (by decide) (by decide)⟩

/-! ## Formatted numbers and tags parse -/

theorem hasLeadingZero_of_head (cs : List Char) (h : cs.head? ≠ some '0') :
    hasLeadingZero cs = false := by
  match cs, h with
  | [], _ => rfl
  | [c], _ => simp [hasLeadingZero]
  | c :: d :: rest, h =>
    have hc : c ≠ '0' := by simpa using h
    unfold hasLeadingZero
    split
    · rename_i heq
      simp only [List.cons.injEq] at heq
      exact absurd heq.1 hc
    · rfl

theorem toDigits_ne_nil (n : Nat) : Nat.toDigits 10 n ≠ [] := by
  rw [toDigits_step]
  simp

theorem toDigits_head (n : Nat) : 0 < n → (Nat.toDigits 10 n).head? ≠ some '0' := by
  induction n using Nat.strong_induction_on with
  | _ n ih =>
    intro hpos
    rw [toDigits_step]
    by_cases h10 : n < 10
    · rw [if_pos h10, Nat.mod_eq_of_lt h10]
      intro h
      have hc : Nat.digitChar n = '0' := by simpa using h
      have := (digitChar_isDigit n h10).2
      rw [hc] at this
      have h0 : '0'.toNat - '0'.toNat = 0 := rfl
      omega
    · rw [if_neg h10]
      have hne := toDigits_ne_nil (n / 10)
      have := ih (n / 10) (by omega) (by omega)
      cases hd : Nat.toDigits 10 (n / 10) with
      | nil => exact absurd hd hne
      | cons c cs =>
        rw [hd] at this
        simpa using this

theorem specNumber_toDigits (n : Nat) : SpecNumber (Nat.toDigits 10 n) := by
  constructor
  · unfold isNumericIdent
    have hne := toDigits_ne_nil n
    have hd := (digitsValue_toDigits n).2
    simp only [Bool.and_eq_true, Bool.not_eq_true', List.isEmpty_eq_false, List.all_eq_true]
    refine ⟨?_, hd⟩
    cases h : Nat.toDigits 10 n with
    | nil => exact absurd h hne
    | cons c cs => exact List.cons_ne_nil c cs
  · rcases Nat.eq_zero_or_pos n with h0 | hpos
    · subst h0; rfl
    · exact hasLeadingZero_of_head _ (toDigits_head n hpos)

theorem isVersionString_of_numbers (major minor patch : Nat) (pre : Option (List (List Char)))
    (hpre : ∀ ids, pre = some ids → ids ≠ [] ∧ ∀ i ∈ ids, validPrereleaseIdent i = true) :
    IsVersionString
      (String.mk (Nat.toDigits 10 major ++ '.' :: (Nat.toDigits 10 minor ++
        '.' :: (Nat.toDigits 10 patch ++ specSection '-' pre))))
      (Nat.toDigits 10 major) (Nat.toDigits 10 minor) (Nat.toDigits 10 patch) pre none := by
  refine ⟨specNumber_toDigits major, specNumber_toDigits minor, specNumber_toDigits patch,
    hpre, (fun _ e => by cases e), ?_⟩
  simp [specSection, List.append_assoc]

theorem parse_of_numbers (major minor patch : Nat) (hmajor : major < uintSize)
    (hminor : minor < uintSize) (hpatch : patch < uintSize) (pre : Option (List (List Char)))
    (hpre : ∀ ids, pre = some ids → ids ≠ [] ∧ ∀ i ∈ ids, validPrereleaseIdent i = true) :
    ParseSemanticVersion
        (String.mk (Nat.toDigits 10 major ++ '.' :: (Nat.toDigits 10 minor ++
          '.' :: (Nat.toDigits 10 patch ++ specSection '-' pre)))) =
      .ok { MajorVersion := major, MinorVersion := minor, PatchVersion := patch,
            PreReleaseVersion := String.mk ((pre.map ([ '.' ].intercalate)).getD []),
            BuildMetadata := "" } := by
  have hv := isVersionString_of_numbers major minor patch pre hpre
  have hM := (digitsValue_toDigits major).1
  have hm := (digitsValue_toDigits minor).1
  have hp := (digitsValue_toDigits patch).1
  have := parseChars_of_isVersionString _ _ _ _ _ _ hv (by rw [hM]; exact hmajor)
    (by rw [hm]; exact hminor) (by rw [hp]; exact hpatch)
  unfold ParseSemanticVersion
  rw [this, hM, hm, hp]
  rfl

/-! ## Release against prerelease -/

theorem comparePrerelease_refl (x : String) : comparePrerelease x x = .eq :=
  @Batteries.OrientedCmp.cmp_refl _ comparePrerelease x
    comparePrerelease_transCmp.toOrientedCmp

theorem comparePrecedence_same_core (major minor patch : Nat) (pre1 pre2 b1 b2 : String) :
    comparePrecedence ⟨major, minor, patch, pre1, b1⟩ ⟨major, minor, patch, pre2, b2⟩ =
      comparePrerelease pre1 pre2 := by
  have h : ∀ n : Nat, compare n n = .eq := fun n => compare_eq_iff_eq.2 rfl
  simp [comparePrecedence, h, Ordering.then]

theorem validVersionOf_append (p rest : String) (v : SemanticVersion)
    (h : ParseSemanticVersion rest = .ok v) :
    validVersionOf p (p ++ rest) = some ⟨p ++ rest, v⟩ := by
  unfold validVersionOf
  rw [(HasPrefix_iff (p ++ rest) p).2 ⟨rest, rfl⟩, TrimPrefix_append, h]
  rfl

theorem FindLatestSemverTag_pair (sortSlice : (TagWithVersion → TagWithVersion → Bool) →
      List TagWithVersion → List TagWithVersion) (hsort : SortSliceContract sortSlice)
    (p t1 t2 : String) (v1 v2 : SemanticVersion)
    (h1 : validVersionOf p t1 = some ⟨t1, v1⟩) (h2 : validVersionOf p t2 = some ⟨t2, v2⟩)
    (hlt : v2.Compare v1 < 0) :
    FindLatestSemverTag sortSlice [t1, t2] p = (t1, true, none) ∧
      FindLatestSemverTag sortSlice [t2, t1] p = (t1, true, none) := by
  have hless : tagLess ⟨t2, v2⟩ ⟨t1, v1⟩ = true := by
    unfold tagLess; exact decide_eq_true hlt
  have key : ∀ tags : List String,
      collectValidVersions tags p = [⟨t1, v1⟩, ⟨t2, v2⟩] ∨
        collectValidVersions tags p = [⟨t2, v2⟩, ⟨t1, v1⟩] →
      FindLatestSemverTag sortSlice tags p = (t1, true, none) := by
    intro tags hc
    have hne : collectValidVersions tags p ≠ [] := by
      rcases hc with hc | hc <;> rw [hc] <;> simp
    obtain ⟨last, hmem, heq, hmax⟩ := FindLatestSemverTag_of_some sortSlice hsort tags p hne
    have hin1 : (⟨t1, v1⟩ : TagWithVersion) ∈ collectValidVersions tags p := by
      rcases hc with hc | hc <;> rw [hc] <;> simp
    have hlast : last = ⟨t1, v1⟩ ∨ last = ⟨t2, v2⟩ := by
      rcases hc with hc | hc <;> rw [hc] at hmem <;> simp at hmem <;> tauto
    rcases hlast with rfl | rfl
    · exact heq
    · have := hmax _ hin1
      rw [hless] at this
      cases this
  constructor
  · apply key
    left
    rw [collectValidVersions_eq]
    simp [List.filterMap_cons, h1, h2]
  · apply key
    right
    rw [collectValidVersions_eq]
    simp [List.filterMap_cons, h1, h2]

theorem core_string_data (major minor patch : Nat) :
    Nat.repr major ++ "." ++ Nat.repr minor ++ "." ++ Nat.repr patch =
      String.mk (Nat.toDigits 10 major ++ '.' :: (Nat.toDigits 10 minor ++
        '.' :: (Nat.toDigits 10 patch ++ specSection '-' none))) := by
  apply String.ext
  have hdot : (".": String).data = ['.'] := rfl
  have hrepr : ∀ n, (Nat.repr n).data = Nat.toDigits 10 n := fun _ => rfl
  simp [String.data_append, hdot, hrepr, specSection, List.append_assoc]

theorem core_prerelease_string_data (major minor patch : Nat) (ids : List (List Char)) :
    Nat.repr major ++ "." ++ Nat.repr minor ++ "." ++ Nat.repr patch ++ "-" ++
        String.mk ([ '.' ].intercalate ids) =
      String.mk (Nat.toDigits 10 major ++ '.' :: (Nat.toDigits 10 minor ++
        '.' :: (Nat.toDigits 10 patch ++ specSection '-' (some ids)))) := by
  apply String.ext
  have hdot : (".": String).data = ['.'] := rfl
  have hminus : ("-": String).data = ['-'] := rfl
  have hrepr : ∀ n, (Nat.repr n).data = Nat.toDigits 10 n := fun _ => rfl
  simp [String.data_append, hdot, hminus, hrepr, specSection, List.append_assoc]

theorem FindLatestSemverTag_selected_not_less
    (sortSlice : (TagWithVersion → TagWithVersion → Bool) →
      List TagWithVersion → List TagWithVersion) (hsort : SortSliceContract sortSlice)
    (tags : List String) (pfx t : String) (err : Option String)
    (h : FindLatestSemverTag sortSlice tags pfx = (t, true, err)) :
    ∃ vt, ParseSemanticVersion (TrimPrefix t pfx) = .ok vt ∧ t ∈ tags ∧
      HasPrefix t pfx = true ∧
      ∀ tag ∈ tags, HasPrefix tag pfx = true →
        ∀ v, ParseSemanticVersion (TrimPrefix tag pfx) = .ok v →
          comparePrecedence vt v ≠ .lt := by
  by_cases hnil : collectValidVersions tags pfx = []
  · rw [FindLatestSemverTag_of_none sortSlice tags pfx hnil] at h
    simp at h
  · obtain ⟨last, hmem, heq, hmax⟩ := FindLatestSemverTag_of_some sortSlice hsort tags pfx hnil
    rw [heq] at h
    have ht : last.Tag = t := congrArg Prod.fst h
    obtain ⟨hin, hp, hparse⟩ := (mem_collectValidVersions tags pfx last).1 hmem
    refine ⟨last.Version, ht ▸ hparse, ht ▸ hin, ht ▸ hp, fun tag htag hp v hv => ?_⟩
    have hmemv : (⟨tag, v⟩ : TagWithVersion) ∈ collectValidVersions tags pfx :=
      (mem_collectValidVersions tags pfx ⟨tag, v⟩).2 ⟨htag, hp, hv⟩
    have hle := hmax _ hmemv
    unfold tagLess at hle
    rw [decide_eq_false_iff_not, Compare_neg_iff] at hle
    exact hle

/-- C14: for every core triplet major.minor.patch (of `uint` values) and every non-empty valid
prerelease, the version without prerelease has strictly greater precedence than the version
with it, whatever the build metadata; and for every prefix `p`, `FindLatestSemverTag` on the
two tags `p+core` and `p+core+"-"+prerelease`, in either order, returns `p+core`. -/
theorem release_selected_over_prerelease
    (sortSlice : (TagWithVersion → TagWithVersion → Bool) →
      List TagWithVersion → List TagWithVersion) (hsort : SortSliceContract sortSlice)
    (major minor patch : Nat) (hmajor : major < 2 ^ 64) (hminor : minor < 2 ^ 64)
    (hpatch : patch < 2 ^ 64) (ids : List (List Char)) (hne : ids ≠ [])
    (hvalid : ∀ i ∈ ids, validPrereleaseIdent i = true) (p b1 b2 : String) :
    0 < SemanticVersion.Compare ⟨major, minor, patch, "", b1⟩
          ⟨major, minor, patch, String.mk ([ '.' ].intercalate ids), b2⟩ ∧
      FindLatestSemverTag sortSlice
          [p ++ (Nat.repr major ++ "." ++ Nat.repr minor ++ "." ++ Nat.repr patch),
           p ++ (Nat.repr major ++ "." ++ Nat.repr minor ++ "." ++ Nat.repr patch) ++ "-" ++
             String.mk ([ '.' ].intercalate ids)] p =
        (p ++ (Nat.repr major ++ "." ++ Nat.repr minor ++ "." ++ Nat.repr patch), true, none) ∧
      FindLatestSemverTag sortSlice
          [p ++ (Nat.repr major ++ "." ++ Nat.repr minor ++ "." ++ Nat.repr patch) ++ "-" ++
             String.mk ([ '.' ].intercalate ids),
           p ++ (Nat.repr major ++ "." ++ Nat.repr minor ++ "." ++ Nat.repr patch)] p =
        (p ++ (Nat.repr major ++ "." ++ Nat.repr minor ++ "." ++ Nat.repr patch), true, none) := by
  have hpre_ne : String.mk ([ '.' ].intercalate ids) ≠ "" := by
    intro h
    exact intercalate_ne_nil ids hne
      (fun i hi => (validPrereleaseIdent_facts i (hvalid i hi)).1) (congrArg String.data h)
  have hgt : ∀ c1 c2 : String,
      comparePrecedence ⟨major, minor, patch, "", c1⟩
        ⟨major, minor, patch, String.mk ([ '.' ].intercalate ids), c2⟩ = .gt := by
    intro c1 c2
    rw [comparePrecedence_same_core]
    unfold comparePrerelease
    rw [if_pos rfl, if_neg hpre_ne]
  have hlt : (⟨major, minor, patch, String.mk ([ '.' ].intercalate ids), ""⟩ :
      SemanticVersion).Compare ⟨major, minor, patch, "", ""⟩ < 0 := by
    have hO : Batteries.OrientedCmp comparePrecedence :=
      comparePrecedence_transCmp.toOrientedCmp
    rw [Compare_neg_iff, ← Batteries.OrientedCmp.cmp_eq_gt]
    exact hgt "" ""
  have hp1 := parse_of_numbers major minor patch hmajor hminor hpatch none
    (fun _ e => by cases e)
  have hp2 := parse_of_numbers major minor patch hmajor hminor hpatch (some ids)
    (fun _ e => by cases e; exact ⟨hne, hvalid⟩)
  rw [← core_string_data] at hp1
  rw [← core_prerelease_string_data] at hp2
  have hassoc : p ++ (Nat.repr major ++ "." ++ Nat.repr minor ++ "." ++ Nat.repr patch) ++ "-" ++
        String.mk ([ '.' ].intercalate ids) =
      p ++ (Nat.repr major ++ "." ++ Nat.repr minor ++ "." ++ Nat.repr patch ++ "-" ++
        String.mk ([ '.' ].intercalate ids)) := by
    simp only [String.append_assoc]
  rw [hassoc]
  refine ⟨(Compare_pos_iff _ _).2 (hgt b1 b2), ?_⟩
  exact FindLatestSemverTag_pair sortSlice hsort p _ _ _ _
    (validVersionOf_append p _ _ hp1) (validVersionOf_append p _ _ hp2) hlt

theorem release_selected_over_prerelease_witness :
    FindLatestSemverTag insertionSortLessFunc
        ["v" ++ (Nat.repr 1 ++ "." ++ Nat.repr 0 ++ "." ++ Nat.repr 0),
         "v" ++ (Nat.repr 1 ++ "." ++ Nat.repr 0 ++ "." ++ Nat.repr 0) ++ "-" ++
           String.mk ([ '.' ].intercalate ["rc".data, ['1']])] "v" =
      ("v" ++ (Nat.repr 1 ++ "." ++ Nat.repr 0 ++ "." ++ Nat.repr 0), true, none) :=
  (release_selected_over_prerelease insertionSortLessFunc insertionSortLessFunc_contract
    1 0 0 (by decide) (by decide) (by decide) ["rc".data, ['1']] (by simp) (by decide)
    "v" "" "").2.1

/-- C15: build metadata never affects precedence: two versions with the same major, minor,
patch and prerelease compare as equal whatever their build metadata; so the tag that
`FindLatestSemverTag` selects is never one whose major.minor.patch-prerelease is strictly
smaller than that of another surviving tag, whatever build metadata the two carry. -/
theorem build_metadata_irrelevant :
    (∀ a b : SemanticVersion, a.MajorVersion = b.MajorVersion →
        a.MinorVersion = b.MinorVersion → a.PatchVersion = b.PatchVersion →
        a.PreReleaseVersion = b.PreReleaseVersion → a.Compare b = 0) ∧
      (∀ (sortSlice : (TagWithVersion → TagWithVersion → Bool) →
            List TagWithVersion → List TagWithVersion), SortSliceContract sortSlice →
        ∀ (tags : List String) (pfx t : String) (err : Option String),
          FindLatestSemverTag sortSlice tags pfx = (t, true, err) →
          ∀ vt, ParseSemanticVersion (TrimPrefix t pfx) = .ok vt →
          ∀ tag ∈ tags, HasPrefix tag pfx = true →
          ∀ v, ParseSemanticVersion (TrimPrefix tag pfx) = .ok v →
          ∀ b1 b2 : String,
            ¬ SemanticVersion.Compare { vt with BuildMetadata := b1 }
                { v with BuildMetadata := b2 } < 0) := by
  constructor
  · intro a b h1 h2 h3 h4
    cases a with
    | mk aM am ap apre ab =>
      cases b with
      | mk bM bm bp bpre bb =>
        simp only at h1 h2 h3 h4
        subst h1 h2 h3 h4
        rw [Compare_zero_iff, comparePrecedence_same_core]
        exact comparePrerelease_refl apre
  · intro sortSlice hsort tags pfx t err h vt hvt tag htag hp v hv b1 b2
    obtain ⟨vt', hvt', -, -, hmax⟩ :=
      FindLatestSemverTag_selected_not_less sortSlice hsort tags pfx t err h
    rw [hvt] at hvt'
    cases hvt'
    rw [Compare_neg_iff]
    exact hmax tag htag hp v hv

theorem build_metadata_irrelevant_witness :
    (⟨1, 0, 0, "rc.1", "b1"⟩ : SemanticVersion).Compare ⟨1, 0, 0, "rc.1", "b2"⟩ = 0 ∧
      FindLatestSemverTag insertionSortLessFunc ["v1.0.1", "v1.0.0+build.9"] "v" =
        ("v1.0.1", true, none) ∧
      ¬ SemanticVersion.Compare { (⟨1, 0, 1, "", ""⟩ : SemanticVersion) with BuildMetadata := "" }
          { (⟨1, 0, 0, "", "build.9"⟩ : SemanticVersion) with BuildMetadata := "zzz" } < 0 :=
  ⟨build_metadata_irrelevant.1 _ _ rfl rfl rfl rfl, by decide,
   build_metadata_irrelevant.2 insertionSortLessFunc insertionSortLessFunc_contract
     ["v1.0.1", "v1.0.0+build.9"] "v" "v1.0.1" none (by decide) ⟨1, 0, 1, "", ""⟩ rfl
     "v1.0.0+build.9" (by simp) (by decide) ⟨1, 0, 0, "", "build.9"⟩ rfl "" "zzz"⟩

/-! ## Prerelease identifiers -/

theorem lexCompare_compareChar_lt_iff :
    ∀ x y : List Char, lexCompare compareChar x y = .lt ↔ AsciiLess x y
  | [], [] => by
    simp only [lexCompare, reduceCtorEq, false_iff]
    rintro (⟨w, c, d, u, v, h, -, -⟩ | ⟨u, hu, h⟩)
    · simp at h
    · exact hu (by simpa using h.symm)
  | [], d :: v => by
    simp only [lexCompare, true_iff]
    exact Or.inr ⟨d :: v, by simp, rfl⟩
  | c :: u, [] => by
    simp only [lexCompare, reduceCtorEq, false_iff]
    rintro (⟨w, c', d, u', v, -, h, -⟩ | ⟨u', -, h⟩)
    · simp at h
    · simp at h
  | c :: u, d :: v => by
    have ih := lexCompare_compareChar_lt_iff u v
    simp only [lexCompare]
    have hcc : ∀ e f : Char, compareChar e f = compare e.toNat f.toNat := fun _ _ => rfl
    rcases Nat.lt_trichotomy c.toNat d.toNat with hlt | heq | hgt
    · rw [hcc, compare_lt_iff_lt.2 hlt]
      simp only [Ordering.then, true_iff]
      exact Or.inl ⟨[], c, d, u, v, rfl, rfl, hlt⟩
    · have hcd : c = d := Char.ext (UInt32.ext heq)
      subst hcd
      rw [hcc, compare_eq_iff_eq.2 rfl]
      simp only [Ordering.then]
      rw [ih]
      constructor
      · rintro (⟨w, c', d, u', v', h1, h2, h3⟩ | ⟨u', hu, h⟩)
        · exact Or.inl ⟨c :: w, c', d, u', v', by rw [h1]; rfl, by rw [h2]; rfl, h3⟩
        · exact Or.inr ⟨u', hu, by rw [h]; rfl⟩
      · rintro (⟨w, c', d, u', v', h1, h2, h3⟩ | ⟨u', hu, h⟩)
        · cases w with
          | nil =>
            simp only [List.nil_append, List.cons.injEq] at h1 h2
            rw [← h1.1, ← h2.1] at h3
            omega
          | cons e w =>
            simp only [List.cons_append, List.cons.injEq] at h1 h2
            exact Or.inl ⟨w, c', d, u', v', h1.2, h2.2, h3⟩
        · simp only [List.cons_append, List.cons.injEq, true_and] at h
          exact Or.inr ⟨u', hu, h⟩
    · rw [hcc, compare_gt_iff_gt.2 hgt]
      simp only [Ordering.then, reduceCtorEq, false_iff]
      rintro (⟨w, c', d', u', v', h1, h2, h3⟩ | ⟨u', -, h⟩)
      · cases w with
        | nil =>
          simp only [List.nil_append, List.cons.injEq] at h1 h2
          rw [← h1.1, ← h2.1] at h3
          omega
        | cons e w =>
          simp only [List.cons_append, List.cons.injEq] at h1 h2
          rw [h1.1, h2.1] at hgt
          omega
      · simp only [List.cons_append, List.cons.injEq] at h
        rw [h.1] at hgt
        omega

theorem compareIdent_refl (i : List Char) : compareIdent i i = .eq :=
  @Batteries.OrientedCmp.cmp_refl _ compareIdent i compareIdent_transCmp.toOrientedCmp

theorem lexCompare_common (common xs ys : List (List Char)) :
    lexCompare compareIdent (common ++ xs) (common ++ ys) = lexCompare compareIdent xs ys := by
  induction common with
  | nil => rfl
  | cons i common ih =>
    show lexCompare compareIdent (i :: (common ++ xs)) (i :: (common ++ ys)) = _
    rw [lexCompare, compareIdent_refl]
    exact ih

theorem prerelease_data (ids : List (List Char))
    (hvalid : ∀ i ∈ ids, validPrereleaseIdent i = true) (hne : ids ≠ []) :
    String.mk ([ '.' ].intercalate ids) ≠ "" ∧
      splitDots (String.mk ([ '.' ].intercalate ids)).data = ids := by
  constructor
  · intro h
    exact intercalate_ne_nil ids hne
      (fun i hi => (validPrereleaseIdent_facts i (hvalid i hi)).1) (congrArg String.data h)
  · exact splitDots_intercalate ids hne
      (fun i hi hdot => (isIdentChar_ne _ ((validPrereleaseIdent_facts i (hvalid i hi)).2 _ hdot)).1
        rfl)

theorem compare_of_first_difference (a b : SemanticVersion) (common ra rb : List (List Char))
    (x y : List Char)
    (hmajor : a.MajorVersion = b.MajorVersion) (hminor : a.MinorVersion = b.MinorVersion)
    (hpatch : a.PatchVersion = b.PatchVersion)
    (ha : a.PreReleaseVersion = String.mk ([ '.' ].intercalate (common ++ x :: ra)))
    (hb : b.PreReleaseVersion = String.mk ([ '.' ].intercalate (common ++ y :: rb)))
    (hva : ∀ i ∈ common ++ x :: ra, validPrereleaseIdent i = true)
    (hvb : ∀ i ∈ common ++ y :: rb, validPrereleaseIdent i = true)
    (hxy : compareIdent x y = .lt) : a.Compare b < 0 := by
  cases a with
  | mk aM am ap apre ab =>
    cases b with
    | mk bM bm bp bpre bb =>
      simp only at hmajor hminor hpatch ha hb
      subst hmajor hminor hpatch ha hb
      obtain ⟨ha1, ha2⟩ := prerelease_data (common ++ x :: ra) hva (by simp)
      obtain ⟨hb1, hb2⟩ := prerelease_data (common ++ y :: rb) hvb (by simp)
      rw [Compare_neg_iff, comparePrecedence_same_core]
      unfold comparePrerelease
      rw [if_neg ha1, if_neg hb1, ha2, hb2, lexCompare_common]
      simp only [lexCompare, hxy, Ordering.then]

/-- C16: when two versions with equal major.minor.patch both have a prerelease, and their
prereleases first differ at one position, with identifier `x` in the first and `y` in the
second: if `x` is purely numeric and `y` is alphanumeric, the first version is lower; if both
are numeric, the one with the smaller integer value is lower; if both are alphanumeric, the one
that comes first in ASCII order is lower. -/
theorem prerelease_identifier_precedence (a b : SemanticVersion)
    (common ra rb : List (List Char)) (x y : List Char)
    (hmajor : a.MajorVersion = b.MajorVersion) (hminor : a.MinorVersion = b.MinorVersion)
    (hpatch : a.PatchVersion = b.PatchVersion)
    (ha : a.PreReleaseVersion = String.mk ([ '.' ].intercalate (common ++ x :: ra)))
    (hb : b.PreReleaseVersion = String.mk ([ '.' ].intercalate (common ++ y :: rb)))
    (hva : ∀ i ∈ common ++ x :: ra, validPrereleaseIdent i = true)
    (hvb : ∀ i ∈ common ++ y :: rb, validPrereleaseIdent i = true) :
    (isNumericIdent x = true → isNumericIdent y = false → a.Compare b < 0) ∧
      (isNumericIdent x = true → isNumericIdent y = true →
        digitsValue x < digitsValue y → a.Compare b < 0) ∧
      (isNumericIdent x = false → isNumericIdent y = false → AsciiLess x y →
        a.Compare b < 0) := by
  have key := compare_of_first_difference a b common ra rb x y hmajor hminor hpatch ha hb hva hvb
  refine ⟨fun hx hy => key ?_, fun hx hy hlt => key ?_, fun hx hy hlt => key ?_⟩
  · simp only [compareIdent, hx, hy]
  · simp only [compareIdent, hx, hy]
    exact compare_lt_iff_lt.2 hlt
  · simp only [compareIdent, hx, hy]
    exact (lexCompare_compareChar_lt_iff x y).2 hlt

theorem prerelease_identifier_precedence_witness :
    ParseSemanticVersion "1.0.0-2" = .ok ⟨1, 0, 0, "2", ""⟩ ∧
      ParseSemanticVersion "1.0.0-abc" = .ok ⟨1, 0, 0, "abc", ""⟩ ∧
      (⟨1, 0, 0, "2", ""⟩ : SemanticVersion).Compare ⟨1, 0, 0, "abc", ""⟩ < 0 :=
  ⟨rfl, rfl,
   (prerelease_identifier_precedence ⟨1, 0, 0, "2", ""⟩ ⟨1, 0, 0, "abc", ""⟩ [] [] [] ['2']
     "abc".data rfl rfl rfl rfl rfl (by decide) (by decide)).1 rfl rfl⟩

/-! ## Leading zeros -/

theorem parseChars_shape (s : String) (major minor patch : List Char)
    (pre build : Option (List (List Char)))
    (hs : s.data =
      major ++ '.' :: minor ++ '.' :: patch ++ specSection '-' pre ++ specSection '+' build)
    (hdigits : ∀ c ∈ major ++ minor ++ patch, c.isDigit = true)
    (hpre : ∀ ids, pre = some ids → ∀ i ∈ ids, ∀ c ∈ i, isIdentChar c = true) :
    parseChars s.data =
      match parseNumber major, parseNumber minor, parseNumber patch with
      | some a, some b, some c =>
        if (match pre.map ([ '.' ].intercalate) with
            | none => true
            | some body => (splitDots body).all validPrereleaseIdent) &&
           (match build.map ([ '.' ].intercalate) with
            | none => true
            | some body => (splitDots body).all validBuildIdent) then
          some { MajorVersion := a, MinorVersion := b, PatchVersion := c,
                 PreReleaseVersion := String.mk ((pre.map ([ '.' ].intercalate)).getD []),
                 BuildMetadata := String.mk ((build.map ([ '.' ].intercalate)).getD []) }
        else none
      | _, _, _ => none := by
  have dM : ∀ c ∈ major, c.isDigit = true := fun c hc => hdigits c (by simp [hc])
  have dm : ∀ c ∈ minor, c.isDigit = true := fun c hc => hdigits c (by simp [hc])
  have dp : ∀ c ∈ patch, c.isDigit = true := fun c hc => hdigits c (by simp [hc])
  have hcore : ∀ c ∈ major ++ '.' :: (minor ++ '.' :: patch), c = '.' ∨ c.isDigit = true := by
    intro c hc
    simp only [List.mem_append, List.mem_cons] at hc
    rcases hc with hc | hc | hc | hc | hc
    · exact Or.inr (dM c hc)
    · exact Or.inl hc
    · exact Or.inr (dm c hc)
    · exact Or.inl hc
    · exact Or.inr (dp c hc)
  have hcore_minus : '-' ∉ major ++ '.' :: (minor ++ '.' :: patch) := by
    intro hc
    rcases hcore _ hc with e | e
    · revert e; decide
    · exact (isDigit_ne _ e).2.1 rfl
  have hcore_plus : '+' ∉ major ++ '.' :: (minor ++ '.' :: patch) := by
    intro hc
    rcases hcore _ hc with e | e
    · revert e; decide
    · exact (isDigit_ne _ e).2.2 rfl
  have hpre_plus : '+' ∉ specSection '-' pre := by
    cases pre with
    | none => simp [specSection]
    | some ids =>
      simp only [specSection, List.mem_cons, not_or]
      refine ⟨by decide, fun hc => ?_⟩
      rcases mem_intercalate _ ids hc with e | ⟨i, hi, hci⟩
      · revert e; decide
      · exact (isIdentChar_ne _ (hpre ids rfl i hi _ hci)).2 rfl
  have hs' : s.data =
      ((major ++ '.' :: (minor ++ '.' :: patch)) ++ specSection '-' pre) ++
        specSection '+' build := by
    rw [hs]; simp [List.append_assoc]
  have hcut1 := cutAt_section '+' _ (by
    intro hc
    rcases List.mem_append.1 hc with hc | hc
    · exact hcore_plus hc
    · exact hpre_plus hc) build
  have hcut2 := cutAt_section '-' _ hcore_minus pre
  have hsplit : splitDots (major ++ '.' :: (minor ++ '.' :: patch)) = [major, minor, patch] := by
    rw [splitDots_append _ major (fun hc => (isDigit_ne _ (dM _ hc)).1 rfl),
      splitDots_append _ minor (fun hc => (isDigit_ne _ (dm _ hc)).1 rfl),
      splitDots_of_not_mem patch (fun hc => (isDigit_ne _ (dp _ hc)).1 rfl)]
  unfold parseChars
  simp only [hs', hcut1, hcut2, hsplit]

theorem parseNumber_leading_zero (cs : List Char) (h : hasLeadingZero cs = true) :
    parseNumber cs = none := by
  unfold parseNumber
  simp [h]

theorem ParseVersionWithPrefix_empty (s : String) :
    ParseVersionWithPrefix s "" =
      match parseChars s.data with
      | some v => .ok (v, s)
      | none => .error ("error parsing version " ++ s ++ ": " ++ parseErrorText s) := by
  have ht : TrimPrefix s "" = s := by
    have hempty : ("" : String) ++ s = s := String.ext (by simp)
    conv_lhs => rw [← hempty]
    exact TrimPrefix_append "" s
  simp only [ParseVersionWithPrefix, ht, ParseSemanticVersion]
  cases parseChars s.data <;> rfl

theorem ParseVersionWithPrefix_accepts (s : String) (major minor patch : List Char)
    (pre build : Option (List (List Char)))
    (h : IsVersionString s major minor patch pre build)
    (hmajor : digitsValue major < uintSize) (hminor : digitsValue minor < uintSize)
    (hpatch : digitsValue patch < uintSize) :
    ∃ v, ParseVersionWithPrefix s "" = .ok (v, s) ∧ v.MajorVersion = digitsValue major ∧
      v.MinorVersion = digitsValue minor ∧ v.PatchVersion = digitsValue patch := by
  rw [ParseVersionWithPrefix_empty,
    parseChars_of_isVersionString s major minor patch pre build h hmajor hminor hpatch]
  exact ⟨_, rfl, rfl, rfl, rfl⟩

/-- C17: parsing rejects leading zeros.  For every version string made of three digit strings
major, minor, patch, an optional prerelease of identifiers over `[0-9A-Za-z-]` and an optional
build section, in which major, minor, patch or a purely numeric prerelease identifier is a zero
followed by another digit, `ParseVersionWithPrefix` with the empty prefix fails; while a
version string of the grammar with the single digit "0" as major, as minor, as patch or as a
prerelease identifier parses (as "1.2.3-0" does). -/
theorem leading_zeros_rejected :
    (∀ (s : String) (major minor patch : List Char) (pre build : Option (List (List Char))),
        s.data = major ++ '.' :: minor ++ '.' :: patch ++ specSection '-' pre ++
          specSection '+' build →
        (∀ c ∈ major ++ minor ++ patch, c.isDigit = true) →
        (∀ ids, pre = some ids → ∀ i ∈ ids, ∀ c ∈ i, isIdentChar c = true) →
        (hasLeadingZero major = true ∨ hasLeadingZero minor = true ∨
          hasLeadingZero patch = true ∨
          ∃ ids i, pre = some ids ∧ i ∈ ids ∧ isNumericIdent i = true ∧
            hasLeadingZero i = true) →
        ∃ e, ParseVersionWithPrefix s "" = .error e) ∧
      (∀ (s : String) (minor patch : List Char) (pre build : Option (List (List Char))),
        IsVersionString s ['0'] minor patch pre build →
        digitsValue minor < 2 ^ 64 → digitsValue patch < 2 ^ 64 →
        ∃ v, ParseVersionWithPrefix s "" = .ok (v, s) ∧ v.MajorVersion = 0) ∧
      (∀ (s : String) (major patch : List Char) (pre build : Option (List (List Char))),
        IsVersionString s major ['0'] patch pre build →
        digitsValue major < 2 ^ 64 → digitsValue patch < 2 ^ 64 →
        ∃ v, ParseVersionWithPrefix s "" = .ok (v, s) ∧ v.MinorVersion = 0) ∧
      (∀ (s : String) (major minor : List Char) (pre build : Option (List (List Char))),
        IsVersionString s major minor ['0'] pre build →
        digitsValue major < 2 ^ 64 → digitsValue minor < 2 ^ 64 →
        ∃ v, ParseVersionWithPrefix s "" = .ok (v, s) ∧ v.PatchVersion = 0) ∧
      (∀ (s : String) (major minor patch : List Char) (before after : List (List Char))
          (build : Option (List (List Char))),
        IsVersionString s major minor patch (some (before ++ ['0'] :: after)) build →
        digitsValue major < 2 ^ 64 → digitsValue minor < 2 ^ 64 → digitsValue patch < 2 ^ 64 →
        ∃ v, ParseVersionWithPrefix s "" = .ok (v, s)) ∧
      ParseVersionWithPrefix "1.2.3-0" "" = .ok (⟨1, 2, 3, "0", ""⟩, "1.2.3-0") := by
  have hzeroFits : digitsValue ['0'] < uintSize := by decide
  refine ⟨?_, ?_, ?_, ?_, ?_, rfl⟩
  · intro s major minor patch pre build hs hdigits hpre hzero
    have hnone : parseChars s.data = none := by
      rw [parseChars_shape s major minor patch pre build hs hdigits hpre]
      rcases hzero with h | h | h | ⟨ids, i, hp, hi, hnum, hlz⟩
      · rw [parseNumber_leading_zero major h]
      · rw [parseNumber_leading_zero minor h]
        cases parseNumber major <;> rfl
      · rw [parseNumber_leading_zero patch h]
        cases parseNumber major <;> cases parseNumber minor <;> rfl
      · subst hp
        have hsplit : splitDots ([ '.' ].intercalate ids) = ids :=
          splitDots_intercalate ids (List.ne_nil_of_mem hi)
            (fun j hj hdot => (isIdentChar_ne _ (hpre ids rfl j hj _ hdot)).1 rfl)
        have hbad : validPrereleaseIdent i = false := by
          unfold validPrereleaseIdent
          simp [hnum, hlz]
        have hall : ids.all validPrereleaseIdent = false := by
          rw [List.all_eq_false]
          exact ⟨i, hi, by rw [hbad]; simp⟩
        simp only [Option.map_some', hsplit, hall, Bool.false_and, Bool.false_eq_true, if_false]
        cases parseNumber major <;> cases parseNumber minor <;> cases parseNumber patch <;> rfl
    rw [ParseVersionWithPrefix_empty, hnone]
    exact ⟨_, rfl⟩
  · intro s minor patch pre build h hminor hpatch
    obtain ⟨v, hv, h1, -, -⟩ :=
      ParseVersionWithPrefix_accepts s _ _ _ pre build h hzeroFits hminor hpatch
    exact ⟨v, hv, h1⟩
  · intro s major patch pre build h hmajor hpatch
    obtain ⟨v, hv, -, h2, -⟩ :=
      ParseVersionWithPrefix_accepts s _ _ _ pre build h hmajor hzeroFits hpatch
    exact ⟨v, hv, h2⟩
  · intro s major minor pre build h hmajor hminor
    obtain ⟨v, hv, -, -, h3⟩ :=
      ParseVersionWithPrefix_accepts s _ _ _ pre build h hmajor hminor hzeroFits
    exact ⟨v, hv, h3⟩
  · intro s major minor patch before after build h hmajor hminor hpatch
    obtain ⟨v, hv, -⟩ :=
      ParseVersionWithPrefix_accepts s _ _ _ _ build h hmajor hminor hpatch
    exact ⟨v, hv⟩

theorem leading_zeros_rejected_witness :
    (∃ e, ParseVersionWithPrefix "1.2.3-01" "" = .error e) ∧
      (∃ e, ParseVersionWithPrefix "01.2.3" "" = .error e) ∧
      (∃ e, ParseVersionWithPrefix "1.02.3" "" = .error e) ∧
      (∃ v, ParseVersionWithPrefix "0.2.3" "" = .ok (v, "0.2.3") ∧ v.MajorVersion = 0) :=
  ⟨leading_zeros_rejected.1 "1.2.3-01" ['1'] ['2'] ['3'] (some [['0', '1']]) none rfl
      (by decide) (fun ids e => by cases e; decide)
      (Or.inr (Or.inr (Or.inr ⟨_, ['0', '1'], rfl, by simp, rfl, rfl⟩))),
   leading_zeros_rejected.1 "01.2.3" ['0', '1'] ['2'] ['3'] none none rfl
      (by decide) (fun ids e => by cases e) (Or.inl rfl),
   leading_zeros_rejected.1 "1.02.3" ['1'] ['0', '2'] ['3'] none none rfl
      (by decide) (fun ids e => by cases e) (Or.inr (Or.inl rfl)),
   leading_zeros_rejected.2.1 "0.2.3" ['2'] ['3'] none none
      ⟨⟨rfl, rfl⟩, ⟨rfl, rfl⟩, ⟨rfl, rfl⟩, (fun _ e => by cases e), (fun _ e => by cases e), rfl⟩
      (by decide) (by decide)⟩

/-! ## get-latest-semver-tag -/

theorem GetLatestSemverTag_findLatestSemverTag_eq
    (sortSlice : (TagWithVersion → TagWithVersion → Bool) →
      List TagWithVersion → List TagWithVersion) (tags : List String) (pfx : String) :
    GetLatestSemverTag.findLatestSemverTag sortSlice tags pfx =
      (FindLatestSemverTag sortSlice tags pfx).1 := by
  unfold GetLatestSemverTag.findLatestSemverTag FindLatestSemverTag
  simp only
  have hc : collectValidVersions tags pfx =
      tags.foldl
        (fun validVersions tag =>
          if !HasPrefix tag pfx then validVersions
          else
            match ParseSemanticVersion (TrimPrefix tag pfx) with
            | .error _ => validVersions
            | .ok semver => validVersions ++ [{ Tag := tag, Version := semver }])
        [] := rfl
  rw [← hc]
  split
  · rfl
  · split <;> rfl

theorem ParseSemanticVersion_empty : ∃ e, ParseSemanticVersion "" = .error e := ⟨_, rfl⟩

theorem survivor_ne_empty (pfx tag : String) (v : SemanticVersion)
    (hp : HasPrefix tag pfx = true) (hv : ParseSemanticVersion (TrimPrefix tag pfx) = .ok v) :
    tag ≠ "" := by
  intro h
  subst h
  obtain ⟨rest, hrest⟩ := (HasPrefix_iff "" pfx).1 hp
  have hd := congrArg String.data hrest
  simp only [String.data_append] at hd
  have hpfx : pfx.data = [] := (List.append_eq_nil.1 hd.symm).1
  have hpe : pfx = "" := String.ext hpfx
  subst hpe
  have ht : TrimPrefix "" "" = "" := by rfl
  rw [ht] at hv
  obtain ⟨e, he⟩ := ParseSemanticVersion_empty
  rw [he] at hv
  cases hv

theorem GetLatestSemverTag_findLatestSemverTag_spec
    (sortSlice : (TagWithVersion → TagWithVersion → Bool) →
      List TagWithVersion → List TagWithVersion) (hsort : SortSliceContract sortSlice)
    (tags : List String) (pfx : String) :
    (collectValidVersions tags pfx = [] →
        GetLatestSemverTag.findLatestSemverTag sortSlice tags pfx = "") ∧
      (collectValidVersions tags pfx ≠ [] →
        GetLatestSemverTag.findLatestSemverTag sortSlice tags pfx ≠ "" ∧
          GetLatestSemverTag.findLatestSemverTag sortSlice tags pfx ∈ tags ∧
          ∃ v, ParseSemanticVersion
            (TrimPrefix (GetLatestSemverTag.findLatestSemverTag sortSlice tags pfx) pfx) =
              .ok v) := by
  rw [GetLatestSemverTag_findLatestSemverTag_eq]
  constructor
  · intro h
    rw [FindLatestSemverTag_of_none sortSlice tags pfx h]
  · intro h
    obtain ⟨last, hmem, heq, -⟩ := FindLatestSemverTag_of_some sortSlice hsort tags pfx h
    obtain ⟨hin, hp, hv⟩ := (mem_collectValidVersions tags pfx last).1 hmem
    rw [heq]
    exact ⟨survivor_ne_empty pfx last.Tag last.Version hp hv, hin, last.Version, hv⟩

theorem no_survivor_iff (tags : List String) (pfx : String) :
    collectValidVersions tags pfx = [] ↔
      ∀ tag ∈ tags, ¬ (HasPrefix tag pfx = true ∧
        ∃ v, ParseSemanticVersion (TrimPrefix tag pfx) = .ok v) := by
  rw [collectValidVersions_eq_nil_iff]
  refine forall₂_congr (fun tag _ => ?_)
  rw [← survives_iff, Bool.not_eq_true]

theorem goInt_of_lt (x : Nat) (h : x < 2 ^ 63) : goInt x = (x : Int) := by
  unfold goInt
  have h1 : x % 2 ^ 64 = x := Nat.mod_eq_of_lt (by omega)
  rw [h1, if_pos h]

theorem GetLatestSemverTag_runWithTags_cases
    (sortSlice : (TagWithVersion → TagWithVersion → Bool) →
      List TagWithVersion → List TagWithVersion) (config : GetLatestSemverTag.Config)
    (tags : List String) (tag : String) (found : Bool)
    (htag : (if GetLatestSemverTag.findLatestSemverTag sortSlice tags config.Prefix = ""
      then (false, config.DefaultVersion)
      else (true, GetLatestSemverTag.findLatestSemverTag sortSlice tags config.Prefix)) =
        (found, tag)) :
    GetLatestSemverTag.runWithTags sortSlice config tags =
      match ParseSemanticVersion (TrimPrefix tag config.Prefix) with
      | .error err =>
        { Tag := tag, Version := "", Major := 0, Minor := 0, Patch := 0, Prerelease := "",
          Build := "", Found := found, Success := false,
          Error := some ("error parsing version " ++ tag ++ ": " ++ err) }
      | .ok semver =>
        { Tag := tag, Version := TrimPrefix tag config.Prefix,
          Major := goInt semver.MajorVersion, Minor := goInt semver.MinorVersion,
          Patch := goInt semver.PatchVersion, Prerelease := semver.PreReleaseVersion,
          Build := semver.BuildMetadata, Found := found, Success := true, Error := none } := by
  unfold GetLatestSemverTag.runWithTags
  simp only
  by_cases h : GetLatestSemverTag.findLatestSemverTag sortSlice tags config.Prefix = ""
  · rw [if_pos h] at htag
    simp only [Prod.mk.injEq] at htag
    obtain ⟨rfl, rfl⟩ := htag
    simp only [h, if_true]
  · rw [if_neg h] at htag
    simp only [Prod.mk.injEq] at htag
    obtain ⟨rfl, rfl⟩ := htag
    simp only [h, if_false]

theorem GetLatestSemverTag_selection
    (sortSlice : (TagWithVersion → TagWithVersion → Bool) →
      List TagWithVersion → List TagWithVersion) (hsort : SortSliceContract sortSlice)
    (config : GetLatestSemverTag.Config) (tags : List String) :
    ∃ (found : Bool) (tag : String),
      (if GetLatestSemverTag.findLatestSemverTag sortSlice tags config.Prefix = ""
        then (false, config.DefaultVersion)
        else (true, GetLatestSemverTag.findLatestSemverTag sortSlice tags config.Prefix)) =
          (found, tag) ∧
      (collectValidVersions tags config.Prefix = [] →
        found = false ∧ tag = config.DefaultVersion) ∧
      (collectValidVersions tags config.Prefix ≠ [] →
        found = true ∧
          tag = GetLatestSemverTag.findLatestSemverTag sortSlice tags config.Prefix ∧
          ∃ v, ParseSemanticVersion (TrimPrefix tag config.Prefix) = .ok v) := by
  obtain ⟨h1, h2⟩ := GetLatestSemverTag_findLatestSemverTag_spec sortSlice hsort tags config.Prefix
  by_cases hnil : collectValidVersions tags config.Prefix = []
  · refine ⟨false, config.DefaultVersion, by rw [if_pos (h1 hnil)], fun _ => ⟨rfl, rfl⟩,
      fun h => absurd hnil h⟩
  · obtain ⟨hne, -, v, hv⟩ := h2 hnil
    exact ⟨true, _, by rw [if_neg hne], fun h => absurd h hnil, fun _ => ⟨rfl, rfl, v, hv⟩⟩

/-- C18: in get-latest-semver-tag, whenever `run` succeeds on a tag list: if no tag survives
filtering and parsing then `Found` is false and `Tag` is the configured default version;
otherwise `Found` is true and `Tag` is the tag selected by `findLatestSemverTag`; in both cases
`Version` is `Tag` with the prefix stripped, and `Major`, `Minor`, `Patch`, `Prerelease` and
`Build` are the fields of its parse.  `Major`, `Minor` and `Patch` are Go `int`s and the fields
of the parse are `uint`s: they are equal as the code and its test compare them
(`result.Major == int(semver.MajorVersion)`), and equal as numbers whenever the field is below
2^63. -/
theorem GetLatestSemverTag_run_of_success
    (sortSlice : (TagWithVersion → TagWithVersion → Bool) →
      List TagWithVersion → List TagWithVersion) (hsort : SortSliceContract sortSlice)
    (tags : List String) (config : GetLatestSemverTag.Config) (r : GetLatestSemverTag.Result)
    (hr : GetLatestSemverTag.run sortSlice (.ok tags) config = r)
    (hsuccess : r.Success = true) :
    ((∀ tag ∈ tags, ¬ (HasPrefix tag config.Prefix = true ∧
          ∃ v, ParseSemanticVersion (TrimPrefix tag config.Prefix) = .ok v)) →
        r.Found = false ∧ r.Tag = config.DefaultVersion) ∧
      ((∃ tag ∈ tags, HasPrefix tag config.Prefix = true ∧
          ∃ v, ParseSemanticVersion (TrimPrefix tag config.Prefix) = .ok v) →
        r.Found = true ∧
          r.Tag = GetLatestSemverTag.findLatestSemverTag sortSlice tags config.Prefix) ∧
      r.Version = TrimPrefix r.Tag config.Prefix ∧
      ∃ v, ParseSemanticVersion r.Version = .ok v ∧
        r.Major = goInt v.MajorVersion ∧ r.Minor = goInt v.MinorVersion ∧
        r.Patch = goInt v.PatchVersion ∧
        r.Prerelease = v.PreReleaseVersion ∧ r.Build = v.BuildMetadata ∧
        (v.MajorVersion < 2 ^ 63 → r.Major = (v.MajorVersion : Int)) ∧
        (v.MinorVersion < 2 ^ 63 → r.Minor = (v.MinorVersion : Int)) ∧
        (v.PatchVersion < 2 ^ 63 → r.Patch = (v.PatchVersion : Int)) := by
  obtain ⟨found, tag, htag, hnone, hsome⟩ := GetLatestSemverTag_selection sortSlice hsort config tags
  have hrun : GetLatestSemverTag.run sortSlice (.ok tags) config =
      GetLatestSemverTag.runWithTags sortSlice config tags := rfl
  rw [hrun, GetLatestSemverTag_runWithTags_cases sortSlice config tags tag found htag] at hr
  cases hp : ParseSemanticVersion (TrimPrefix tag config.Prefix) with
  | error e =>
    rw [hp] at hr
    subst hr
    simp at hsuccess
  | ok v =>
    rw [hp] at hr
    subst hr
    refine ⟨fun h => hnone ((no_survivor_iff tags config.Prefix).2 h), fun h => ?_, rfl,
      v, hp, rfl, rfl, rfl, rfl, rfl, fun hlt => goInt_of_lt _ hlt, fun hlt => goInt_of_lt _ hlt,
      fun hlt => goInt_of_lt _ hlt⟩
    have hne : collectValidVersions tags config.Prefix ≠ [] := by
      intro hnil
      obtain ⟨t, ht, hs⟩ := h
      exact (no_survivor_iff tags config.Prefix).1 hnil t ht hs
    exact ⟨(hsome hne).1, (hsome hne).2.1⟩

theorem GetLatestSemverTag_run_of_success_witness :
    GetLatestSemverTag.run insertionSortLessFunc (.ok ["v1.0.0", "v1.1.0-rc.1+b", "x"])
        { Prefix := "v", DefaultVersion := "v0.0.0" } =
      { Tag := "v1.1.0-rc.1+b", Version := "1.1.0-rc.1+b", Major := 1, Minor := 1, Patch := 0,
        Prerelease := "rc.1", Build := "b", Found := true, Success := true, Error := none } ∧
    ("1.1.0-rc.1+b" : String) = TrimPrefix "v1.1.0-rc.1+b" "v" :=
  ⟨by decide,
   (GetLatestSemverTag_run_of_success insertionSortLessFunc insertionSortLessFunc_contract
     ["v1.0.0", "v1.1.0-rc.1+b", "x"] { Prefix := "v", DefaultVersion := "v0.0.0" }
     { Tag := "v1.1.0-rc.1+b", Version := "1.1.0-rc.1+b", Major := 1, Minor := 1, Patch := 0,
       Prerelease := "rc.1", Build := "b", Found := true, Success := true, Error := none }
     (by decide) rfl).2.2.1⟩

/-- C19: in get-latest-semver-tag, once the tag list has been obtained, `run` reports an error
exactly when no tag survives filtering and parsing and the default version, with the prefix
stripped, fails to parse; `Success` is false exactly when an error is reported; and whenever
some tag survives, a latest tag is found, the final parse does not fail and `run` succeeds. -/
theorem GetLatestSemverTag_run_error_iff
    (sortSlice : (TagWithVersion → TagWithVersion → Bool) →
      List TagWithVersion → List TagWithVersion) (hsort : SortSliceContract sortSlice)
    (tags : List String) (config : GetLatestSemverTag.Config) :
    ((GetLatestSemverTag.run sortSlice (.ok tags) config).Error ≠ none ↔
        (∀ tag ∈ tags, ¬ (HasPrefix tag config.Prefix = true ∧
          ∃ v, ParseSemanticVersion (TrimPrefix tag config.Prefix) = .ok v)) ∧
        ∃ e, ParseSemanticVersion (TrimPrefix config.DefaultVersion config.Prefix) =
          .error e) ∧
      ((GetLatestSemverTag.run sortSlice (.ok tags) config).Success = false ↔
        (GetLatestSemverTag.run sortSlice (.ok tags) config).Error ≠ none) ∧
      ((∃ tag ∈ tags, HasPrefix tag config.Prefix = true ∧
          ∃ v, ParseSemanticVersion (TrimPrefix tag config.Prefix) = .ok v) →
        (GetLatestSemverTag.run sortSlice (.ok tags) config).Found = true ∧
          (GetLatestSemverTag.run sortSlice (.ok tags) config).Success = true ∧
          (GetLatestSemverTag.run sortSlice (.ok tags) config).Error = none) := by
  obtain ⟨found, tag, htag, hnone, hsome⟩ := GetLatestSemverTag_selection sortSlice hsort config tags
  have hrun : GetLatestSemverTag.run sortSlice (.ok tags) config =
      GetLatestSemverTag.runWithTags sortSlice config tags := rfl
  rw [hrun, GetLatestSemverTag_runWithTags_cases sortSlice config tags tag found htag,
    ← no_survivor_iff]
  by_cases hnil : collectValidVersions tags config.Prefix = []
  · obtain ⟨rfl, rfl⟩ := hnone hnil
    have hno : ¬ ∃ tag ∈ tags, HasPrefix tag config.Prefix = true ∧
        ∃ v, ParseSemanticVersion (TrimPrefix tag config.Prefix) = .ok v := by
      rintro ⟨t, ht, hs⟩
      exact (no_survivor_iff tags config.Prefix).1 hnil t ht hs
    cases hp : ParseSemanticVersion (TrimPrefix config.DefaultVersion config.Prefix) with
    | error e => simp [hnil, hno]
    | ok v => simp [hnil, hno]
  · obtain ⟨rfl, -, v, hv⟩ := hsome hnil
    rw [hv]
    simp [hnil]

theorem GetLatestSemverTag_run_error_iff_witness :
    (GetLatestSemverTag.run insertionSortLessFunc (.ok ["x1.0.0"])
        { Prefix := "v", DefaultVersion := "invalid-version" }).Error =
      some "error parsing version invalid-version: invalid semantic version: invalid-version" ∧
    ((∀ tag ∈ ["x1.0.0"], ¬ (HasPrefix tag "v" = true ∧
          ∃ v, ParseSemanticVersion (TrimPrefix tag "v") = .ok v)) ∧
        ∃ e, ParseSemanticVersion (TrimPrefix "invalid-version" "v") = .error e) :=
  ⟨by decide,
   (GetLatestSemverTag_run_error_iff insertionSortLessFunc insertionSortLessFunc_contract
     ["x1.0.0"] { Prefix := "v", DefaultVersion := "invalid-version" }).1.1 (by decide)⟩

/-! ## get-next-semver -/

/-- C20: in get-next-semver, `run` returns an error exactly when the current version with the
prefix stripped fails to parse; `Success` is true exactly when `Error` is nil; and on error no
partial result is reported: `Version`, `VersionCore` and `IncrementType` are empty and `Major`,
`Minor`, `Patch` are 0. -/
theorem GetNextSemver_run_error_iff (config : GetNextSemver.Config) :
    ((GetNextSemver.run config).Error ≠ none ↔
        ∃ e, ParseSemanticVersion (TrimPrefix config.CurrentVersion config.Prefix) =
          .error e) ∧
      ((GetNextSemver.run config).Success = true ↔ (GetNextSemver.run config).Error = none) ∧
      ((GetNextSemver.run config).Error ≠ none →
        (GetNextSemver.run config).Version = "" ∧ (GetNextSemver.run config).VersionCore = "" ∧
          (GetNextSemver.run config).IncrementType = "" ∧ (GetNextSemver.run config).Major = 0 ∧
          (GetNextSemver.run config).Minor = 0 ∧ (GetNextSemver.run config).Patch = 0) := by
  cases h : ParseSemanticVersion (TrimPrefix config.CurrentVersion config.Prefix) with
  | error e => simp [GetNextSemver.run, h]
  | ok v => simp [GetNextSemver.run, h]

theorem GetNextSemver_run_error_iff_witness :
    GetNextSemver.run
        { CurrentVersion := "x1.2.3", IncrementMajor := false, IncrementMinor := true,
          Prefix := "v" } =
      { Version := "", VersionCore := "", Major := 0, Minor := 0, Patch := 0,
        IncrementType := "", Success := false,
        Error := some "error parsing current version x1.2.3: invalid semantic version: x1.2.3" } ∧
    ((GetNextSemver.run
        { CurrentVersion := "x1.2.3", IncrementMajor := false, IncrementMinor := true,
          Prefix := "v" }).Version = "" ∧
      (GetNextSemver.run
        { CurrentVersion := "x1.2.3", IncrementMajor := false, IncrementMinor := true,
          Prefix := "v" }).VersionCore = "") :=
  ⟨by decide,
   ((GetNextSemver_run_error_iff
      { CurrentVersion := "x1.2.3", IncrementMajor := false, IncrementMinor := true,
        Prefix := "v" }).2.2 (by decide)).1,
   ((GetNextSemver_run_error_iff
      { CurrentVersion := "x1.2.3", IncrementMajor := false, IncrementMinor := true,
        Prefix := "v" }).2.2 (by decide)).2.1⟩

/-! ## CreateSemverResult -/

/-- C30: `CreateSemverResult` preserves the numeric components: for a version whose major,
minor and patch are each at most 2^63 - 1, the result's `Major`, `Minor` and `Patch` are the
version's major, minor and patch as integers; `Prerelease` and `Build` are copied unchanged;
`Tag`, `Version` and `Found` are the arguments given; `Success` is true. -/
theorem CreateSemverResult_preserves (tag versionWithoutPrefix : String) (semver : SemanticVersion)
    (found : Bool) (hmajor : semver.MajorVersion ≤ 2 ^ 63 - 1)
    (hminor : semver.MinorVersion ≤ 2 ^ 63 - 1) (hpatch : semver.PatchVersion ≤ 2 ^ 63 - 1) :
    (CreateSemverResult tag versionWithoutPrefix semver found).Major =
        (semver.MajorVersion : Int) ∧
      (CreateSemverResult tag versionWithoutPrefix semver found).Minor =
        (semver.MinorVersion : Int) ∧
      (CreateSemverResult tag versionWithoutPrefix semver found).Patch =
        (semver.PatchVersion : Int) ∧
      (CreateSemverResult tag versionWithoutPrefix semver found).Prerelease =
        semver.PreReleaseVersion ∧
      (CreateSemverResult tag versionWithoutPrefix semver found).Build = semver.BuildMetadata ∧
      (CreateSemverResult tag versionWithoutPrefix semver found).Tag = tag ∧
      (CreateSemverResult tag versionWithoutPrefix semver found).Version =
        versionWithoutPrefix ∧
      (CreateSemverResult tag versionWithoutPrefix semver found).Found = found ∧
      (CreateSemverResult tag versionWithoutPrefix semver found).Success = true :=
  ⟨goInt_of_lt _ (by omega), goInt_of_lt _ (by omega), goInt_of_lt _ (by omega),
    rfl, rfl, rfl, rfl, rfl, rfl⟩

theorem CreateSemverResult_preserves_witness :
    CreateSemverResult "v1.2.3-rc.1+b" "1.2.3-rc.1+b" ⟨1, 2, 3, "rc.1", "b"⟩ true =
        { Tag := "v1.2.3-rc.1+b", Version := "1.2.3-rc.1+b", Major := 1, Minor := 2, Patch := 3,
          Prerelease := "rc.1", Build := "b", Found := true, Success := true, Error := none } ∧
      (CreateSemverResult "v1.2.3-rc.1+b" "1.2.3-rc.1+b" ⟨1, 2, 3, "rc.1", "b"⟩ true).Major =
        ((1 : Nat) : Int) :=
  ⟨by decide,
   (CreateSemverResult_preserves "v1.2.3-rc.1+b" "1.2.3-rc.1+b" ⟨1, 2, 3, "rc.1", "b"⟩ true
     (by decide) (by decide) (by decide)).1⟩

/-! ## Incrementing moves forward -/

/-- C27: for every version whose major, minor and patch are below the maximum unsigned value
2^64 - 1, and every pair of flags that are not both true, `IncrementVersion` returns a version
of strictly greater precedence than the input, whatever prerelease and build metadata the
input carries. -/
theorem IncrementVersion_moves_forward (v : SemanticVersion)
    (incrementMajor incrementMinor : Bool)
    (hmajor : v.MajorVersion < 2 ^ 64 - 1) (hminor : v.MinorVersion < 2 ^ 64 - 1)
    (hpatch : v.PatchVersion < 2 ^ 64 - 1)
    (hflags : ¬ (incrementMajor = true ∧ incrementMinor = true)) :
    ∃ w t, IncrementVersion v incrementMajor incrementMinor = .ok (w, t) ∧
      0 < w.Compare v ∧ v.Compare w < 0 := by
  have hO : Batteries.OrientedCmp comparePrecedence := comparePrecedence_transCmp.toOrientedCmp
  have hself : ∀ n : Nat, compare n n = .eq := fun n => compare_eq_iff_eq.2 rfl
  have hsucc : ∀ n : Nat, n < 2 ^ 64 - 1 → compare ((n + 1) % uintSize) n = .gt := by
    intro n hn
    have : (n + 1) % uintSize = n + 1 := Nat.mod_eq_of_lt (by unfold uintSize; omega)
    rw [this]
    exact compare_gt_iff_gt.2 (Nat.lt_succ_self n)
  have key : ∀ w t, IncrementVersion v incrementMajor incrementMinor = .ok (w, t) →
      comparePrecedence w v = .gt →
      ∃ w t, IncrementVersion v incrementMajor incrementMinor = .ok (w, t) ∧
        0 < w.Compare v ∧ v.Compare w < 0 := by
    intro w t h hgt
    refine ⟨w, t, h, (Compare_pos_iff w v).2 hgt, ?_⟩
    rw [Compare_neg_iff, ← Batteries.OrientedCmp.cmp_eq_gt]
    exact hgt
  cases incrementMajor <;> cases incrementMinor
  · refine key _ _ rfl ?_
    simp [comparePrecedence, hself, hsucc _ hpatch, Ordering.then]
  · refine key _ _ rfl ?_
    simp [comparePrecedence, hself, hsucc _ hminor, Ordering.then]
  · refine key _ _ rfl ?_
    simp [comparePrecedence, hsucc _ hmajor, Ordering.then]
  · exact absurd ⟨rfl, rfl⟩ hflags

theorem IncrementVersion_moves_forward_witness :
    ∃ w t, IncrementVersion ⟨1, 2, 3, "alpha", "b"⟩ false false = .ok (w, t) ∧
      0 < w.Compare ⟨1, 2, 3, "alpha", "b"⟩ ∧
      (⟨1, 2, 3, "alpha", "b"⟩ : SemanticVersion).Compare w < 0 :=
  IncrementVersion_moves_forward ⟨1, 2, 3, "alpha", "b"⟩ false false (by decide) (by decide)
    (by decide) (by decide)

/-! ## The two copies of the tag selection -/

/-- C25: the tag selection of get-latest-semver-tag is the shared one: `findLatestSemverTag`
returns the tag that `FindLatestSemverTag` returns when the latter reports found = true, and
it returns the empty string exactly when the latter reports found = false. -/
theorem findLatestSemverTag_same_as_shared
    (sortSlice : (TagWithVersion → TagWithVersion → Bool) →
      List TagWithVersion → List TagWithVersion) (hsort : SortSliceContract sortSlice)
    (tags : List String) (pfx : String) :
    ((FindLatestSemverTag sortSlice tags pfx).2.1 = true →
        GetLatestSemverTag.findLatestSemverTag sortSlice tags pfx =
          (FindLatestSemverTag sortSlice tags pfx).1) ∧
      (GetLatestSemverTag.findLatestSemverTag sortSlice tags pfx = "" ↔
        (FindLatestSemverTag sortSlice tags pfx).2.1 = false) := by
  refine ⟨fun _ => GetLatestSemverTag_findLatestSemverTag_eq sortSlice tags pfx, ?_⟩
  obtain ⟨h1, h2⟩ := GetLatestSemverTag_findLatestSemverTag_spec sortSlice hsort tags pfx
  by_cases hnil : collectValidVersions tags pfx = []
  · rw [h1 hnil, FindLatestSemverTag_of_none sortSlice tags pfx hnil]
    simp
  · obtain ⟨last, -, heq, -⟩ := FindLatestSemverTag_of_some sortSlice hsort tags pfx hnil
    have hne := (h2 hnil).1
    rw [heq]
    simp [hne]

theorem findLatestSemverTag_same_as_shared_witness :
    GetLatestSemverTag.findLatestSemverTag insertionSortLessFunc
        ["v1.0.0", "v1.1.0", "v1.0.1", "release-9.9.9"] "v" = "v1.1.0" ∧
      FindLatestSemverTag insertionSortLessFunc
        ["v1.0.0", "v1.1.0", "v1.0.1", "release-9.9.9"] "v" = ("v1.1.0", true, none) ∧
      GetLatestSemverTag.findLatestSemverTag insertionSortLessFunc
          ["v1.0.0", "v1.1.0", "v1.0.1", "release-9.9.9"] "v" =
        (FindLatestSemverTag insertionSortLessFunc
          ["v1.0.0", "v1.1.0", "v1.0.1", "release-9.9.9"] "v").1 :=
  ⟨by decide, by decide,
   (findLatestSemverTag_same_as_shared insertionSortLessFunc insertionSortLessFunc_contract
     ["v1.0.0", "v1.1.0", "v1.0.1", "release-9.9.9"] "v").1 (by decide)⟩

/-! ## close-issue -/

/-- C24: in close-issue, a comment request is issued only when the comment body is non-empty;
if posting the comment fails, `run` returns an error with `Success` false and `CommentID` 0 and
no close request is issued; and `Success` is true only if the close request was issued and
succeeded. -/
theorem CloseIssue_run_order
    (addComment : String → String → String → String → Except String Int)
    (closeIssue : String → String → String → String → Option String)
    (config : CloseIssue.Config) :
    (∀ a b c d, CloseIssue.ApiCall.addComment a b c d ∈
        (CloseIssue.run addComment closeIssue config).2 → config.CommentBody ≠ "") ∧
      (config.CommentBody ≠ "" →
        (∃ e, addComment config.Repository config.IssueNumber config.CommentBody config.Token =
          .error e) →
        (CloseIssue.run addComment closeIssue config).1.Error ≠ none ∧
          (CloseIssue.run addComment closeIssue config).1.Success = false ∧
          (CloseIssue.run addComment closeIssue config).1.CommentID = 0 ∧
          ∀ a b c d, CloseIssue.ApiCall.closeIssue a b c d ∉
            (CloseIssue.run addComment closeIssue config).2) ∧
      ((CloseIssue.run addComment closeIssue config).1.Success = true →
        closeIssue config.Repository config.IssueNumber config.StateReason config.Token =
          none ∧
        CloseIssue.ApiCall.closeIssue config.Repository config.IssueNumber config.StateReason
          config.Token ∈ (CloseIssue.run addComment closeIssue config).2) := by
  by_cases hbody : config.CommentBody = ""
  · cases hc : closeIssue config.Repository config.IssueNumber config.StateReason config.Token <;>
      simp [CloseIssue.run, CloseIssue.closeStep, hbody, hc]
  · cases ha : addComment config.Repository config.IssueNumber config.CommentBody config.Token <;>
      cases hc : closeIssue config.Repository config.IssueNumber config.StateReason
        config.Token <;>
      simp [CloseIssue.run, CloseIssue.closeStep, hbody, ha, hc]

theorem CloseIssue_run_order_witness :
    CloseIssue.run (fun _ _ _ _ => .error "status 401") (fun _ _ _ _ => none)
        ⟨"test/repo", "789", "Closing this issue", "completed", "test-token"⟩ =
      ({ CommentID := 0, Success := false, Error := some "error adding comment: status 401" },
        [CloseIssue.ApiCall.addComment "test/repo" "789" "Closing this issue" "test-token"]) ∧
    (CloseIssue.run (fun _ _ _ _ => .error "status 401") (fun _ _ _ _ => none)
        ⟨"test/repo", "789", "Closing this issue", "completed", "test-token"⟩).1.Success =
      false :=
  ⟨by decide,
   ((CloseIssue_run_order (fun _ _ _ _ => .error "status 401") (fun _ _ _ _ => none)
      ⟨"test/repo", "789", "Closing this issue", "completed", "test-token"⟩).2.1
      (by decide) ⟨_, rfl⟩).2.1⟩

/-! ## Splitting and trimming -/

theorem intercalate_char_cons_cons (sep : Char) (a b : List Char) (rest : List (List Char)) :
    [sep].intercalate (a :: b :: rest) = a ++ sep :: [sep].intercalate (b :: rest) := by
  simp [List.intercalate, List.intersperse]

theorem intercalate_char_singleton (sep : Char) (a : List Char) : [sep].intercalate [a] = a := by
  simp [List.intercalate, List.intersperse]

theorem splitOnChar_ne_nil (sep : Char) : ∀ cs : List Char, splitOnChar sep cs ≠ []
  | [] => by simp [splitOnChar]
  | c :: cs => by
    unfold splitOnChar
    split
    · simp
    · split <;> simp

theorem intercalate_splitOnChar (sep : Char) :
    ∀ cs : List Char, [sep].intercalate (splitOnChar sep cs) = cs
  | [] => by simp [splitOnChar, List.intercalate, List.intersperse]
  | c :: cs => by
    have ih := intercalate_splitOnChar sep cs
    have hne := splitOnChar_ne_nil sep cs
    unfold splitOnChar
    cases hsp : splitOnChar sep cs with
    | nil => exact absurd hsp hne
    | cons piece more =>
      rw [hsp] at ih
      by_cases hc : c = sep
      · rw [if_pos hc, intercalate_char_cons_cons, ih, hc]
        rfl
      · rw [if_neg hc]
        simp only
        cases more with
        | nil =>
          rw [intercalate_char_singleton] at ih ⊢
          rw [ih]
        | cons b rest =>
          rw [intercalate_char_cons_cons] at ih ⊢
          rw [← ih]
          rfl

theorem splitOnChar_no_sep (sep : Char) :
    ∀ cs : List Char, ∀ piece ∈ splitOnChar sep cs, sep ∉ piece
  | [], piece, h => by
    simp only [splitOnChar, List.mem_singleton] at h
    rw [h]; simp
  | c :: cs, piece, h => by
    have ih := splitOnChar_no_sep sep cs
    have hne := splitOnChar_ne_nil sep cs
    unfold splitOnChar at h
    cases hsp : splitOnChar sep cs with
    | nil => exact absurd hsp hne
    | cons first more =>
      rw [hsp] at h ih
      by_cases hc : c = sep
      · rw [if_pos hc] at h
        rcases List.mem_cons.1 h with rfl | h
        · simp
        · exact ih piece h
      · rw [if_neg hc] at h
        simp only at h
        rcases List.mem_cons.1 h with rfl | h
        · intro hmem
          rcases List.mem_cons.1 hmem with e | hmem
          · exact hc e.symm
          · exact ih first (List.mem_cons_self _ _) hmem
        · exact ih piece (List.mem_cons_of_mem _ h)

theorem TrimSpace_data (s : String) :
    (TrimSpace s).data = List.rdropWhile isSpace (List.dropWhile isSpace s.data) := rfl

theorem rdropWhile_append_rtakeWhile {α : Type} (p : α → Bool) (l : List α) :
    List.rdropWhile p l ++ List.rtakeWhile p l = l := by
  unfold List.rdropWhile List.rtakeWhile
  rw [← List.reverse_append, List.takeWhile_append_dropWhile, List.reverse_reverse]

theorem TrimSpace_spec (s : String) :
    ∃ left right : List Char, (∀ c ∈ left, isSpace c = true) ∧
      (∀ c ∈ right, isSpace c = true) ∧
      s.data = left ++ (TrimSpace s).data ++ right ∧
      (∀ c, (TrimSpace s).data.head? = some c → isSpace c = false) ∧
      (∀ c, (TrimSpace s).data.getLast? = some c → isSpace c = false) := by
  refine ⟨List.takeWhile isSpace s.data,
    List.rtakeWhile isSpace (List.dropWhile isSpace s.data),
    fun c hc => List.mem_takeWhile_imp hc, fun c hc => List.mem_rtakeWhile_imp hc, ?_, ?_, ?_⟩
  · rw [TrimSpace_data, List.append_assoc, rdropWhile_append_rtakeWhile,
      List.takeWhile_append_dropWhile]
  · intro c hc
    rw [TrimSpace_data] at hc
    have hsplit := rdropWhile_append_rtakeWhile isSpace (List.dropWhile isSpace s.data)
    have hhead := List.head?_dropWhile_not isSpace s.data
    cases hy : List.rdropWhile isSpace (List.dropWhile isSpace s.data) with
    | nil => rw [hy] at hc; simp at hc
    | cons d rest =>
      rw [hy] at hc hsplit
      have hd : d = c := by simpa using hc
      rw [← hsplit] at hhead
      simp only [List.cons_append, List.head?_cons] at hhead
      rw [← hd]
      exact hhead
  · intro c hc
    rw [TrimSpace_data] at hc
    by_cases hnil : List.rdropWhile isSpace (List.dropWhile isSpace s.data) = []
    · rw [hnil] at hc; simp at hc
    · have hlast := List.rdropWhile_last_not isSpace (List.dropWhile isSpace s.data) hnil
      rw [List.getLast?_eq_getLast _ hnil] at hc
      have hc' : (List.rdropWhile isSpace (List.dropWhile isSpace s.data)).getLast hnil = c := by
        simpa using hc
      rw [hc'] at hlast
      simpa using hlast

/-! ## create-issue: buildLabels -/

theorem buildLabels_loop : ∀ (pieces acc : List String),
    pieces.foldl
        (fun labels label =>
          let trimmed := TrimSpace label
          if trimmed ≠ "" then labels ++ [trimmed] else labels) acc =
      acc ++ (pieces.map TrimSpace).filter (fun l => decide (l ≠ ""))
  | [], acc => by simp
  | piece :: pieces, acc => by
    rw [List.foldl_cons, buildLabels_loop pieces]
    by_cases h : TrimSpace piece = ""
    · simp [h]
    · simp [h]

/-- C22: `buildLabels` returns the primary label first, unchanged, followed by the
comma-separated pieces of the additional-labels string, each trimmed of surrounding white
space, the pieces that are empty after trimming dropped and the others in their original
order; with an empty additional-labels string the result is just the primary label.  The
pieces are those of `strings.Split`: joined with commas they give the string back, and none
contains a comma; trimming removes white space at both ends and nothing else. -/
theorem buildLabels_eq (primaryLabel additionalLabels : String) :
    CreateIssue.buildLabels primaryLabel additionalLabels =
        primaryLabel ::
          ((SplitComma additionalLabels).map TrimSpace).filter (fun l => decide (l ≠ "")) ∧
      CreateIssue.buildLabels primaryLabel "" = [primaryLabel] ∧
      String.mk ([ ',' ].intercalate ((SplitComma additionalLabels).map String.data)) =
        additionalLabels ∧
      (∀ piece ∈ SplitComma additionalLabels, ',' ∉ piece.data) ∧
      (∀ piece : String, ∃ left right : List Char, (∀ c ∈ left, isSpace c = true) ∧
        (∀ c ∈ right, isSpace c = true) ∧
        piece.data = left ++ (TrimSpace piece).data ++ right ∧
        (∀ c, (TrimSpace piece).data.head? = some c → isSpace c = false) ∧
        (∀ c, (TrimSpace piece).data.getLast? = some c → isSpace c = false)) := by
  refine ⟨?_, rfl, ?_, ?_, TrimSpace_spec⟩
  · unfold CreateIssue.buildLabels
    by_cases h : additionalLabels = ""
    · subst h
      rfl
    · simp only [ne_eq, h, not_false_eq_true, if_true]
      rw [buildLabels_loop]
      rfl
  · apply String.ext
    unfold SplitComma
    rw [List.map_map]
    have : (String.data ∘ String.mk) = (id : List Char → List Char) := rfl
    rw [this, List.map_id]
    exact intercalate_splitOnChar ',' additionalLabels.data
  · intro piece hp
    unfold SplitComma at hp
    obtain ⟨cs, hcs, rfl⟩ := List.mem_map.1 hp
    exact splitOnChar_no_sep ',' additionalLabels.data cs hcs

theorem buildLabels_eq_witness :
    CreateIssue.buildLabels "bug" "urgent, , high-priority," =
        ["bug", "urgent", "high-priority"] ∧
      (∀ piece ∈ SplitComma "urgent, , high-priority,", ',' ∉ piece.data) :=
  ⟨by decide, (buildLabels_eq "bug" "urgent, , high-priority,").2.2.2.1⟩

/-! ## find-issue -/

theorem equalFoldRune_refl (unicodeFold : Char → Char → Bool) (c : Char) :
    equalFoldRune unicodeFold c c = true := by
  simp [equalFoldRune]

theorem equalFoldChars_refl (unicodeFold : Char → Char → Bool) :
    ∀ cs : List Char, equalFoldChars unicodeFold cs cs = true
  | [] => rfl
  | c :: cs => by
    simp [equalFoldChars, equalFoldRune_refl, equalFoldChars_refl unicodeFold cs]

theorem equalFoldRune_ascii (unicodeFold : Char → Char → Bool) (a b : Char)
    (ha : a.toNat < 128) (hb : b.toNat < 128) :
    equalFoldRune unicodeFold a b = true ↔ asciiLower a = asciiLower b := by
  have hA : 'A'.toNat = 65 := rfl
  have hZ : 'Z'.toNat = 90 := rfl
  have ha' : 'a'.toNat = 97 := rfl
  have hinj : b = a ↔ b.toNat = a.toNat :=
    ⟨fun h => by rw [h], fun h => Char.ext (UInt32.ext h)⟩
  unfold equalFoldRune asciiLower
  rw [hA, hZ, ha']
  by_cases hba : b = a
  · subst hba
    simp
  · have hne : b.toNat ≠ a.toNat := fun h => hba (hinj.2 h)
    rw [if_neg hba]
    simp only
    by_cases hlt : b.toNat < a.toNat
    · simp only [hlt, if_true, ha, Bool.and_eq_true, decide_eq_true_eq]
      split_ifs <;> omega
    · have hlt' : a.toNat < b.toNat := by omega
      simp only [hlt, if_false, hb, if_true, Bool.and_eq_true, decide_eq_true_eq]
      split_ifs <;> omega

theorem equalFoldChars_ascii (unicodeFold : Char → Char → Bool) :
    ∀ s t : List Char, (∀ c ∈ s, c.toNat < 128) → (∀ c ∈ t, c.toNat < 128) →
      (equalFoldChars unicodeFold s t = true ↔ s.map asciiLower = t.map asciiLower)
  | [], [], _, _ => by simp [equalFoldChars]
  | [], _ :: _, _, _ => by simp [equalFoldChars]
  | _ :: _, [], _, _ => by simp [equalFoldChars]
  | a :: s, b :: t, hs, ht => by
    have ih := equalFoldChars_ascii unicodeFold s t
      (fun c hc => hs c (List.mem_cons_of_mem _ hc)) (fun c hc => ht c (List.mem_cons_of_mem _ hc))
    have hr := equalFoldRune_ascii unicodeFold a b (hs a (List.mem_cons_self _ _))
      (ht b (List.mem_cons_self _ _))
    simp only [equalFoldChars, Bool.and_eq_true, List.map_cons, List.cons.injEq, hr, ih]

theorem findIssues_loop (unicodeFold : Char → Char → Bool) (title : String) :
    ∀ (issues acc : List FindIssue.Issue),
      issues.foldl
          (fun filtered issue =>
            if EqualFold unicodeFold issue.State "open" &&
                EqualFold unicodeFold issue.Title title then filtered ++ [issue]
            else filtered) acc =
        acc ++ issues.filter (fun issue =>
          EqualFold unicodeFold issue.State "open" && EqualFold unicodeFold issue.Title title)
  | [], acc => by simp
  | issue :: issues, acc => by
    rw [List.foldl_cons, findIssues_loop unicodeFold title issues, List.filter_cons]
    cases EqualFold unicodeFold issue.State "open" && EqualFold unicodeFold issue.Title title <;>
      simp

/-- C23 (as stated, refuted): for the requested title "bug report", `findIssues` returns the
open issue titled "BUG REPORT", which is not an exact match of the requested title. -/
theorem findIssues_exact_match_counterexample :
    ("BUG REPORT" : String) ≠ "bug report" ∧
      ∀ unicodeFold : Char → Char → Bool,
        FindIssue.findIssues unicodeFold (.ok ⟨200, "[]"⟩)
            (fun _ => .ok [⟨789, "open", "BUG REPORT"⟩, ⟨790, "open", "Other Issue"⟩])
            "bug report" =
          .ok [⟨789, "open", "BUG REPORT"⟩] :=
  ⟨by decide, fun _ => rfl⟩

/-- C23 (amended): for every successful API response (status 200 and a body that decodes) and
every requested title, `findIssues` returns exactly those issues of the response whose state
matches "open" and whose title matches the requested title under `strings.EqualFold`, that is
up to letter case, in response order; every issue whose state is "open" and whose title is the
requested title exactly is among them; and for ASCII strings `EqualFold` holds exactly when the
two strings are equal once their upper case letters are made lower case. -/
theorem findIssues_filters_up_to_case (unicodeFold : Char → Char → Bool) (body title : String)
    (decodeIssues : String → Except String (List FindIssue.Issue))
    (issues : List FindIssue.Issue) (hdecode : decodeIssues body = .ok issues) :
    FindIssue.findIssues unicodeFold (.ok ⟨200, body⟩) decodeIssues title =
        .ok (issues.filter (fun issue =>
          EqualFold unicodeFold issue.State "open" && EqualFold unicodeFold issue.Title title)) ∧
      (∀ issue ∈ issues, issue.State = "open" → issue.Title = title →
        issue ∈ issues.filter (fun issue =>
          EqualFold unicodeFold issue.State "open" &&
            EqualFold unicodeFold issue.Title title)) ∧
      (∀ s t : String, (∀ c ∈ s.data, c.toNat < 128) → (∀ c ∈ t.data, c.toNat < 128) →
        (EqualFold unicodeFold s t = true ↔ s.data.map asciiLower = t.data.map asciiLower)) := by
  refine ⟨?_, ?_, fun s t hs ht => equalFoldChars_ascii unicodeFold s.data t.data hs ht⟩
  · simp only [FindIssue.findIssues, ne_eq, not_true_eq_false, if_false, hdecode]
    rw [findIssues_loop unicodeFold title issues []]
    rfl
  · intro issue hmem hstate htitle
    rw [List.mem_filter]
    refine ⟨hmem, ?_⟩
    rw [hstate, htitle]
    simp [EqualFold, equalFoldChars_refl]

theorem findIssues_filters_up_to_case_witness :
    FindIssue.findIssues (fun _ _ => false) (.ok ⟨200, "[]"⟩)
        (fun _ => .ok [⟨123, "open", "Test Issue"⟩, ⟨456, "open", "Different Issue"⟩,
          ⟨7, "closed", "Test Issue"⟩, ⟨8, "open", "TEST issue"⟩])
        "Test Issue" =
      .ok ([⟨123, "open", "Test Issue"⟩, ⟨456, "open", "Different Issue"⟩,
          ⟨7, "closed", "Test Issue"⟩, ⟨8, "open", "TEST issue"⟩].filter (fun issue =>
        EqualFold (fun _ _ => false) issue.State "open" &&
          EqualFold (fun _ _ => false) issue.Title "Test Issue")) ∧
    [⟨123, "open", "Test Issue"⟩, ⟨456, "open", "Different Issue"⟩,
          ⟨7, "closed", "Test Issue"⟩, (⟨8, "open", "TEST issue"⟩ : FindIssue.Issue)].filter
        (fun issue => EqualFold (fun _ _ => false) issue.State "open" &&
          EqualFold (fun _ _ => false) issue.Title "Test Issue") =
      [⟨123, "open", "Test Issue"⟩, ⟨8, "open", "TEST issue"⟩] :=
  ⟨(findIssues_filters_up_to_case (fun _ _ => false) "[]" "Test Issue"
      (fun _ => .ok [⟨123, "open", "Test Issue"⟩, ⟨456, "open", "Different Issue"⟩,
        ⟨7, "closed", "Test Issue"⟩, ⟨8, "open", "TEST issue"⟩]) _ rfl).1,
   by decide⟩

/-! ## What the modelled parser accepts is a version string -/

theorem cutAt_eq (sep : Char) : ∀ cs : List Char,
    sep ∉ (cutAt sep cs).1 ∧
      cs = (cutAt sep cs).1 ++
        (match (cutAt sep cs).2 with
         | none => []
         | some rest => sep :: rest)
  | [] => by simp [cutAt]
  | c :: cs => by
    obtain ⟨ih1, ih2⟩ := cutAt_eq sep cs
    unfold cutAt
    by_cases hc : c = sep
    · rw [if_pos hc]
      simp [hc]
    · rw [if_neg hc]
      refine ⟨?_, ?_⟩
      · simp only [List.mem_cons, not_or]
        exact ⟨fun e => hc e.symm, ih1⟩
      · simp only [List.cons_append, List.cons.injEq, true_and]
        exact ih2

theorem splitDots_eq_splitOnChar : ∀ cs : List Char, splitDots cs = splitOnChar '.' cs
  | [] => rfl
  | c :: cs => by
    unfold splitDots splitOnChar
    rw [splitDots_eq_splitOnChar cs]

theorem parseNumber_some (cs : List Char) (n : Nat) (h : parseNumber cs = some n) :
    SpecNumber cs ∧ n = digitsValue cs ∧ digitsValue cs < uintSize := by
  unfold parseNumber at h
  split at h
  · rename_i hc
    simp only [Bool.and_eq_true, Bool.not_eq_true', decide_eq_true_eq] at hc
    simp only [Option.some.injEq] at h
    exact ⟨⟨hc.1.1, hc.1.2⟩, h.symm, hc.2⟩
  · cases h

theorem section_of_cut (mark : Char) (valid : List Char → Bool) :
    ∀ raw : Option (List Char),
      (match raw with
        | none => true
        | some body => (splitDots body).all valid) = true →
      (∀ ids, raw.map splitDots = some ids → ids ≠ [] ∧ ∀ i ∈ ids, valid i = true) ∧
        (match raw with
          | none => []
          | some rest => mark :: rest) = specSection mark (raw.map splitDots) ∧
        ((raw.map splitDots).map ([ '.' ].intercalate)).getD [] = raw.getD []
  | none, _ => ⟨(fun _ e => by cases e), rfl, rfl⟩
  | some body, h => by
    have hjoin : [ '.' ].intercalate (splitDots body) = body := by
      rw [splitDots_eq_splitOnChar]
      exact intercalate_splitOnChar '.' body
    refine ⟨?_, ?_, ?_⟩
    · intro ids e
      simp only [Option.map_some', Option.some.injEq] at e
      subst e
      refine ⟨?_, List.all_eq_true.1 h⟩
      rw [splitDots_eq_splitOnChar]
      exact splitOnChar_ne_nil '.' body
    · simp only [Option.map_some', specSection, hjoin]
    · simp only [Option.map_some', Option.getD_some, hjoin]

theorem parseChars_sound (cs : List Char) (v : SemanticVersion) (h : parseChars cs = some v) :
    ∃ (major minor patch : List Char) (pre build : Option (List (List Char))),
      IsVersionString (String.mk cs) major minor patch pre build ∧
      digitsValue major < uintSize ∧ digitsValue minor < uintSize ∧
      digitsValue patch < uintSize ∧
      v = { MajorVersion := digitsValue major
            MinorVersion := digitsValue minor
            PatchVersion := digitsValue patch
            PreReleaseVersion := String.mk ((pre.map ([ '.' ].intercalate)).getD [])
            BuildMetadata := String.mk ((build.map ([ '.' ].intercalate)).getD []) } := by
  obtain ⟨-, hcs⟩ := cutAt_eq '+' cs
  obtain ⟨-, hwb⟩ := cutAt_eq '-' (cutAt '+' cs).1
  unfold parseChars at h
  simp only at h
  split at h
  · rename_i a b c hsplit
    split at h
    · rename_i major minor patch hM hm hp
      split at h
      · rename_i hcond
        rw [Bool.and_eq_true] at hcond
        obtain ⟨hpre1, hpre2, hpre3⟩ :=
          section_of_cut '-' validPrereleaseIdent (cutAt '-' (cutAt '+' cs).1).2 hcond.1
        obtain ⟨hb1, hb2, hb3⟩ :=
          section_of_cut '+' validBuildIdent (cutAt '+' cs).2 hcond.2
        obtain ⟨sM, eM, fM⟩ := parseNumber_some a major hM
        obtain ⟨sm, em, fm⟩ := parseNumber_some b minor hm
        obtain ⟨sp, ep, fp⟩ := parseNumber_some c patch hp
        have hcore : (cutAt '-' (cutAt '+' cs).1).1 = a ++ '.' :: (b ++ '.' :: c) := by
          have := intercalate_splitOnChar '.' (cutAt '-' (cutAt '+' cs).1).1
          rw [← splitDots_eq_splitOnChar, hsplit, intercalate_char_cons_cons,
            intercalate_char_cons_cons, intercalate_char_singleton] at this
          exact this.symm
        refine ⟨a, b, c, (cutAt '-' (cutAt '+' cs).1).2.map splitDots,
          (cutAt '+' cs).2.map splitDots, ⟨sM, sm, sp, hpre1, hb1, ?_⟩, fM, fm, fp, ?_⟩
        · show cs = _
          rw [← hpre2, ← hb2]
          conv_lhs => rw [hcs, hwb, hcore]
          simp [List.append_assoc]
        · simp only [Option.some.injEq] at h
          rw [← h, hpre3, hb3, eM, em, ep]
      · cases h
    · cases h
  · cases h

theorem ParseSemanticVersion_sound (s : String) (v : SemanticVersion)
    (h : ParseSemanticVersion s = .ok v) :
    ∃ (major minor patch : List Char) (pre build : Option (List (List Char))),
      IsVersionString s major minor patch pre build ∧
      digitsValue major < uintSize ∧ digitsValue minor < uintSize ∧
      digitsValue patch < uintSize ∧
      v = { MajorVersion := digitsValue major
            MinorVersion := digitsValue minor
            PatchVersion := digitsValue patch
            PreReleaseVersion := String.mk ((pre.map ([ '.' ].intercalate)).getD [])
            BuildMetadata := String.mk ((build.map ([ '.' ].intercalate)).getD []) } := by
  unfold ParseSemanticVersion at h
  cases hp : parseChars s.data with
  | none => rw [hp] at h; cases h
  | some w =>
    rw [hp] at h
    simp only [Except.ok.injEq] at h
    subst h
    exact parseChars_sound s.data w hp

theorem ParseSemanticVersion_inRange (s : String) (v : SemanticVersion)
    (h : ParseSemanticVersion s = .ok v) : v.InRange := by
  obtain ⟨M, m, p, pre, build, -, h1, h2, h3, rfl⟩ := ParseSemanticVersion_sound s v h
  exact ⟨h1, h2, h3⟩

theorem format_of_parse (s p : String) (v : SemanticVersion)
    (h : ParseSemanticVersion s = .ok v) : FormatVersionWithPrefix v p = p ++ s := by
  obtain ⟨M, m, pt, pre, build, hv, -, -, -, rfl⟩ := ParseSemanticVersion_sound s v h
  exact format_of_isVersionString s p M m pt pre build hv

/-- C29: format then parse is the identity: for every version `v` obtained from the parser and
every prefix `p`, `ParseVersionWithPrefix (FormatVersionWithPrefix v p) p` succeeds and returns
`v` itself (the same major, minor, patch, prerelease and build metadata) together with the core
string `FormatVersionWithPrefix v ""`. -/
theorem format_then_parse_identity (s p : String) (v : SemanticVersion)
    (h : ParseSemanticVersion s = .ok v) :
    ParseVersionWithPrefix (FormatVersionWithPrefix v p) p =
      .ok (v, FormatVersionWithPrefix v "") := by
  have hempty : ("" : String) ++ s = s := String.ext (by simp)
  rw [format_of_parse s p v h, format_of_parse s "" v h, hempty,
    ParseVersionWithPrefix_ok_iff, TrimPrefix_append]
  exact ⟨h, rfl⟩

theorem format_then_parse_identity_witness :
    ParseSemanticVersion "1.2.3-rc.1+b.07" = .ok ⟨1, 2, 3, "rc.1", "b.07"⟩ ∧
      ParseVersionWithPrefix (FormatVersionWithPrefix ⟨1, 2, 3, "rc.1", "b.07"⟩ "v") "v" =
        .ok (⟨1, 2, 3, "rc.1", "b.07"⟩, FormatVersionWithPrefix ⟨1, 2, 3, "rc.1", "b.07"⟩ "") :=
  ⟨rfl, format_then_parse_identity "1.2.3-rc.1+b.07" "v" ⟨1, 2, 3, "rc.1", "b.07"⟩ rfl⟩

/-! ## get-next-semver: the next version -/

theorem String_of_release (major minor patch : Nat) :
    SemanticVersion.String ⟨major, minor, patch, "", ""⟩ =
      fmtD major ++ "." ++ fmtD minor ++ "." ++ fmtD patch := by
  apply String.ext
  simp [SemanticVersion.String]

theorem FormatVersionWithPrefix_release (major minor patch : Nat) (p : String) :
    FormatVersionWithPrefix ⟨major, minor, patch, "", ""⟩ p =
      p ++ (fmtD major ++ "." ++ fmtD minor ++ "." ++ fmtD patch) := by
  simp [FormatVersionWithPrefix]

theorem GetNextSemver_run_ok (config : GetNextSemver.Config) (v : SemanticVersion)
    (hparse : ParseSemanticVersion (TrimPrefix config.CurrentVersion config.Prefix) = .ok v)
    (major minor patch : Nat) (t : String)
    (hnext : (if config.IncrementMajor then
          ((v.MajorVersion + 1) % uintSize, 0, 0, "major")
        else if config.IncrementMinor then
          (v.MajorVersion, (v.MinorVersion + 1) % uintSize, 0, "minor")
        else
          (v.MajorVersion, v.MinorVersion, (v.PatchVersion + 1) % uintSize, "patch")) =
        (major, minor, patch, t)) :
    GetNextSemver.run config =
      { Version := config.Prefix ++ (fmtD major ++ "." ++ fmtD minor ++ "." ++ fmtD patch)
        VersionCore := fmtD major ++ "." ++ fmtD minor ++ "." ++ fmtD patch
        Major := goInt major, Minor := goInt minor, Patch := goInt patch
        IncrementType := t, Success := true, Error := none } := by
  simp only [GetNextSemver.run, hparse, hnext, String_of_release]

theorem goInt_nonneg (x : Nat) (hx : x < 2 ^ 64) (h : 0 ≤ goInt x) : x < 2 ^ 63 := by
  unfold goInt at h
  have h1 : x % 2 ^ 64 = x := Nat.mod_eq_of_lt hx
  rw [h1] at h
  split at h
  · assumption
  · omega

theorem fmtInt_goInt (x : Nat) (hx : x < 2 ^ 64) (h : 0 ≤ goInt x) : fmtInt (goInt x) = fmtD x := by
  rw [goInt_of_lt x (goInt_nonneg x hx h)]
  rfl

theorem next_components (v : SemanticVersion) (hv : v.InRange) (incrementMajor incrementMinor : Bool) :
    ∃ (major minor patch : Nat) (t : String),
      (if incrementMajor then
          ((v.MajorVersion + 1) % uintSize, 0, 0, "major")
        else if incrementMinor then
          (v.MajorVersion, (v.MinorVersion + 1) % uintSize, 0, "minor")
        else
          (v.MajorVersion, v.MinorVersion, (v.PatchVersion + 1) % uintSize, "patch")) =
        (major, minor, patch, t) ∧
      major < 2 ^ 64 ∧ minor < 2 ^ 64 ∧ patch < 2 ^ 64 := by
  obtain ⟨h1, h2, h3⟩ := hv
  unfold uintSize at h1 h2 h3
  have hmod : ∀ n : Nat, n % uintSize < 2 ^ 64 := fun n => Nat.mod_lt _ (by decide)
  cases incrementMajor <;> cases incrementMinor
  · exact ⟨_, _, _, _, rfl, h1, h2, hmod _⟩
  · exact ⟨_, _, _, _, rfl, h1, hmod _, by decide⟩
  · exact ⟨_, _, _, _, rfl, hmod _, by decide, by decide⟩
  · exact ⟨_, _, _, _, rfl, hmod _, by decide, by decide⟩

theorem goInt_zero : goInt 0 = 0 := by decide

/-- C21: in get-next-semver, for every config whose current version parses, `Version` is the
prefix followed by `VersionCore`; `VersionCore` is the decimal "major.minor.patch" of the three
components `run` computes from the parse (the major plus one and two zeros, or the major, the
minor plus one and a zero, or the major, the minor and the patch plus one), with no prerelease
or build suffix whatever the current version had; `Major`, `Minor` and `Patch` are these same
three components stored as Go `int`s; and `VersionCore` is exactly the decimal
"major.minor.patch" of the result's `Major`, `Minor` and `Patch` whenever these are version
components, that is not negative. -/
theorem GetNextSemver_run_version_core (config : GetNextSemver.Config) (v : SemanticVersion)
    (hparse : ParseSemanticVersion (TrimPrefix config.CurrentVersion config.Prefix) = .ok v) :
    (GetNextSemver.run config).Success = true ∧
      (GetNextSemver.run config).Version =
        config.Prefix ++ (GetNextSemver.run config).VersionCore ∧
      ((GetNextSemver.run config).VersionCore, (GetNextSemver.run config).Major,
          (GetNextSemver.run config).Minor, (GetNextSemver.run config).Patch) =
        (if config.IncrementMajor then
          (fmtD ((v.MajorVersion + 1) % uintSize) ++ "." ++ fmtD 0 ++ "." ++ fmtD 0,
            goInt ((v.MajorVersion + 1) % uintSize), 0, 0)
        else if config.IncrementMinor then
          (fmtD v.MajorVersion ++ "." ++ fmtD ((v.MinorVersion + 1) % uintSize) ++ "." ++ fmtD 0,
            goInt v.MajorVersion, goInt ((v.MinorVersion + 1) % uintSize), 0)
        else
          (fmtD v.MajorVersion ++ "." ++ fmtD v.MinorVersion ++ "." ++
              fmtD ((v.PatchVersion + 1) % uintSize),
            goInt v.MajorVersion, goInt v.MinorVersion,
            goInt ((v.PatchVersion + 1) % uintSize))) ∧
      (0 ≤ (GetNextSemver.run config).Major → 0 ≤ (GetNextSemver.run config).Minor →
        0 ≤ (GetNextSemver.run config).Patch →
        (GetNextSemver.run config).VersionCore =
          fmtInt (GetNextSemver.run config).Major ++ "." ++
            fmtInt (GetNextSemver.run config).Minor ++ "." ++
            fmtInt (GetNextSemver.run config).Patch) := by
  obtain ⟨major, minor, patch, t, hnext, hM, hm, hp⟩ :=
    next_components v (ParseSemanticVersion_inRange _ v hparse) config.IncrementMajor
      config.IncrementMinor
  rw [GetNextSemver_run_ok config v hparse major minor patch t hnext]
  refine ⟨rfl, rfl, ?_, ?_⟩
  · rcases Bool.eq_false_or_eq_true config.IncrementMajor with h1 | h1
    · simp only [h1, if_true, Prod.mk.injEq] at hnext
      obtain ⟨rfl, rfl, rfl, -⟩ := hnext
      simp only [h1, if_true, goInt_zero]
    · rcases Bool.eq_false_or_eq_true config.IncrementMinor with h2 | h2
      · simp only [h1, h2, Bool.false_eq_true, if_true, if_false, Prod.mk.injEq] at hnext
        obtain ⟨rfl, rfl, rfl, -⟩ := hnext
        simp only [h1, h2, Bool.false_eq_true, if_true, if_false, goInt_zero]
      · simp only [h1, h2, Bool.false_eq_true, if_false, Prod.mk.injEq] at hnext
        obtain ⟨rfl, rfl, rfl, -⟩ := hnext
        simp only [h1, h2, Bool.false_eq_true, if_false]
  · intro h1 h2 h3
    simp only at h1 h2 h3 ⊢
    rw [fmtInt_goInt major hM h1, fmtInt_goInt minor hm h2, fmtInt_goInt patch hp h3]

theorem GetNextSemver_run_version_core_witness :
    GetNextSemver.run ⟨"v1.2.3-alpha+b", false, true, "v"⟩ =
        { Version := "v1.3.0", VersionCore := "1.3.0", Major := 1, Minor := 3, Patch := 0,
          IncrementType := "minor", Success := true, Error := none } ∧
      (GetNextSemver.run ⟨"v1.2.3-alpha+b", false, true, "v"⟩).VersionCore =
        fmtInt (GetNextSemver.run ⟨"v1.2.3-alpha+b", false, true, "v"⟩).Major ++ "." ++
          fmtInt (GetNextSemver.run ⟨"v1.2.3-alpha+b", false, true, "v"⟩).Minor ++ "." ++
          fmtInt (GetNextSemver.run ⟨"v1.2.3-alpha+b", false, true, "v"⟩).Patch :=
  ⟨by decide,
   (GetNextSemver_run_version_core ⟨"v1.2.3-alpha+b", false, true, "v"⟩
     ⟨1, 2, 3, "alpha", "b"⟩ rfl).2.2.2 (by decide) (by decide) (by decide)⟩

/-! ## get-next-semver against the shared functions -/

/-- C26 (as stated, refuted): for the current version "v1.2.3", which the shared
`ParseVersionWithPrefix` parses, and both flags set, the shared `IncrementVersion` returns an
error while `run` of get-next-semver succeeds with the major increment "v2.0.0". -/
theorem GetNextSemver_run_shared_counterexample :
    ParseVersionWithPrefix "v1.2.3" "v" = .ok (⟨1, 2, 3, "", ""⟩, "1.2.3") ∧
      IncrementVersion ⟨1, 2, 3, "", ""⟩ true true =
        .error "cannot increment both major and minor versions simultaneously" ∧
      GetNextSemver.run ⟨"v1.2.3", true, true, "v"⟩ =
        { Version := "v2.0.0", VersionCore := "2.0.0", Major := 2, Minor := 0, Patch := 0,
          IncrementType := "major", Success := true, Error := none } :=
  ⟨rfl, rfl, by decide⟩

/-- C26 (amended): for every prefix and every current-version string that parses once the
prefix is stripped: when the two flags are not both true, `run` of get-next-semver gives the
outcome of the shared `ParseVersionWithPrefix` followed by `IncrementVersion` and
`FormatVersionWithPrefix`: all succeed, the increment type is the same, `Version` is the
formatted version string, and `Major`, `Minor`, `Patch` are the major, minor and patch of the
incremented version (as Go `int`s, the `int(...)` of the unsigned components, and the same
numbers whenever these are below 2^63); when both flags are true, the shared `IncrementVersion`
returns its error while `run` succeeds with exactly the result it gives for the major flag
alone, the major increment of the shared function. -/
theorem GetNextSemver_run_same_as_shared (config : GetNextSemver.Config) (v : SemanticVersion)
    (hparse : ParseSemanticVersion (TrimPrefix config.CurrentVersion config.Prefix) = .ok v) :
    ParseVersionWithPrefix config.CurrentVersion config.Prefix =
        .ok (v, TrimPrefix config.CurrentVersion config.Prefix) ∧
      (¬ (config.IncrementMajor = true ∧ config.IncrementMinor = true) →
        ∃ w t, IncrementVersion v config.IncrementMajor config.IncrementMinor = .ok (w, t) ∧
          (GetNextSemver.run config).Success = true ∧
          (GetNextSemver.run config).Error = none ∧
          (GetNextSemver.run config).IncrementType = t ∧
          (GetNextSemver.run config).Version = FormatVersionWithPrefix w config.Prefix ∧
          (GetNextSemver.run config).VersionCore = FormatVersionWithPrefix w "" ∧
          (GetNextSemver.run config).Major = goInt w.MajorVersion ∧
          (GetNextSemver.run config).Minor = goInt w.MinorVersion ∧
          (GetNextSemver.run config).Patch = goInt w.PatchVersion ∧
          (w.MajorVersion < 2 ^ 63 → (GetNextSemver.run config).Major = (w.MajorVersion : Int)) ∧
          (w.MinorVersion < 2 ^ 63 → (GetNextSemver.run config).Minor = (w.MinorVersion : Int)) ∧
          (w.PatchVersion < 2 ^ 63 →
            (GetNextSemver.run config).Patch = (w.PatchVersion : Int))) ∧
      (config.IncrementMajor = true ∧ config.IncrementMinor = true →
        IncrementVersion v config.IncrementMajor config.IncrementMinor =
          .error bothFlagsMessage ∧
        GetNextSemver.run config = GetNextSemver.run { config with IncrementMinor := false } ∧
        ∃ w, IncrementVersion v true false = .ok (w, "major") ∧
          (GetNextSemver.run config).Success = true ∧
          (GetNextSemver.run config).Error = none ∧
          (GetNextSemver.run config).IncrementType = "major" ∧
          (GetNextSemver.run config).Version = FormatVersionWithPrefix w config.Prefix ∧
          (GetNextSemver.run config).Major = goInt w.MajorVersion ∧
          (GetNextSemver.run config).Minor = goInt w.MinorVersion ∧
          (GetNextSemver.run config).Patch = goInt w.PatchVersion) := by
  have hempty : ∀ t : String, ("" : String) ++ t = t := fun t => String.ext (by simp)
  refine ⟨(ParseVersionWithPrefix_ok_iff _ _ _ _).2 ⟨hparse, rfl⟩, ?_, ?_⟩
  · intro hflags
    have key : ∀ (major minor patch : Nat) (t : String),
        (if config.IncrementMajor then
            ((v.MajorVersion + 1) % uintSize, 0, 0, "major")
          else if config.IncrementMinor then
            (v.MajorVersion, (v.MinorVersion + 1) % uintSize, 0, "minor")
          else
            (v.MajorVersion, v.MinorVersion, (v.PatchVersion + 1) % uintSize, "patch")) =
          (major, minor, patch, t) →
        IncrementVersion v config.IncrementMajor config.IncrementMinor =
          .ok (⟨major, minor, patch, "", ""⟩, t) →
        ∃ w t, IncrementVersion v config.IncrementMajor config.IncrementMinor = .ok (w, t) ∧
          (GetNextSemver.run config).Success = true ∧
          (GetNextSemver.run config).Error = none ∧
          (GetNextSemver.run config).IncrementType = t ∧
          (GetNextSemver.run config).Version = FormatVersionWithPrefix w config.Prefix ∧
          (GetNextSemver.run config).VersionCore = FormatVersionWithPrefix w "" ∧
          (GetNextSemver.run config).Major = goInt w.MajorVersion ∧
          (GetNextSemver.run config).Minor = goInt w.MinorVersion ∧
          (GetNextSemver.run config).Patch = goInt w.PatchVersion ∧
          (w.MajorVersion < 2 ^ 63 → (GetNextSemver.run config).Major = (w.MajorVersion : Int)) ∧
          (w.MinorVersion < 2 ^ 63 → (GetNextSemver.run config).Minor = (w.MinorVersion : Int)) ∧
          (w.PatchVersion < 2 ^ 63 →
            (GetNextSemver.run config).Patch = (w.PatchVersion : Int)) := by
      intro major minor patch t hnext hinc
      rw [GetNextSemver_run_ok config v hparse major minor patch t hnext]
      refine ⟨_, t, hinc, rfl, rfl, rfl, ?_, ?_, rfl, rfl, rfl, fun h => goInt_of_lt _ h,
        fun h => goInt_of_lt _ h, fun h => goInt_of_lt _ h⟩
      · rw [FormatVersionWithPrefix_release]
      · rw [FormatVersionWithPrefix_release, hempty]
    rcases Bool.eq_false_or_eq_true config.IncrementMajor with hM | hM <;>
      rcases Bool.eq_false_or_eq_true config.IncrementMinor with hm | hm
    · exact absurd ⟨hM, hm⟩ hflags
    · exact key ((v.MajorVersion + 1) % uintSize) 0 0 "major"
        (by rw [hM]; rfl) (by rw [hM, hm]; rfl)
    · exact key v.MajorVersion ((v.MinorVersion + 1) % uintSize) 0 "minor"
        (by rw [hM, hm]; rfl) (by rw [hM, hm]; rfl)
    · exact key v.MajorVersion v.MinorVersion ((v.PatchVersion + 1) % uintSize) "patch"
        (by rw [hM, hm]; rfl) (by rw [hM, hm]; rfl)
  · rintro ⟨hM, hm⟩
    have hrun := GetNextSemver_run_ok config v hparse ((v.MajorVersion + 1) % uintSize) 0 0
      "major" (by rw [hM]; rfl)
    have hrun1 := GetNextSemver_run_ok { config with IncrementMinor := false } v hparse
      ((v.MajorVersion + 1) % uintSize) 0 0 "major"
      (by show (if config.IncrementMajor = true then _ else _) = _; rw [hM]; rfl)
    refine ⟨by rw [hM, hm]; rfl, by rw [hrun, hrun1],
      ⟨(v.MajorVersion + 1) % uintSize, 0, 0, "", ""⟩, rfl, ?_⟩
    rw [hrun]
    refine ⟨rfl, rfl, rfl, ?_, rfl, rfl, rfl⟩
    rw [FormatVersionWithPrefix_release]

theorem GetNextSemver_run_same_as_shared_witness :
    ParseVersionWithPrefix "v1.2.3-alpha+b" "v" =
        .ok (⟨1, 2, 3, "alpha", "b"⟩, TrimPrefix "v1.2.3-alpha+b" "v") ∧
      (∃ w t, IncrementVersion ⟨1, 2, 3, "alpha", "b"⟩ false false = .ok (w, t) ∧
        (GetNextSemver.run ⟨"v1.2.3-alpha+b", false, false, "v"⟩).Success = true ∧
        (GetNextSemver.run ⟨"v1.2.3-alpha+b", false, false, "v"⟩).Error = none ∧
        (GetNextSemver.run ⟨"v1.2.3-alpha+b", false, false, "v"⟩).IncrementType = t ∧
        (GetNextSemver.run ⟨"v1.2.3-alpha+b", false, false, "v"⟩).Version =
          FormatVersionWithPrefix w "v") ∧
      GetNextSemver.run ⟨"v1.2.3-alpha+b", false, false, "v"⟩ =
        { Version := "v1.2.4", VersionCore := "1.2.4", Major := 1, Minor := 2, Patch := 4,
          IncrementType := "patch", Success := true, Error := none } :=
  have h := (GetNextSemver_run_same_as_shared ⟨"v1.2.3-alpha+b", false, false, "v"⟩
    ⟨1, 2, 3, "alpha", "b"⟩ rfl)
  ⟨h.1,
   (h.2.1 (by decide)).imp fun _ hw => hw.imp fun _ ht =>
     ⟨ht.1, ht.2.1, ht.2.2.1, ht.2.2.2.1, ht.2.2.2.2.1⟩,
   by decide⟩

/-! ## Tag selection and the order of the input -/

/-- C28: tag selection does not depend on the order of the input: for two lists of tags that
are permutations of each other, `FindLatestSemverTag` reports the same found flag on both; when
found, the two returned tags parse to precedence-equal versions; and they are the same tag
when no two distinct surviving tags are precedence-equal. -/
theorem FindLatestSemverTag_order_independent
    (sortSlice : (TagWithVersion → TagWithVersion → Bool) →
      List TagWithVersion → List TagWithVersion) (hsort : SortSliceContract sortSlice)
    (tags1 tags2 : List String) (hperm : tags1.Perm tags2) (pfx : String) :
    (FindLatestSemverTag sortSlice tags1 pfx).2.1 =
        (FindLatestSemverTag sortSlice tags2 pfx).2.1 ∧
      ((FindLatestSemverTag sortSlice tags1 pfx).2.1 = true →
        ∃ v1 v2,
          ParseSemanticVersion
            (TrimPrefix (FindLatestSemverTag sortSlice tags1 pfx).1 pfx) = .ok v1 ∧
          ParseSemanticVersion
            (TrimPrefix (FindLatestSemverTag sortSlice tags2 pfx).1 pfx) = .ok v2 ∧
          v1.Compare v2 = 0 ∧
          ((∀ t1 ∈ tags1, ∀ t2 ∈ tags1, ∀ w1 w2,
              HasPrefix t1 pfx = true → HasPrefix t2 pfx = true →
              ParseSemanticVersion (TrimPrefix t1 pfx) = .ok w1 →
              ParseSemanticVersion (TrimPrefix t2 pfx) = .ok w2 →
              w1.Compare w2 = 0 → t1 = t2) →
            (FindLatestSemverTag sortSlice tags1 pfx).1 =
              (FindLatestSemverTag sortSlice tags2 pfx).1)) := by
  have hT := comparePrecedence_transCmp
  have hO : Batteries.OrientedCmp comparePrecedence := hT.toOrientedCmp
  have hnil : collectValidVersions tags1 pfx = [] ↔ collectValidVersions tags2 pfx = [] := by
    rw [collectValidVersions_eq_nil_iff, collectValidVersions_eq_nil_iff]
    exact ⟨fun h t ht => h t (hperm.symm.subset ht), fun h t ht => h t (hperm.subset ht)⟩
  by_cases h1 : collectValidVersions tags1 pfx = []
  · have h2 := hnil.1 h1
    rw [FindLatestSemverTag_of_none sortSlice tags1 pfx h1,
      FindLatestSemverTag_of_none sortSlice tags2 pfx h2]
    simp
  · have h2 : collectValidVersions tags2 pfx ≠ [] := fun h => h1 (hnil.2 h)
    obtain ⟨l1, -, e1, -⟩ := FindLatestSemverTag_of_some sortSlice hsort tags1 pfx h1
    obtain ⟨l2, -, e2, -⟩ := FindLatestSemverTag_of_some sortSlice hsort tags2 pfx h2
    obtain ⟨v1, p1, m1, s1, max1⟩ :=
      FindLatestSemverTag_selected_not_less sortSlice hsort tags1 pfx l1.Tag none e1
    obtain ⟨v2, p2, m2, s2, max2⟩ :=
      FindLatestSemverTag_selected_not_less sortSlice hsort tags2 pfx l2.Tag none e2
    rw [e1, e2]
    refine ⟨rfl, fun _ => ⟨v1, v2, p1, p2, ?_, ?_⟩⟩
    · have hge : comparePrecedence v1 v2 ≠ .lt := max1 l2.Tag (hperm.symm.subset m2) s2 v2 p2
      have hle : comparePrecedence v2 v1 ≠ .lt := max2 l1.Tag (hperm.subset m1) s1 v1 p1
      rw [Compare_zero_iff]
      cases hc : comparePrecedence v1 v2 with
      | lt => exact absurd hc hge
      | eq => rfl
      | gt => exact absurd (Batteries.OrientedCmp.cmp_eq_gt.1 hc) hle
    · intro huniq
      have hge : comparePrecedence v1 v2 ≠ .lt := max1 l2.Tag (hperm.symm.subset m2) s2 v2 p2
      have hle : comparePrecedence v2 v1 ≠ .lt := max2 l1.Tag (hperm.subset m1) s1 v1 p1
      have heq : v1.Compare v2 = 0 := by
        rw [Compare_zero_iff]
        cases hc : comparePrecedence v1 v2 with
        | lt => exact absurd hc hge
        | eq => rfl
        | gt => exact absurd (Batteries.OrientedCmp.cmp_eq_gt.1 hc) hle
      exact huniq l1.Tag m1 l2.Tag (hperm.symm.subset m2) v1 v2 s1 s2 p1 p2 heq

theorem FindLatestSemverTag_order_independent_witness :
    FindLatestSemverTag insertionSortLessFunc ["v1.0.0", "v1.1.0", "x"] "v" =
        ("v1.1.0", true, none) ∧
      FindLatestSemverTag insertionSortLessFunc ["x", "v1.1.0", "v1.0.0"] "v" =
        ("v1.1.0", true, none) ∧
      (FindLatestSemverTag insertionSortLessFunc ["v1.0.0", "v1.1.0", "x"] "v").2.1 =
        (FindLatestSemverTag insertionSortLessFunc ["x", "v1.1.0", "v1.0.0"] "v").2.1 :=
  ⟨by decide, by decide,
   (FindLatestSemverTag_order_independent insertionSortLessFunc insertionSortLessFunc_contract
     ["v1.0.0", "v1.1.0", "x"] ["x", "v1.1.0", "v1.0.0"] (by decide) "v").1⟩

end HogActions
